import Mathlib

/-!
# Shard-result merging in eorm: aggregators and merged cursors

A shallow embedding of

* `internal/merger/internal/aggregatemerger/aggregator/count.go`
* `internal/merger/internal/aggregatemerger/merger.go`
* `internal/merger/internal/groupbymerger/aggregator_merger.go`

Conventions of the embedding.

* A Go value of type `any` found in a scanned row is a `Value`.  Integers carry
  their Go type (`IntKind`) and a mathematical integer; arithmetic in the type
  is reduced with `IntKind.wrap` (two's complement, `int` and `uint` are 64 bit
  wide).  Floating point numbers are bit patterns; their arithmetic is not
  modelled and is taken as a parameter (`FloatArith`), so every theorem holds
  for whatever the hardware computes.
* A Go function returning `(T, error)` returns `Result T`; a run-time panic
  (index out of range, failed type assertion, call of a nil function) is the
  fault `Fault.panic`.
* The mutex of a cursor is not modelled: operations are atomic state
  transformers.
* Two parts of package `aggregator` are not among the sources and are modelled
  from the specification, each marked so in its comment: the helper
  `nullableAggregator` that `Count` calls, and the aggregator `Min`.
* The libraries are modelled at their interface: a shard source (`rows.Rows`
  read through `sqlx`) by the outcomes of its calls, the ordered map
  `mapx.TreeMap` by its entries, `multierr.Combine` by the list it combines.
-/

namespace Eorm

/-! ## Errors -/

/-- The sentinel errors of package `errs`, the error of a cancelled context and
the errors that shard sources and the scanning utility report. -/
inductive GoError
  | ErrMergerEmptyRows
  | ErrMergerRowsIsNull
  | ErrMergerRowsClosed
  | ErrMergerScanNotNext
  | ErrMergerInvalidAggregateColumnIndex
  | ErrMergerAggregateFuncNotFound
  | ErrMergerAggregateHasEmptyRows
  | contextErr (code : Nat)
  | sourceErr (code : Nat)
  deriving DecidableEq, Repr

/-- How a call can fail: with a returned error, or with a run-time panic. -/
inductive Fault
  | err (e : GoError)
  | panic
  deriving DecidableEq, Repr

/-- Outcome of a Go function with result `(α, error)`. -/
abbrev Result (α : Type) := Except Fault α

deriving instance DecidableEq for Except

/-! ## Values -/

/-- The integer types of Go that the aggregators and comparators register. -/
inductive IntKind
  | int | int8 | int16 | int32 | int64
  | uint | uint8 | uint16 | uint32 | uint64
  deriving DecidableEq, Repr

/-- Width in bits. -/
def IntKind.bits : IntKind → Nat
  | .int => 64 | .int8 => 8 | .int16 => 16 | .int32 => 32 | .int64 => 64
  | .uint => 64 | .uint8 => 8 | .uint16 => 16 | .uint32 => 32 | .uint64 => 64

/-- Signedness. -/
def IntKind.signed : IntKind → Bool
  | .int | .int8 | .int16 | .int32 | .int64 => true
  | .uint | .uint8 | .uint16 | .uint32 | .uint64 => false

/-- Smallest value of the type. -/
def IntKind.minVal (k : IntKind) : Int :=
  if k.signed then -(2 : Int) ^ (k.bits - 1) else 0

/-- Largest value of the type. -/
def IntKind.maxVal (k : IntKind) : Int :=
  if k.signed then (2 : Int) ^ (k.bits - 1) - 1 else (2 : Int) ^ k.bits - 1

/-- The value is representable in the type. -/
def IntKind.inRange (k : IntKind) (v : Int) : Prop :=
  k.minVal ≤ v ∧ v ≤ k.maxVal

instance (k : IntKind) (v : Int) : Decidable (k.inRange v) := by
  unfold IntKind.inRange
  exact inferInstance

/-- Reduction of a mathematical integer into the type, as Go's integer
arithmetic does on overflow. -/
def IntKind.wrap (k : IntKind) (v : Int) : Int :=
  if k.signed then
    (v + (2 : Int) ^ (k.bits - 1)) % (2 : Int) ^ k.bits - (2 : Int) ^ (k.bits - 1)
  else
    v % (2 : Int) ^ k.bits

/-- The kinds of `reflect.Kind` that occur; `invalid` is its zero value. -/
inductive Kind
  | invalid
  | int (k : IntKind)
  | float32
  | float64
  | string
  | bool
  | struct
  deriving DecidableEq, Repr

/-- A scanned value: a scalar, or one of the nullable wrappers of
`database/sql` whose `Value()` is its field (`NullInt64`, `NullFloat64`,
`NullString`, `NullBool`). -/
inductive Value
  | int (k : IntKind) (v : Int)
  | float32 (b : Nat)
  | float64 (b : Nat)
  | str (s : String)
  | bool (b : Bool)
  | nullInt64 (v : Int) (valid : Bool)
  | nullFloat64 (b : Nat) (valid : Bool)
  | nullString (s : String) (valid : Bool)
  | nullBool (b : Bool) (valid : Bool)
  deriving DecidableEq, Repr

/-- One scanned row (`[]any`). -/
abbrev Row := List Value

/-- The result of `reflect.TypeOf(v).Kind()`. -/
def Value.kind : Value → Kind
  | .int k _ => .int k
  | .float32 _ => .float32
  | .float64 _ => .float64
  | .str _ => .string
  | .bool _ => .bool
  | .nullInt64 _ _ => .struct
  | .nullFloat64 _ _ => .struct
  | .nullString _ _ => .struct
  | .nullBool _ _ => .struct

/-- The result of `driver.Valuer.Value()` on a wrapper (`none` is SQL NULL); a
scalar is its own value. -/
def Value.unwrap : Value → Option Value
  | .nullInt64 v valid => if valid then some (.int .int64 v) else none
  | .nullFloat64 b valid => if valid then some (.float64 b) else none
  | .nullString s valid => if valid then some (.str s) else none
  | .nullBool b valid => if valid then some (.bool b) else none
  | v => some v

/-- The value is a SQL NULL: a nullable wrapper that is not valid. -/
def Value.isNull (v : Value) : Bool := v.unwrap.isNone

/-- Indexing `col[i]` with a Go `int`: `none` stands for the index-out-of-range
panic. -/
def index (col : Row) (i : Int) : Option Value :=
  if i < 0 then none else col[i.toNat]?

/-- Floating point operations, which the embedding does not interpret:
addition and the comparison `<` on bit patterns of both widths. -/
structure FloatArith where
  add32 : Nat → Nat → Nat
  add64 : Nat → Nat → Nat
  lt32 : Nat → Nat → Bool
  lt64 : Nat → Nat → Bool

/-! ## Aggregators -/

/-- The type `merger.ColumnInfo`: position of the source value in each shard
row, name and aggregate function. -/
structure ColumnInfo where
  Index : Int
  Name : String
  AggregateFunc : String
  deriving DecidableEq, Repr

/-- The types of the constraint `AggregateElement`. -/
inductive NumKind
  | int (k : IntKind)
  | float32
  | float64
  deriving DecidableEq, Repr

/-- The zero value of `var count T`. -/
def NumKind.zero : NumKind → Value
  | .int k => .int k 0
  | .float32 => .float32 0
  | .float64 => .float64 0

/-- The statement `count += x.(T)`: the type assertion panics unless the
dynamic type of `x` is `T`. -/
def addAssert (fa : FloatArith) : NumKind → Value → Value → Result Value
  | .int k, .int _ c, .int k2 v =>
    if k2 = k then .ok (.int k (k.wrap (c + v))) else .error .panic
  | .float32, .float32 c, .float32 v => .ok (.float32 (fa.add32 c v))
  | .float64, .float64 c, .float64 v => .ok (.float64 (fa.add64 c v))
  | _, _, _ => .error .panic

/-- The loop of `countAggregate[T]`. -/
def countLoop (fa : FloatArith) (T : NumKind) (countIndex : Int) : Value → List Row → Result Value
  | count, [] => .ok count
  | count, col :: rest =>
    match index col countIndex with
    | none => .error .panic
    | some x =>
      match addAssert fa T count x with
      | .error f => .error f
      | .ok count2 => countLoop fa T countIndex count2 rest

/-- The generic function `countAggregate[T]`. -/
def countAggregate (fa : FloatArith) (T : NumKind) (cols : List Row) (countIndex : Int) :
    Result Value :=
  countLoop fa T countIndex T.zero cols

/-- Modelled from the spec: the loop of `nullableAggregator` (its file is not
among the sources) over the rows, with the non-null rows kept so far and the
kind recorded so far. -/
def nullableLoop (index_ : Int) : List Row → Kind → List Row → Result (List Row × Kind)
  | acc, kind, [] => .ok (acc, kind)
  | acc, kind, colData :: rest =>
    match index colData index_ with
    | none => .error .panic
    | some col =>
      match col.unwrap with
      | none => nullableLoop index_ acc kind rest
      | some v =>
        nullableLoop index_ (acc ++ [colData.set index_.toNat v])
          (if acc.isEmpty then v.kind else kind) rest

/-- Modelled from the spec: `nullableAggregator`, the helper of package
`aggregator` whose file is not among the sources.  It partitions the inputs
into non-null and null, discards the nulls, hands on the non-null rows with the
value at the index unwrapped to its scalar, and records the scalar kind of the
first non-null value seen. -/
def nullableAggregator (colsData : List Row) (index_ : Int) : Result (List Row × Kind) :=
  nullableLoop index_ [] .invalid colsData

/-- The table `countAggregateFuncMapping`; `none` is a missing entry. -/
def countAggregateFuncMapping (fa : FloatArith) :
    Kind → Option (List Row → Int → Result Value)
  | .int k => some (countAggregate fa (.int k))
  | .float32 => some (countAggregate fa .float32)
  | .float64 => some (countAggregate fa .float64)
  | _ => none

/-- The aggregator `Count`. -/
structure Count where
  name : String
  countInfo : ColumnInfo
  deriving DecidableEq, Repr

/-- The constructor `NewCount`. -/
def NewCount (info : ColumnInfo) : Count :=
  { name := "COUNT", countInfo := info }

/-- The method `(*Count).countNullableAggregator`. -/
def Count.countNullableAggregator (fa : FloatArith) (colsData : List Row) (countIndex : Int) :
    Result Value :=
  match nullableAggregator colsData countIndex with
  | .error f => .error f
  | .ok (notNullCols, kind) =>
    if notNullCols.length = 0 then
      match colsData with
      | [] => .error .panic
      | c0 :: _ =>
        match index c0 countIndex with
        | none => .error .panic
        | some v => .ok v
    else
      match countAggregateFuncMapping fa kind with
      | none => .error (.err .ErrMergerAggregateFuncNotFound)
      | some countFunc => countFunc notNullCols countIndex

/-- The method `(*Count).findCountFunc`. -/
def Count.findCountFunc (fa : FloatArith) (s : Count) (col : Row) :
    Result (List Row → Int → Result Value) :=
  if s.countInfo.Index < 0 ∨ s.countInfo.Index ≥ (col.length : Int) then
    .error (.err .ErrMergerInvalidAggregateColumnIndex)
  else
    .ok (Count.countNullableAggregator fa)

/-- The method `(*Count).Aggregate`; `cols[0]` panics on an empty batch. -/
def Count.Aggregate (fa : FloatArith) (s : Count) (cols : List Row) : Result Value :=
  match cols with
  | [] => .error .panic
  | c0 :: _ =>
    match s.findCountFunc fa c0 with
    | .error f => .error f
    | .ok countFunc => countFunc cols s.countInfo.Index

/-- The method `(*Count).ColumnInfo`. -/
def Count.ColumnInfo (s : Count) : ColumnInfo := s.countInfo

/-- The method `(*Count).Name`. -/
def Count.Name (s : Count) : String := s.name

/-- A float interpretation for evaluating examples that hold no float. -/
def FloatArith.sample : FloatArith :=
  { add32 := fun a b => a + b, add64 := fun a b => a + b,
    lt32 := fun a b => decide (a < b), lt64 := fun a b => decide (a < b) }

/-- The aggregator `COUNT` over column `i`, as the tests build it. -/
def countAt (i : Int) : Count :=
  NewCount { Index := i, Name := "id", AggregateFunc := "COUNT" }

/-- Modelled from the spec: the type assertion `x.(T)` at the head of the
combining function of `Min` (min.go is not among the sources); it panics unless
the dynamic type of `x` is `T`. -/
def assertType : NumKind → Value → Result Value
  | .int k, .int k2 v => if k2 = k then .ok (.int k v) else .error .panic
  | .float32, .float32 b => .ok (.float32 b)
  | .float64, .float64 b => .ok (.float64 b)
  | _, _ => .error .panic

/-- Modelled from the spec: the scalar ordering comparison `x.(T) < ans` that
`Min` combines with (min.go is not among the sources). -/
def lessAssert (fa : FloatArith) : NumKind → Value → Value → Result Bool
  | .int k, .int k2 x, .int _ ans => if k2 = k then .ok (decide (x < ans)) else .error .panic
  | .float32, .float32 x, .float32 ans => .ok (fa.lt32 x ans)
  | .float64, .float64 x, .float64 ans => .ok (fa.lt64 x ans)
  | _, _, _ => .error .panic

/-- Modelled from the spec: the loop of the combining function of `Min`
(min.go is not among the sources), which compares every further non-null input
with the smallest one so far. -/
def minLoop (fa : FloatArith) (T : NumKind) (minIndex : Int) : Value → List Row → Result Value
  | ans, [] => .ok ans
  | ans, col :: rest =>
    match index col minIndex with
    | none => .error .panic
    | some x =>
      match lessAssert fa T x ans with
      | .error f => .error f
      | .ok true => minLoop fa T minIndex x rest
      | .ok false => minLoop fa T minIndex ans rest

/-- Modelled from the spec: the combining function of `Min` for the type `T`
(min.go is not among the sources): "combine by scalar ordering comparison
across all (non-null) inputs, returning the minimum". -/
def minAggregate (fa : FloatArith) (T : NumKind) (cols : List Row) (minIndex : Int) :
    Result Value :=
  match cols with
  | [] => .ok T.zero
  | col :: rest =>
    match index col minIndex with
    | none => .error .panic
    | some x =>
      match assertType T x with
      | .error f => .error f
      | .ok first => minLoop fa T minIndex first rest

/-- Modelled from the spec: the table of combining functions of `Min` (min.go
is not among the sources), one for every numeric kind; strings have none, as
the test of `Min` requires. -/
def minAggregateFuncMapping (fa : FloatArith) :
    Kind → Option (List Row → Int → Result Value)
  | .int k => some (minAggregate fa (.int k))
  | .float32 => some (minAggregate fa .float32)
  | .float64 => some (minAggregate fa .float64)
  | _ => none

/-- Modelled from the spec: the aggregator `Min` (min.go is not among the
sources; its test min_test.go is). -/
structure Min where
  name : String
  minInfo : ColumnInfo
  deriving DecidableEq, Repr

/-- Modelled from the spec: the constructor `NewMin` that min_test.go calls
(min.go is not among the sources). -/
def NewMin (info : ColumnInfo) : Min :=
  { name := "MIN", minInfo := info }

/-- Modelled from the spec: NULL handling and type dispatch of `Min` (min.go is
not among the sources): all inputs NULL gives the first input's wrapper, a kind
without combining function gives `AggregateFuncNotFound`. -/
def Min.minNullableAggregator (fa : FloatArith) (colsData : List Row) (minIndex : Int) :
    Result Value :=
  match nullableAggregator colsData minIndex with
  | .error f => .error f
  | .ok (notNullCols, kind) =>
    if notNullCols.length = 0 then
      match colsData with
      | [] => .error .panic
      | c0 :: _ =>
        match index c0 minIndex with
        | none => .error .panic
        | some v => .ok v
    else
      match minAggregateFuncMapping fa kind with
      | none => .error (.err .ErrMergerAggregateFuncNotFound)
      | some minFunc => minFunc notNullCols minIndex

/-- Modelled from the spec: `Min.Aggregate` (min.go is not among the sources):
the column index must be within bounds of the first batch, otherwise
`InvalidAggregateColumnIndex`; then NULL handling, dispatch and combination. -/
def Min.Aggregate (fa : FloatArith) (s : Min) (cols : List Row) : Result Value :=
  match cols with
  | [] => .error .panic
  | c0 :: _ =>
    if s.minInfo.Index < 0 ∨ s.minInfo.Index ≥ (c0.length : Int) then
      .error (.err .ErrMergerInvalidAggregateColumnIndex)
    else
      Min.minNullableAggregator fa cols s.minInfo.Index

/-- The aggregator `MIN` over column `i`, as the tests build it. -/
def minAt (i : Int) : Min :=
  NewMin { Index := i, Name := "id", AggregateFunc := "MIN" }

/-- The interface `aggregator.Aggregator`: a value of one of the aggregator
types, seen through its three methods. -/
structure Aggregator where
  Aggregate : List Row → Result Value
  ColumnInfo : ColumnInfo
  Name : String

/-- A `*Count` as an `Aggregator`. -/
def Count.toAggregator (fa : FloatArith) (s : Count) : Aggregator :=
  { Aggregate := s.Aggregate fa, ColumnInfo := s.ColumnInfo, Name := s.Name }

/-! ## Shard sources -/

/-- Column type metadata (`*sql.ColumnType`), identified by a name. -/
abbrev ColumnType := String

/-- The calls that mergers and cursors make on a shard source. -/
inductive SourceCall
  | columnTypes
  | newScanner
  | scan
  | scanAll
  | close
  deriving DecidableEq, Repr

/-- A shard source (`rows.Rows`) as the mergers observe it: the outcomes of the
scans still to come (a row or a scan failure; none left means exhausted), its
column types, the failure of `sqlx.NewSQLRowsScanner` on it if any, the failure
of its `Close` if any, and the calls made on it so far. -/
structure ShardRows where
  pending : List (Except GoError Row)
  columnTypes : Except GoError (List ColumnType)
  scannerErr : Option GoError
  closeErr : Option GoError
  calls : List SourceCall
  deriving DecidableEq, Repr

/-- The source after one more call. -/
def ShardRows.called (row : ShardRows) (c : SourceCall) : ShardRows :=
  { row with calls := row.calls ++ [c] }

/-- The context handed to `Merge`, seen through `ctx.Err()`. -/
structure Context where
  err : Option GoError
  deriving DecidableEq, Repr

/-! ## The plain aggregate merger -/

/-- The type `Merger`. -/
structure Merger where
  aggregators : List Aggregator
  colNames : List String
  avgIndexes : List Int

/-- The constructor `NewMerger`; the method `ColumnInfo.SelectName` of package
`merger` is not among the sources and is a parameter. -/
def NewMerger (selectName : ColumnInfo → String) (aggregators : List Aggregator) : Merger :=
  { aggregators := aggregators,
    colNames := aggregators.map (fun agg => selectName agg.ColumnInfo),
    avgIndexes := (aggregators.filter (fun agg => agg.Name == "AVG")).map
      (fun agg => agg.ColumnInfo.Index) }

/-- The cursor type `Rows` of the plain merger, without its mutex. -/
structure Rows where
  rowsList : List ShardRows
  aggregators : List Aggregator
  avgIndexes : List Int
  closed : Bool
  lastErr : Option GoError
  cur : List Value
  columns : List String
  nextCalled : Bool

/-- The shard sources handed to `Merge` when none of them is nil. -/
def allPresent : List (Option ShardRows) → Option (List ShardRows)
  | [] => some []
  | none :: _ => none
  | some r :: rest =>
    match allPresent rest with
    | none => none
    | some rs => some (r :: rs)

/-- The method `(*Merger).Merge`: the shard sources after the call, and its
result. -/
def Merger.Merge (m : Merger) (ctx : Context) (results : List (Option ShardRows)) :
    List (Option ShardRows) × Except GoError Rows :=
  match ctx.err with
  | some e => (results, .error e)
  | none =>
    if results.length = 0 then
      (results, .error .ErrMergerEmptyRows)
    else
      match allPresent results with
      | none => (results, .error .ErrMergerRowsIsNull)
      | some rs =>
        (results, .ok
          { rowsList := rs, aggregators := m.aggregators, avgIndexes := m.avgIndexes,
            closed := false, lastErr := none, cur := [], columns := m.colNames,
            nextCalled := false })

/-- The method `(*Rows).getSqlRowData`: the source after the call, and the row
scanned from it. -/
def getSqlRowData (row : ShardRows) : ShardRows × Except GoError Row :=
  match row.scannerErr with
  | some e => (row.called .newScanner, .error e)
  | none =>
    match row.pending with
    | [] => ((row.called .newScanner).called .scan, .error .ErrMergerAggregateHasEmptyRows)
    | res :: rest =>
      ({ (row.called .newScanner).called .scan with pending := rest }, res)

/-- The method `(*Rows).getSqlRowsData`: the sources after the call, and one row
of every source. -/
def getSqlRowsData : List ShardRows → List ShardRows × Except GoError (List Row)
  | [] => ([], .ok [])
  | row :: rest =>
    match getSqlRowData row with
    | (row2, .error e) => (row2 :: rest, .error e)
    | (row2, .ok colData) =>
      match getSqlRowsData rest with
      | (rest2, .error e) => (row2 :: rest2, .error e)
      | (rest2, .ok rowsData) => (row2 :: rest2, .ok (colData :: rowsData))

/-- The method `(*Rows).executeAggregateCalculation`. -/
def executeAggregateCalculation : List Aggregator → List Row → Result (List Value)
  | [], _ => .ok []
  | agg :: rest, rowsData =>
    match agg.Aggregate rowsData with
    | .error f => .error f
    | .ok val =>
      match executeAggregateCalculation rest rowsData with
      | .error f => .error f
      | .ok res => .ok (val :: res)

/-- The loop of `Close` over the owned sources: the sources after the calls,
and the list of errors handed to `multierr.Combine`. -/
def closeAll : List ShardRows → List ShardRows × List GoError
  | [] => ([], [])
  | row :: rest =>
    match row.closeErr with
    | some e => ((row.called .close) :: (closeAll rest).1, e :: (closeAll rest).2)
    | none => ((row.called .close) :: (closeAll rest).1, (closeAll rest).2)

/-- The method `(*Rows).Close`; its result is the list of errors that
`multierr.Combine` combines, the empty list being nil. -/
def Rows.Close (r : Rows) : Rows × List GoError :=
  ({ r with closed := true, rowsList := (closeAll r.rowsList).1 }, (closeAll r.rowsList).2)

/-- The method `(*Rows).Next`; `none` is a panic of an aggregator. -/
def Rows.Next (r : Rows) : Option (Rows × Bool) :=
  if r.closed = true ∨ r.lastErr ≠ none then
    some (r, false)
  else if r.nextCalled = true then
    some (r.Close.1, false)
  else
    match getSqlRowsData r.rowsList with
    | (srcs, .error e) =>
      some ((Rows.Close { r with rowsList := srcs, nextCalled := true, lastErr := some e }).1,
        false)
    | (srcs, .ok rowsData) =>
      match executeAggregateCalculation r.aggregators rowsData with
      | .error (.err e) =>
        some ((Rows.Close { r with rowsList := srcs, nextCalled := true, lastErr := some e }).1,
          false)
      | .error .panic => none
      | .ok res => some ({ r with rowsList := srcs, nextCalled := true, cur := res }, true)

/-- A destination of `Scan`: what `rows.ConvertAssign` (not among the sources)
stores into it for a value, or its error. -/
abbrev Dest := Value → Except GoError Value

/-- The loop of `Scan`: `ConvertAssign(dest[i], cur[i])` for every destination;
`cur[i]` panics when there are more destinations than values. -/
def scanLoop : List Dest → List Value → Result (List Value)
  | [], _ => .ok []
  | _ :: _, [] => .error .panic
  | d :: ds, v :: vs =>
    match d v with
    | .error e => .error (.err e)
    | .ok w =>
      match scanLoop ds vs with
      | .error f => .error f
      | .ok ws => .ok (w :: ws)

/-- The method `(*Rows).Scan`: the values stored into the destinations, or the
failure. -/
def Rows.Scan (r : Rows) (dest : List Dest) : Result (List Value) :=
  match r.lastErr with
  | some e => .error (.err e)
  | none =>
    if r.closed = true then
      .error (.err .ErrMergerRowsClosed)
    else if r.cur.length = 0 then
      .error (.err .ErrMergerScanNotNext)
    else
      scanLoop dest r.cur

/-- The method `(*Rows).Columns`. -/
def Rows.Columns (r : Rows) : Except GoError (List String) :=
  if r.closed = true then .error .ErrMergerRowsClosed else .ok r.columns

/-- The method `(*Rows).Err`. -/
def Rows.Err (r : Rows) : Option GoError := r.lastErr

/-- The method `(*Rows).NextResultSet`. -/
def Rows.NextResultSet (_r : Rows) : Bool := false

/-- The slice expression `ts[low:high]` on a slice whose capacity is its
length; `none` is the slice-bounds panic. -/
def sliceOf (ts : List ColumnType) (low high : Int) : Option (List ColumnType) :=
  if 0 ≤ low ∧ low ≤ high ∧ high ≤ (ts.length : Int) then
    some ((ts.drop low.toNat).take (high.toNat - low.toNat))
  else
    none

/-- The loop of `ColumnTypes` over the recorded AVG positions. -/
def collapseAvg (ts : List ColumnType) : List Int → Int → List ColumnType →
    Option (List ColumnType)
  | [], _, v => some v
  | idx :: rest, prev, v =>
    match sliceOf ts prev (idx + 1) with
    | none => none
    | some part => collapseAvg ts rest (idx + 3) (v ++ part)

/-- The method `(*Rows).ColumnTypes`: the cursor after the call, and the result;
`r.rowsList[0]` panics on a cursor without sources.  The error that
`fmt.Errorf("%w", errs.ErrMergerRowsClosed)` builds wraps the sentinel without
text of its own and is identified with it. -/
def Rows.ColumnTypes (r : Rows) : Rows × Result (List ColumnType) :=
  if r.closed = true then
    (r, .error (.err .ErrMergerRowsClosed))
  else
    match r.rowsList with
    | [] => (r, .error .panic)
    | row :: rest =>
      let r2 := { r with rowsList := row.called .columnTypes :: rest }
      match row.columnTypes with
      | .error e => (r2, .error (.err e))
      | .ok ts =>
        if r.avgIndexes.length = 0 then
          (r2, .ok ts)
        else
          match collapseAvg ts r.avgIndexes 0 [] with
          | none => (r2, .error .panic)
          | some v => (r2, .ok v)

/-- A call on a cursor. -/
inductive CursorOp
  | next
  | scan (dest : List Dest)
  | close
  | columns
  | columnTypes
  | err
  | nextResultSet

/-- What a call on a cursor returned. -/
inductive CursorOut
  | next (more : Bool)
  | scan (res : Result (List Value))
  | close (errs : List GoError)
  | columns (res : Except GoError (List String))
  | columnTypes (res : Result (List ColumnType))
  | err (e : Option GoError)
  | nextResultSet (more : Bool)
  deriving DecidableEq

/-- One call on a plain-merger cursor: the cursor after it and what it
returned; `none` when `Next` panics. -/
def Rows.step (r : Rows) : CursorOp → Option (Rows × CursorOut)
  | .next =>
    match r.Next with
    | none => none
    | some (r2, b) => some (r2, .next b)
  | .scan dest => some (r, .scan (r.Scan dest))
  | .close => some (r.Close.1, .close r.Close.2)
  | .columns => some (r, .columns r.Columns)
  | .columnTypes => some (r.ColumnTypes.1, .columnTypes r.ColumnTypes.2)
  | .err => some (r, .err r.Err)
  | .nextResultSet => some (r, .nextResultSet r.NextResultSet)

/-- A sequence of calls on a plain-merger cursor, up to the first that panics:
the cursor at the end and what the calls returned. -/
def Rows.run (r : Rows) : List CursorOp → Rows × List CursorOut
  | [] => (r, [])
  | op :: ops =>
    match r.step op with
    | none => (r, [])
    | some (r2, out) => ((r2.run ops).1, out :: (r2.run ops).2)

/-! ## The group-by merger -/

/-- The type `Key`: the values of the group-by columns of one row. -/
structure Key where
  columnValues : List Value
  deriving DecidableEq, Repr

/-- The types of the constraint `Ordered`. -/
inductive OrdKind
  | int (k : IntKind)
  | float32
  | float64
  | string
  deriving DecidableEq, Repr

/-- The generic function `compare[T]`; the type assertions `ii.(T)` and
`jj.(T)` panic unless both values are of type `T`. -/
def compare (fa : FloatArith) : OrdKind → Value → Value → Result Int
  | .int k, .int k1 i, .int k2 j =>
    if k1 = k ∧ k2 = k then
      .ok (if i < j then -1 else if i > j then 1 else 0)
    else .error .panic
  | .float32, .float32 i, .float32 j =>
    .ok (if fa.lt32 i j = true then -1 else if fa.lt32 j i = true then 1 else 0)
  | .float64, .float64 i, .float64 j =>
    .ok (if fa.lt64 i j = true then -1 else if fa.lt64 j i = true then 1 else 0)
  | .string, .str i, .str j =>
    .ok (if i < j then -1 else if i > j then 1 else 0)
  | _, _, _ => .error .panic

/-- The function `compareBool`. -/
def compareBool : Value → Value → Result Int
  | .bool i, .bool j =>
    .ok (if i = j then 0 else if i = true ∧ j = false then 1 else -1)
  | _, _ => .error .panic

/-- The table `compareFuncMapping`; `none` is a missing entry, whose lookup
gives a nil function. -/
def compareFuncMapping (fa : FloatArith) : Kind → Option (Value → Value → Result Int)
  | .int k => some (compare fa (.int k))
  | .float32 => some (compare fa .float32)
  | .float64 => some (compare fa .float64)
  | .string => some (compare fa .string)
  | .bool => some compareBool
  | _ => none

/-- The loop of `compareKey` over the positions of the first key; it panics
when the second key is shorter or when the table has no function for the kind
of a component of the first key. -/
def compareKeyLoop (fa : FloatArith) : List Value → List Value → Result Int
  | [], _ => .ok 0
  | _ :: _, [] => .error .panic
  | x :: xs, y :: ys =>
    match compareFuncMapping fa x.kind with
    | none => .error .panic
    | some compareFunc =>
      match compareFunc x y with
      | .error f => .error f
      | .ok res => if res ≠ 0 then .ok res else compareKeyLoop fa xs ys

/-- The function `compareKey`. -/
def compareKey (fa : FloatArith) (a b : Key) : Result Int :=
  compareKeyLoop fa a.columnValues b.columnValues

/-- The index `mapx.TreeMap[Key, [][]any]` of the library ekit, at its
interface: the entries, one for each class of keys that compare equal. -/
abbrev TreeMap := List (Key × List Row)

/-- The method `TreeMap.Get` under the comparator `compareKey`: the value of the
entry whose key compares equal to the given key. -/
def TreeMap.Get (fa : FloatArith) : TreeMap → Key → Result (Option (List Row))
  | [], _ => .ok none
  | (k, v) :: rest, key =>
    match compareKey fa key k with
    | .error f => .error f
    | .ok c => if c = 0 then .ok (some v) else TreeMap.Get fa rest key

/-- The method `TreeMap.Put` under the comparator `compareKey`: the value of the
entry whose key compares equal is replaced, else an entry is added. -/
def TreeMap.Put (fa : FloatArith) : TreeMap → Key → List Row → Result TreeMap
  | [], key, val => .ok [(key, val)]
  | (k, v) :: rest, key, val =>
    match compareKey fa key k with
    | .error f => .error f
    | .ok c =>
      if c = 0 then .ok ((k, val) :: rest)
      else
        match TreeMap.Put fa rest key val with
        | .error f => .error f
        | .ok rest2 => .ok ((k, v) :: rest2)

/-- The type `AggregatorMerger`. -/
structure AggregatorMerger where
  aggregators : List Aggregator
  avgIndexes : List Int
  groupColumns : List ColumnInfo
  columnsName : List String

/-- The constructor `NewAggregatorMerger`; the method `ColumnInfo.SelectName`
of package `merger` is not among the sources and is a parameter. -/
def NewAggregatorMerger (selectName : ColumnInfo → String) (aggregators : List Aggregator)
    (groupColumns : List ColumnInfo) : AggregatorMerger :=
  { aggregators := aggregators,
    avgIndexes := (aggregators.filter (fun agg => agg.Name == "AVG")).map
      (fun agg => agg.ColumnInfo.Index),
    groupColumns := groupColumns,
    columnsName := groupColumns.map selectName
      ++ aggregators.map (fun agg => selectName agg.ColumnInfo) }

/-- The rows that `ScanAll` gathers from the scans still to come: all of them,
or the first scan failure, and the scans left after it. -/
def collectRows : List (Except GoError Row) →
    List (Except GoError Row) × Except GoError (List Row)
  | [] => ([], .ok [])
  | .error e :: rest => (rest, .error e)
  | .ok row :: rest =>
    match collectRows rest with
    | (left, .error e) => (left, .error e)
    | (left, .ok rows) => (left, .ok (row :: rows))

/-- The calls `sqlx.NewSQLRowsScanner(res)` and `scanner.ScanAll()` of
`getCols` on one source: the source after them and all its rows. -/
def scanAllRows (res : ShardRows) : ShardRows × Except GoError (List Row) :=
  match res.scannerErr with
  | some e => (res.called .newScanner, .error e)
  | none =>
    ({ (res.called .newScanner).called .scanAll with pending := (collectRows res.pending).1 },
      (collectRows res.pending).2)

/-- The key that `getCols` builds for a row; `none` is the panic of
`colData[groupByCol.Index]`. -/
def groupKey : List ColumnInfo → Row → Option (List Value)
  | [], _ => some []
  | groupByCol :: rest, colData =>
    match index colData groupByCol.Index with
    | none => none
    | some v =>
      match groupKey rest colData with
      | none => none
      | some vs => some (v :: vs)

/-- The body of the inner loop of `getCols` for one row. -/
def addRow (fa : FloatArith) (groupColumns : List ColumnInfo)
    (treeMap : TreeMap) (keys : List Key) (colData : Row) : Result (TreeMap × List Key) :=
  match groupKey groupColumns colData with
  | none => .error .panic
  | some vs =>
    match TreeMap.Get fa treeMap { columnValues := vs } with
    | .error f => .error f
    | .ok (some val) =>
      match TreeMap.Put fa treeMap { columnValues := vs } (val ++ [colData]) with
      | .error f => .error f
      | .ok treeMap2 => .ok (treeMap2, keys)
    | .ok none =>
      match TreeMap.Put fa treeMap { columnValues := vs } [colData] with
      | .error f => .error f
      | .ok treeMap2 => .ok (treeMap2, keys ++ [{ columnValues := vs }])

/-- The inner loop of `getCols` over the rows of one source. -/
def addRows (fa : FloatArith) (groupColumns : List ColumnInfo) :
    TreeMap → List Key → List Row → Result (TreeMap × List Key)
  | treeMap, keys, [] => .ok (treeMap, keys)
  | treeMap, keys, colData :: rest =>
    match addRow fa groupColumns treeMap keys colData with
    | .error f => .error f
    | .ok (treeMap2, keys2) => addRows fa groupColumns treeMap2 keys2 rest

/-- The outer loop of `getCols` over the sources: the sources after it, and the
index and key list. -/
def getColsLoop (fa : FloatArith) (groupColumns : List ColumnInfo) :
    TreeMap → List Key → List ShardRows → List ShardRows × Result (TreeMap × List Key)
  | treeMap, keys, [] => ([], .ok (treeMap, keys))
  | treeMap, keys, res :: rest =>
    match scanAllRows res with
    | (res2, .error e) => (res2 :: rest, .error (.err e))
    | (res2, .ok colsData) =>
      match addRows fa groupColumns treeMap keys colsData with
      | .error f => (res2 :: rest, .error f)
      | .ok (treeMap2, keys2) =>
        ((res2 :: (getColsLoop fa groupColumns treeMap2 keys2 rest).1),
          (getColsLoop fa groupColumns treeMap2 keys2 rest).2)

/-- The method `(*AggregatorMerger).getCols`. -/
def AggregatorMerger.getCols (fa : FloatArith) (a : AggregatorMerger)
    (rowsList : List ShardRows) : List ShardRows × Result (TreeMap × List Key) :=
  getColsLoop fa a.groupColumns [] [] rowsList

/-- The cursor type `AggregatorRows` of the group-by merger, without its
mutex. -/
structure AggregatorRows where
  rowsList : List ShardRows
  columnTypes : List ColumnType
  aggregators : List Aggregator
  avgIndexes : List Int
  groupColumns : List ColumnInfo
  dataMap : TreeMap
  cur : Int
  dataIndex : List Key
  curData : List Value
  closed : Bool
  lastErr : Option GoError
  cols : List String

/-- The method `(*AggregatorMerger).Merge`: the shard sources after the call,
and its result. -/
def AggregatorMerger.Merge (fa : FloatArith) (a : AggregatorMerger) (ctx : Context)
    (results : List (Option ShardRows)) : List (Option ShardRows) × Result AggregatorRows :=
  match ctx.err with
  | some e => (results, .error (.err e))
  | none =>
    if results.length = 0 then
      (results, .error (.err .ErrMergerEmptyRows))
    else
      match allPresent results with
      | none => (results, .error (.err .ErrMergerRowsIsNull))
      | some [] => (results, .error .panic)
      | some (res0 :: rest) =>
        match res0.columnTypes with
        | .error e => ((res0.called .columnTypes :: rest).map some, .error (.err e))
        | .ok columnTypes =>
          match a.getCols fa (res0.called .columnTypes :: rest) with
          | (srcs, .error f) => (srcs.map some, .error f)
          | (srcs, .ok (dataMap, dataIndex)) =>
            (srcs.map some, .ok
              { rowsList := srcs, columnTypes := columnTypes, aggregators := a.aggregators,
                avgIndexes := a.avgIndexes, groupColumns := a.groupColumns,
                dataMap := dataMap, cur := -1, dataIndex := dataIndex, curData := [],
                closed := false, lastErr := none, cols := a.columnsName })

/-- The method `(*AggregatorRows).Close`; its result is the list of errors that
`multierr.Combine` combines, the empty list being nil. -/
def AggregatorRows.Close (a : AggregatorRows) : AggregatorRows × List GoError :=
  ({ a with closed := true, rowsList := (closeAll a.rowsList).1 }, (closeAll a.rowsList).2)

/-- The loop of `(*AggregatorRows).Next` over the aggregators: the current row
built so far, and the failure that stopped the loop if one did.  A key that the
index does not hold gives a nil bucket. -/
def nextLoop (fa : FloatArith) (dataMap : TreeMap) (key : Key) :
    List Aggregator → List Value → List Value × Option Fault
  | [], curData => (curData, none)
  | agg :: rest, curData =>
    match TreeMap.Get fa dataMap key with
    | .error f => (curData, some f)
    | .ok val =>
      match agg.Aggregate (val.getD []) with
      | .error f => (curData, some f)
      | .ok res => nextLoop fa dataMap key rest (curData ++ [res])

/-- The element `dataIndex[cur]`; `none` is the index-out-of-range panic. -/
def keyAt (dataIndex : List Key) (cur : Int) : Option Key :=
  if cur < 0 then none else dataIndex[cur.toNat]?

/-- The method `(*AggregatorRows).Next`; `none` is a panic (of an aggregator or
of the comparator). -/
def AggregatorRows.Next (fa : FloatArith) (a : AggregatorRows) :
    Option (AggregatorRows × Bool) :=
  if a.closed = true then
    some (a, false)
  else if a.cur + 1 ≥ (a.dataIndex.length : Int) then
    some ((AggregatorRows.Close { a with cur := a.cur + 1 }).1, false)
  else
    match keyAt a.dataIndex (a.cur + 1) with
    | none => none
    | some key =>
      match nextLoop fa a.dataMap key a.aggregators key.columnValues with
      | (curData, none) => some ({ a with cur := a.cur + 1, curData := curData }, true)
      | (curData, some (.err e)) =>
        some ((AggregatorRows.Close
          { a with cur := a.cur + 1, curData := curData, lastErr := some e }).1, false)
      | (_, some .panic) => none

/-- The method `(*AggregatorRows).Scan`: the values stored into the
destinations, or the failure. -/
def AggregatorRows.Scan (a : AggregatorRows) (dest : List Dest) : Result (List Value) :=
  match a.lastErr with
  | some e => .error (.err e)
  | none =>
    if a.closed = true then
      .error (.err .ErrMergerRowsClosed)
    else if a.cur = -1 then
      .error (.err .ErrMergerScanNotNext)
    else
      scanLoop dest a.curData

/-- The method `(*AggregatorRows).Columns`. -/
def AggregatorRows.Columns (a : AggregatorRows) : Except GoError (List String) :=
  if a.closed = true then .error .ErrMergerRowsClosed else .ok a.cols

/-- The method `(*AggregatorRows).Err`. -/
def AggregatorRows.Err (a : AggregatorRows) : Option GoError := a.lastErr

/-- The method `(*AggregatorRows).NextResultSet`. -/
def AggregatorRows.NextResultSet (_a : AggregatorRows) : Bool := false

/-- The method `(*AggregatorRows).ColumnTypes`, which reads the column types
kept at `Merge` and calls no source.  The error that
`fmt.Errorf("%w", errs.ErrMergerRowsClosed)` builds wraps the sentinel without
text of its own and is identified with it. -/
def AggregatorRows.ColumnTypes (a : AggregatorRows) : Result (List ColumnType) :=
  if a.closed = true then
    .error (.err .ErrMergerRowsClosed)
  else if a.avgIndexes.length = 0 then
    .ok a.columnTypes
  else
    match collapseAvg a.columnTypes a.avgIndexes 0 [] with
    | none => .error .panic
    | some v => .ok v

/-- One call on a group-by cursor: the cursor after it and what it returned;
`none` when `Next` panics. -/
def AggregatorRows.step (fa : FloatArith) (a : AggregatorRows) :
    CursorOp → Option (AggregatorRows × CursorOut)
  | .next =>
    match a.Next fa with
    | none => none
    | some (a2, b) => some (a2, .next b)
  | .scan dest => some (a, .scan (a.Scan dest))
  | .close => some (a.Close.1, .close a.Close.2)
  | .columns => some (a, .columns a.Columns)
  | .columnTypes => some (a, .columnTypes a.ColumnTypes)
  | .err => some (a, .err a.Err)
  | .nextResultSet => some (a, .nextResultSet a.NextResultSet)

/-- A sequence of calls on a group-by cursor, up to the first that panics: the
cursor at the end and what the calls returned. -/
def AggregatorRows.run (fa : FloatArith) (a : AggregatorRows) :
    List CursorOp → AggregatorRows × List CursorOut
  | [] => (a, [])
  | op :: ops =>
    match a.step fa op with
    | none => (a, [])
    | some (a2, out) => ((a2.run fa ops).1, out :: (a2.run fa ops).2)

/-! ## Vocabulary of the statements about aggregators -/

/-- The integer that a row contributes at the index: the payload of the
unwrapped value when that is an integer, nothing for a NULL. -/
def intValueAt (idx : Int) (row : Row) : Option Int :=
  match index row idx with
  | some col =>
    match col.unwrap with
    | some (.int _ n) => some n
    | _ => none
  | none => none

/-- The integers of the non-null values of a batch at the index, in row order. -/
def nonNullInts (idx : Int) (cols : List Row) : List Int :=
  cols.filterMap (intValueAt idx)

/-- A row as `nullableAggregator` hands it on: dropped when its value at the
index is NULL, else with that value unwrapped. -/
def keepRow (idx : Int) (row : Row) : Option Row :=
  match index row idx with
  | some col =>
    match col.unwrap with
    | some v => some (row.set idx.toNat v)
    | none => none
  | none => none

/-- The value at the index is in bounds and is NULL or unwraps to a scalar of
kind `K`. -/
def nullOrKind (idx : Int) (K : Kind) (row : Row) : Prop :=
  ∃ col, index row idx = some col ∧
    (col.unwrap = none ∨ ∃ v, col.unwrap = some v ∧ v.kind = K)

/-- The value at the index is in bounds and is not NULL. -/
def nonNullAt (idx : Int) (row : Row) : Prop :=
  ∃ col v, index row idx = some col ∧ col.unwrap = some v

/-- The batch without the rows whose value at the index is NULL. -/
def dropNulls (idx : Int) (cols : List Row) : List Row :=
  cols.filter (fun row =>
    match index row idx with
    | some col => !col.isNull
    | none => true)

/-! ## Vocabulary of the statements about cursors -/

/-- The source yields a row: a scanner can be made for it and its next scan
gives a row. -/
def yieldsRow (src : ShardRows) : Prop :=
  src.scannerErr = none ∧ ∃ row rest, src.pending = .ok row :: rest

/-- The source yields zero rows: a scanner can be made for it and it is
exhausted. -/
def yieldsNoRow (src : ShardRows) : Prop :=
  src.scannerErr = none ∧ src.pending = []

/-- The source fails to scan: no scanner can be made for it, or its next scan
fails. -/
def failsToScan (src : ShardRows) : Prop :=
  src.scannerErr ≠ none ∨ ∃ e rest, src.pending = .error e :: rest

/-- The first row of every source that has one, in source order. -/
def firstRows (srcs : List ShardRows) : List Row :=
  srcs.filterMap (fun src =>
    match src.pending with
    | .ok row :: _ => some row
    | _ => none)

/-- The state of a plain-merger cursor as `Merge` returns it: open, without
recorded error, `Next` not yet called. -/
def Rows.fresh (r : Rows) : Prop :=
  r.closed = false ∧ r.lastErr = none ∧ r.nextCalled = false

/-- An aggregator that returns the given value on every batch. -/
def constAggregator (v : Value) : Aggregator :=
  { Aggregate := fun _ => .ok v,
    ColumnInfo := { Index := 0, Name := "id", AggregateFunc := "COUNT" },
    Name := "COUNT" }

/-- A shard source with the given rows and no failures. -/
def sourceOf (rows : List Row) : ShardRows :=
  { pending := rows.map .ok, columnTypes := .ok ["BIGINT"], scannerErr := none,
    closeErr := none, calls := [] }

/-- A plain merger of one `COUNT` over column 0. -/
def sampleMerger : Merger :=
  NewMerger (fun info => info.Name) [(countAt 0).toAggregator FloatArith.sample]

/-- A group-by merger of one `COUNT` over column 1, grouped by column 0. -/
def sampleGroupMerger : AggregatorMerger :=
  NewAggregatorMerger (fun info => info.Name) [(countAt 1).toAggregator FloatArith.sample]
    [{ Index := 0, Name := "user", AggregateFunc := "" }]

/-- The cursor that the plain merger returns for the given sources. -/
def cursorOf (m : Merger) (srcs : List ShardRows) : Rows :=
  { rowsList := srcs, aggregators := m.aggregators, avgIndexes := m.avgIndexes,
    closed := false, lastErr := none, cur := [], columns := m.colNames,
    nextCalled := false }

/-- An aggregator with the name `AVG` over column `i`; for the column types of
a cursor only its name and index matter. -/
def avgAggregator (i : Int) : Aggregator :=
  { Aggregate := fun _ => .ok (.float64 0),
    ColumnInfo := { Index := i, Name := "grade", AggregateFunc := "AVG" },
    Name := "AVG" }

/-- A shard source with the given rows and column types and no failures. -/
def sourceWith (rows : List Row) (ts : List ColumnType) : ShardRows :=
  { pending := rows.map .ok, columnTypes := .ok ts, scannerErr := none,
    closeErr := none, calls := [] }

/-- A shard source with the given rows whose `Close` fails with the given
error. -/
def sourceFailingClose (rows : List Row) (e : GoError) : ShardRows :=
  { pending := rows.map .ok, columnTypes := .ok ["BIGINT"], scannerErr := none,
    closeErr := some e, calls := [] }

/-- The plain cursor over three shards that report the counts 10, 20 and 30. -/
def sampleCursor : Rows :=
  cursorOf sampleMerger [sourceOf [[.int .int64 10]], sourceOf [[.int .int64 20]],
    sourceOf [[.int .int64 30]]]

/-- The cursor that the group-by merger returns for the given sources, column
types, index and key list. -/
def groupCursorOf (a : AggregatorMerger) (srcs : List ShardRows) (ts : List ColumnType)
    (dataMap : TreeMap) (dataIndex : List Key) : AggregatorRows :=
  { rowsList := srcs, columnTypes := ts, aggregators := a.aggregators,
    avgIndexes := a.avgIndexes, groupColumns := a.groupColumns, dataMap := dataMap,
    cur := -1, dataIndex := dataIndex, curData := [], closed := false, lastErr := none,
    cols := a.columnsName }

/-! ## Vocabulary of the statements about group keys -/

/-- Two values of one supported kind of group column: integers of the same
type, two strings, or two booleans. -/
def sameKind : Value → Value → Prop
  | .int k _, .int k2 _ => k = k2
  | .str _, .str _ => True
  | .bool _, .bool _ => True
  | _, _ => False

/-- The order of the values of one kind: integers by value, strings by their
natural order, booleans with false before true. -/
def valueLt : Value → Value → Prop
  | .int _ i, .int _ j => i < j
  | .str s, .str t => s < t
  | .bool a, .bool b => a = false ∧ b = true
  | _, _ => False

/-- The rows that the scans of a source still to come give. -/
def rowsOf (src : ShardRows) : List Row :=
  src.pending.filterMap (fun res =>
    match res with
    | .ok row => some row
    | .error _ => none)

/-- All rows of the sources, shard by shard in the order supplied and row by
row. -/
def scannedRows : List ShardRows → List Row
  | [] => []
  | src :: rest => rowsOf src ++ scannedRows rest

/-- The source can be scanned to its end: a scanner can be made for it and no
scan of it fails. -/
def scansAll (src : ShardRows) : Prop :=
  src.scannerErr = none ∧ ∀ res ∈ src.pending, ∃ row, res = .ok row

/-- The group key of a row, when the row has all the group columns. -/
def rowKey (groupColumns : List ColumnInfo) (row : Row) : Option Key :=
  (groupKey groupColumns row).map Key.mk

/-- The group keys of the rows, in row order. -/
def keysOf (groupColumns : List ColumnInfo) (rows : List Row) : List Key :=
  rows.filterMap (rowKey groupColumns)

/-- The group-column values of the rows are of supported kinds: every row has
all the group columns, and at each group column the values of any two rows are
integers of one type, strings, or booleans. -/
def comparableRows (groupColumns : List ColumnInfo) (rows : List Row) : Prop :=
  ∀ r1 ∈ rows, ∀ r2 ∈ rows, ∃ k1 k2,
    rowKey groupColumns r1 = some k1 ∧ rowKey groupColumns r2 = some k2 ∧
      List.Forall₂ sameKind k1.columnValues k2.columnValues

/-- Two keys compare equal under `compareKey`. -/
def keysEqual (fa : FloatArith) (a b : Key) : Bool :=
  decide (compareKey fa a b = .ok 0)

/-- The keys seen so far, followed by every further key that compares equal
to no key before it, in the order of the list. -/
def firstSeenInto (eq : Key → Key → Bool) : List Key → List Key → List Key
  | seen, [] => seen
  | seen, k :: ks =>
    if seen.any (fun s => eq k s) = true then firstSeenInto eq seen ks
    else firstSeenInto eq (seen ++ [k]) ks

/-- A list of keys with every key that compares equal to an earlier one
removed: the keys in first-seen order. -/
def firstSeen (eq : Key → Key → Bool) (ks : List Key) : List Key :=
  firstSeenInto eq [] ks

/-- The rows whose group key compares equal to the given key, in row order. -/
def rowsUnder (fa : FloatArith) (groupColumns : List ColumnInfo) (rows : List Row)
    (k : Key) : List Row :=
  rows.filter (fun row =>
    match rowKey groupColumns row with
    | some q => keysEqual fa q k
    | none => false)

/-- The keys in first-seen order when keys are told apart by equality of their
components. -/
def dedupKeys (ks : List Key) : List Key :=
  firstSeenInto (fun a b => decide (a = b)) [] ks

/-- The rows whose group key is the given key, in row order. -/
def sameKeyRows (groupColumns : List ColumnInfo) (rows : List Row) (k : Key) : List Row :=
  rows.filter (fun row => decide (rowKey groupColumns row = some k))

/-- The index that holds, for every key of the rows in first-seen order, the
rows with that key. -/
def bucketIndex (groupColumns : List ColumnInfo) (rows : List Row) : TreeMap :=
  (dedupKeys (keysOf groupColumns rows)).map
    (fun k => (k, sameKeyRows groupColumns rows k))

/-- The source after `getCols` has made a scanner for it and scanned all its
rows. -/
def ShardRows.scanned (src : ShardRows) : ShardRows :=
  { (src.called .newScanner).called .scanAll with pending := [] }

/-- A shard with the rows (user 7, count 1) and (user 3, count 2). -/
def shardA : ShardRows :=
  sourceOf [[.int .int64 7, .int .int64 1], [.int .int64 3, .int .int64 2]]

/-- A shard with the rows (user 3, count 3) and (user 7, count 4). -/
def shardB : ShardRows :=
  sourceOf [[.int .int64 3, .int .int64 3], [.int .int64 7, .int .int64 4]]

/-- The first `n` calls of `Next` on a group-by cursor: the cursor after them
and what they returned; `none` when one of them panics. -/
def AggregatorRows.nextN (fa : FloatArith) : Nat → AggregatorRows →
    Option (AggregatorRows × List Bool)
  | 0, a => some (a, [])
  | n + 1, a =>
    match a.Next fa with
    | none => none
    | some (a2, b) =>
      match AggregatorRows.nextN fa n a2 with
      | none => none
      | some (a3, bs) => some (a3, b :: bs)

/-- The second cursor iterates over the same index, key list, aggregators and
group columns as the first. -/
def AggregatorRows.sameData (a b : AggregatorRows) : Prop :=
  b.dataMap = a.dataMap ∧ b.dataIndex = a.dataIndex ∧ b.aggregators = a.aggregators ∧
    b.groupColumns = a.groupColumns

/-- The current row and the results of `Next` after the first `n` calls of
`Next` on the cursor that the group-by `Merge` returns for the given sources. -/
def groupRowAfter (fa : FloatArith) (a : AggregatorMerger) (srcs : List ShardRows) (n : Nat) :
    Option (List Value × List Bool) :=
  match (a.Merge fa { err := none } (srcs.map some)).2 with
  | .ok c => (c.nextN fa n).map (fun p => (p.1.curData, p.2))
  | .error _ => none

/-- The internal error that `Next` of a plain cursor meets when it scans and
aggregates: the failure of the scan of the shards, or else the error of the
first aggregator that fails; `none` when it meets neither. -/
def Rows.nextFailure (r : Rows) : Option GoError :=
  match getSqlRowsData r.rowsList with
  | (_, .error e) => some e
  | (_, .ok rowsData) =>
    match executeAggregateCalculation r.aggregators rowsData with
    | .error (.err e) => some e
    | _ => none

/-- The internal error that `Next` of a group-by cursor meets when it
aggregates the bucket of the next key: the error of the first aggregator that
fails; `none` when no aggregator fails with an error. -/
def AggregatorRows.nextFailure (fa : FloatArith) (a : AggregatorRows) : Option GoError :=
  match keyAt a.dataIndex (a.cur + 1) with
  | none => none
  | some key =>
    match nextLoop fa a.dataMap key a.aggregators key.columnValues with
    | (_, some (.err e)) => some e
    | _ => none

/-- Among what the calls returned, every `Err` returned the error and every
`Scan` failed with it. -/
def errorReturned (e : GoError) (outs : List CursorOut) : Prop :=
  ∀ out ∈ outs, (∀ x, out = .err x → x = some e) ∧
    (∀ res, out = .scan res → res = .error (.err e))

/-- The cursor that the group-by `Merge` returns for the given sources with a
context that is not cancelled (a cursor over nothing if `Merge` fails). -/
def mergedGroupCursor (fa : FloatArith) (a : AggregatorMerger) (srcs : List ShardRows) :
    AggregatorRows :=
  match (a.Merge fa { err := none } (srcs.map some)).2 with
  | .ok c => c
  | .error _ => groupCursorOf a [] [] [] []

/-- A shard with the row (user 7, "x"), whose second column no `COUNT` can
add. -/
def shardText : ShardRows :=
  sourceOf [[.int .int64 7, .str "x"]]

/-- The plain cursor over one shard that has no row: its first `Next` fails to
scan. -/
def failingPlainCursor : Rows :=
  cursorOf sampleMerger [sourceOf []]

/-- The group-by cursor over the shard whose `COUNT` column holds a string: its
first `Next` fails to aggregate. -/
def failingGroupCursor : AggregatorRows :=
  mergedGroupCursor FloatArith.sample sampleGroupMerger [shardText]

/-! ## Vocabulary of the statements about floats -/

/-- The float32 with the given bit pattern is a NaN: the exponent bits are all
ones and the fraction bits are not all zero. -/
def f32IsNaN (b : Nat) : Bool :=
  decide (b / 2 ^ 23 % 2 ^ 8 = 2 ^ 8 - 1 ∧ b % 2 ^ 23 ≠ 0)

/-- The place of a float32 that is no NaN in the order of the numbers: its
magnitude bits (exponent and fraction), negated when the sign bit is set.  Both
zeros have the place 0, the infinities the largest and the smallest place. -/
def f32Key (b : Nat) : Int :=
  if b / 2 ^ 31 % 2 = 1 then -((b % 2 ^ 31 : Nat) : Int) else ((b % 2 ^ 31 : Nat) : Int)

/-- The comparison `<` of Go on two float32 given by their bit patterns, which
is that of IEEE 754: false when either is a NaN, else the order of the
numbers. -/
def f32Lt (a b : Nat) : Bool :=
  !f32IsNaN a && !f32IsNaN b && decide (f32Key a < f32Key b)

/-- The float64 with the given bit pattern is a NaN: the exponent bits are all
ones and the fraction bits are not all zero. -/
def f64IsNaN (b : Nat) : Bool :=
  decide (b / 2 ^ 52 % 2 ^ 11 = 2 ^ 11 - 1 ∧ b % 2 ^ 52 ≠ 0)

/-- The place of a float64 that is no NaN in the order of the numbers: its
magnitude bits (exponent and fraction), negated when the sign bit is set.  Both
zeros have the place 0, the infinities the largest and the smallest place. -/
def f64Key (b : Nat) : Int :=
  if b / 2 ^ 63 % 2 = 1 then -((b % 2 ^ 63 : Nat) : Int) else ((b % 2 ^ 63 : Nat) : Int)

/-- The comparison `<` of Go on two float64 given by their bit patterns, which
is that of IEEE 754: false when either is a NaN, else the order of the
numbers. -/
def f64Lt (a b : Nat) : Bool :=
  !f64IsNaN a && !f64IsNaN b && decide (f64Key a < f64Key b)

/-- The comparisons of the float interpretation are those of Go. -/
def FloatArith.ieeeCompare (fa : FloatArith) : Prop :=
  (∀ a b, fa.lt32 a b = f32Lt a b) ∧ (∀ a b, fa.lt64 a b = f64Lt a b)

/-- A float interpretation with the comparisons of Go, for evaluating examples
that compare floats and add none: the additions stay those of
`FloatArith.sample`. -/
def FloatArith.ieee : FloatArith :=
  { add32 := FloatArith.sample.add32, add64 := FloatArith.sample.add64,
    lt32 := f32Lt, lt64 := f64Lt }

/-- The value is a float NaN. -/
def Value.isNaN : Value → Bool
  | .float32 b => f32IsNaN b
  | .float64 b => f64IsNaN b
  | _ => false

/-- The order `≤` on two numbers of one kind: integers by value, floats as
IEEE 754 orders them, which holds of no pair with a NaN. -/
def numLe : Value → Value → Prop
  | .int _ i, .int _ j => i ≤ j
  | .float32 a, .float32 b => f32IsNaN a = false ∧ f32IsNaN b = false ∧ f32Key a ≤ f32Key b
  | .float64 a, .float64 b => f64IsNaN a = false ∧ f64IsNaN b = false ∧ f64Key a ≤ f64Key b
  | _, _ => False

/-- The kind of the values of a numeric type. -/
def NumKind.kind : NumKind → Kind
  | .int k => .int k
  | .float32 => .float32
  | .float64 => .float64

/-- The non-null values of a batch at the index, unwrapped, in row order. -/
def nonNullValues (idx : Int) (cols : List Row) : List Value :=
  cols.filterMap (fun row => (index row idx).bind Value.unwrap)

/-- The bit pattern of the float64 1. -/
def f64One : Nat := 0x3FF0000000000000

/-- The bit pattern of the float64 2. -/
def f64Two : Nat := 0x4000000000000000

/-- The bit pattern of a float64 NaN, the one that Go's `math.NaN()` returns. -/
def f64NaN : Nat := 0x7FF8000000000001

/-- The bit pattern of the float64 nearest to 2.2. -/
def f64TwoPointTwo : Nat := 0x400199999999999A

/-- The bit pattern of the float64 nearest to 3.4. -/
def f64ThreePointFour : Nat := 0x400B333333333333

/-! ## Vocabulary of the statements about group keys with floats -/

/-- Two values of one kind that the comparator orders: integers of the same
type, two strings, two booleans, or two floats of the same width neither of
which is a NaN. -/
def orderedKind : Value → Value → Prop
  | .int k _, .int k2 _ => k = k2
  | .str _, .str _ => True
  | .bool _, .bool _ => True
  | .float32 a, .float32 b => f32IsNaN a = false ∧ f32IsNaN b = false
  | .float64 a, .float64 b => f64IsNaN a = false ∧ f64IsNaN b = false
  | _, _ => False

/-- The equality `==` of Go on two values of one kind: integers of the same
type with the same value, equal strings, equal booleans, floats of the same
width that are the same number (the two zeros are equal, a NaN equals
nothing). -/
def sameValue : Value → Value → Prop
  | .int k i, .int k2 j => k = k2 ∧ i = j
  | .str s, .str t => s = t
  | .bool a, .bool b => a = b
  | .float32 a, .float32 b => f32IsNaN a = false ∧ f32IsNaN b = false ∧ f32Key a = f32Key b
  | .float64 a, .float64 b => f64IsNaN a = false ∧ f64IsNaN b = false ∧ f64Key a = f64Key b
  | _, _ => False

/-- The group-column values of the rows are of kinds that the comparator
orders: every row has all the group columns, and at each group column the
values of any two rows are integers of one type, strings, booleans, or floats of
one width that are no NaN. -/
def orderedRows (groupColumns : List ColumnInfo) (rows : List Row) : Prop :=
  ∀ r1 ∈ rows, ∀ r2 ∈ rows, ∃ k1 k2,
    rowKey groupColumns r1 = some k1 ∧ rowKey groupColumns r2 = some k2 ∧
      List.Forall₂ orderedKind k1.columnValues k2.columnValues

/-- The comparator returns on any two of the keys, and to compare equal is an
equivalence on them. -/
def equivalenceOn (fa : FloatArith) (keys : List Key) : Prop :=
  (∀ a ∈ keys, ∀ b ∈ keys, ∃ c, compareKey fa a b = .ok c) ∧
  (∀ a ∈ keys, keysEqual fa a a = true) ∧
  (∀ a ∈ keys, ∀ b ∈ keys, keysEqual fa a b = true → keysEqual fa b a = true) ∧
  (∀ a ∈ keys, ∀ b ∈ keys, ∀ c ∈ keys,
    keysEqual fa a b = true → keysEqual fa b c = true → keysEqual fa a c = true)

/-- The index that holds, for every key of the rows in first-seen order, the
rows whose key compares equal to it. -/
def classIndex (fa : FloatArith) (groupColumns : List ColumnInfo) (rows : List Row) : TreeMap :=
  (firstSeen (keysEqual fa) (keysOf groupColumns rows)).map
    (fun k => (k, rowsUnder fa groupColumns rows k))

/-- A shard with the rows (user 2.2, count 1) and (user 3.4, count 2), the
users being float64. -/
def shardFloatA : ShardRows :=
  sourceOf [[.float64 f64TwoPointTwo, .int .int64 1], [.float64 f64ThreePointFour, .int .int64 2]]

/-- A shard with the rows (user 3.4, count 3) and (user 2.2, count 4), the
users being float64. -/
def shardFloatB : ShardRows :=
  sourceOf [[.float64 f64ThreePointFour, .int .int64 3], [.float64 f64TwoPointTwo, .int .int64 4]]

/-- A shard with the rows (user 1, count 1) and (user NaN, count 2), the users
being float64. -/
def shardNaN : ShardRows :=
  sourceOf [[.float64 f64One, .int .int64 1], [.float64 f64NaN, .int .int64 2]]

/-- A shard with the rows (user 1, count 1), (user NaN, count 2) and (user 2,
count 3), the users being float64. -/
def shardNaNBetween : ShardRows :=
  sourceOf [[.float64 f64One, .int .int64 1], [.float64 f64NaN, .int .int64 2],
    [.float64 f64Two, .int .int64 3]]

/-! ## Theorems -/

theorem wrap_add_wrap (k : IntKind) (a b : Int) : k.wrap (k.wrap a + b) = k.wrap (a + b) := by
  unfold IntKind.wrap
  split
  · have h : (a + 2 ^ (k.bits - 1)) % 2 ^ k.bits - 2 ^ (k.bits - 1) + b + 2 ^ (k.bits - 1)
        = (a + 2 ^ (k.bits - 1)) % 2 ^ k.bits + b := by ring
    rw [h, Int.emod_add_emod]
    have h2 : a + 2 ^ (k.bits - 1) + b = a + b + 2 ^ (k.bits - 1) := by ring
    rw [h2]
  · rw [Int.emod_add_emod]

theorem wrap_of_inRange (k : IntKind) (v : Int) (h : k.inRange v) : k.wrap v = v := by
  obtain ⟨h1, h2⟩ := h
  cases k <;>
    simp only [IntKind.minVal, IntKind.maxVal, IntKind.signed, IntKind.bits, if_true,
      Bool.false_eq_true, if_false] at h1 h2 <;>
    simp only [IntKind.wrap, IntKind.signed, IntKind.bits, if_true, Bool.false_eq_true,
      if_false] <;>
    norm_num at h1 h2 ⊢ <;>
    omega

theorem wrap_zero (k : IntKind) : k.wrap 0 = 0 :=
  wrap_of_inRange k 0 (by cases k <;> decide)

theorem index_lt_length {col : Row} {i : Int} {v : Value} (h : index col i = some v) :
    0 ≤ i ∧ i < (col.length : Int) := by
  unfold index at h
  split at h
  · cases h
  · have hlt : i.toNat < col.length := by
      rcases Nat.lt_or_ge i.toNat col.length with hl | hl
      · exact hl
      · rw [List.getElem?_eq_none hl] at h
        cases h
    omega

theorem index_set_self {col : Row} {i : Int} {v w : Value} (h : index col i = some v) :
    index (col.set i.toNat w) i = some w := by
  have hb := index_lt_length h
  unfold index
  rw [if_neg (by omega)]
  have hlt : i.toNat < col.length := by omega
  simp [List.getElem?_set, hlt]

theorem unwrap_unwrap {col v : Value} (h : col.unwrap = some v) : v.unwrap = some v := by
  cases col <;> simp only [Value.unwrap] at h
  all_goals first
    | (cases h; rfl)
    | (split at h
       · cases h; rfl
       · cases h)

theorem unwrap_kind_ne_struct {col v : Value} (h : col.unwrap = some v) : v.kind ≠ .struct := by
  cases col <;> simp only [Value.unwrap] at h
  all_goals first
    | (cases h; simp [Value.kind])
    | (split at h
       · cases h; simp [Value.kind]
       · cases h)

theorem keepRow_eq_some {idx : Int} {row : Row} {col v : Value}
    (h1 : index row idx = some col) (h2 : col.unwrap = some v) :
    keepRow idx row = some (row.set idx.toNat v) := by
  simp [keepRow, h1, h2]

theorem keepRow_eq_none {idx : Int} {row : Row} {col : Value}
    (h1 : index row idx = some col) (h2 : col.unwrap = none) :
    keepRow idx row = none := by
  simp [keepRow, h1, h2]

/-- Closed form of the loop of `nullableAggregator` on a batch whose values at
the index are all in bounds and whose non-null values are of kind `K`. -/
theorem nullableLoop_eq (idx : Int) (K : Kind) :
    ∀ (cols acc : List Row) (kind : Kind),
      (∀ row ∈ cols, nullOrKind idx K row) → (acc ≠ [] → kind = K) →
      nullableLoop idx acc kind cols
        = .ok (acc ++ cols.filterMap (keepRow idx),
            if (acc ++ cols.filterMap (keepRow idx)) = [] then kind else K) := by
  intro cols
  induction cols with
  | nil =>
    intro acc kind _ hk
    simp only [nullableLoop, List.filterMap_nil, List.append_nil]
    by_cases ha : acc = []
    · simp [ha]
    · simp [ha, hk ha]
  | cons row rest ih =>
    intro acc kind hrows hk
    obtain ⟨col, hcol, hcase⟩ := hrows row (List.mem_cons_self _ _)
    have hrest : ∀ r ∈ rest, nullOrKind idx K r := fun r hr =>
      hrows r (List.mem_cons_of_mem _ hr)
    rcases hcase with hnull | ⟨v, hv, hvk⟩
    · simp only [nullableLoop, hcol, hnull]
      rw [ih acc kind hrest hk, List.filterMap_cons, keepRow_eq_none hcol hnull]
    · simp only [nullableLoop, hcol, hv]
      rw [ih _ _ hrest, List.filterMap_cons, keepRow_eq_some hcol hv]
      · simp
      · intro _
        by_cases ha : acc = []
        · simp [ha, hvk]
        · simp [ha, hk ha]

theorem nullableAggregator_eq (idx : Int) (K : Kind) (cols : List Row)
    (h : ∀ row ∈ cols, nullOrKind idx K row) :
    nullableAggregator cols idx
      = .ok (cols.filterMap (keepRow idx),
          if cols.filterMap (keepRow idx) = [] then .invalid else K) := by
  unfold nullableAggregator
  rw [nullableLoop_eq idx K cols [] .invalid h (fun hne => absurd rfl hne)]
  simp

theorem kind_eq_int {v : Value} {k : IntKind} (h : v.kind = .int k) : ∃ n, v = .int k n := by
  cases v with
  | int k2 n =>
    simp only [Value.kind, Kind.int.injEq] at h
    subst h
    exact ⟨n, rfl⟩
  | _ => simp [Value.kind] at h

theorem intValueAt_of_null {idx : Int} {row : Row} {col : Value}
    (h1 : index row idx = some col) (h2 : col.unwrap = none) : intValueAt idx row = none := by
  simp [intValueAt, h1, h2]

theorem intValueAt_of_int {idx : Int} {row : Row} {col : Value} {k : IntKind} {n : Int}
    (h1 : index row idx = some col) (h2 : col.unwrap = some (.int k n)) :
    intValueAt idx row = some n := by
  simp [intValueAt, h1, h2]

/-- The loop of `countAggregate` over the rows that `nullableAggregator` hands
on adds up, in the integer type, the non-null integers of the batch. -/
theorem countLoop_kept (fa : FloatArith) (k : IntKind) (idx : Int) :
    ∀ (cols : List Row) (c : Int),
      (∀ row ∈ cols, nullOrKind idx (.int k) row) → k.wrap c = c →
      countLoop fa (.int k) idx (.int k c) (cols.filterMap (keepRow idx))
        = .ok (.int k (k.wrap (c + (nonNullInts idx cols).sum))) := by
  intro cols
  induction cols with
  | nil =>
    intro c _ hc
    simp [countLoop, nonNullInts, hc]
  | cons row rest ih =>
    intro c hrows hc
    obtain ⟨col, hcol, hcase⟩ := hrows row (List.mem_cons_self _ _)
    have hrest : ∀ r ∈ rest, nullOrKind idx (.int k) r := fun r hr =>
      hrows r (List.mem_cons_of_mem _ hr)
    rcases hcase with hnull | ⟨v, hv, hvk⟩
    · rw [List.filterMap_cons, keepRow_eq_none hcol hnull]
      simp only [nonNullInts, List.filterMap_cons, intValueAt_of_null hcol hnull]
      exact ih c hrest hc
    · obtain ⟨n, rfl⟩ := kind_eq_int hvk
      rw [List.filterMap_cons, keepRow_eq_some hcol hv]
      simp only [nonNullInts, List.filterMap_cons, intValueAt_of_int hcol hv, List.sum_cons]
      simp only [countLoop, index_set_self hcol, addAssert, if_true]
      have hw : k.wrap (k.wrap (c + n)) = k.wrap (c + n) := by
        have := wrap_add_wrap k (c + n) 0
        simpa using this
      have := ih (k.wrap (c + n)) hrest hw
      simp only [nonNullInts] at this
      rw [this, wrap_add_wrap, add_assoc]

theorem filterMap_keepRow_ne_nil {idx : Int} {cols : List Row}
    (h : ∃ row ∈ cols, nonNullAt idx row) : cols.filterMap (keepRow idx) ≠ [] := by
  obtain ⟨row, hrow, col, v, h1, h2⟩ := h
  intro hnil
  have hmem : row.set idx.toNat v ∈ cols.filterMap (keepRow idx) :=
    List.mem_filterMap.mpr ⟨row, hrow, keepRow_eq_some h1 h2⟩
  rw [hnil] at hmem
  cases hmem

theorem filterMap_keepRow_eq_nil {idx : Int} {cols : List Row}
    (h : ∀ row ∈ cols, ∃ col, index row idx = some col ∧ col.unwrap = none) :
    cols.filterMap (keepRow idx) = [] := by
  induction cols with
  | nil => rfl
  | cons row rest ih =>
    obtain ⟨col, h1, h2⟩ := h row (List.mem_cons_self _ _)
    rw [List.filterMap_cons, keepRow_eq_none h1 h2]
    exact ih (fun r hr => h r (List.mem_cons_of_mem _ hr))

theorem findCountFunc_ok (fa : FloatArith) (s : Count) (c0 : Row) (col : Value)
    (h : index c0 s.countInfo.Index = some col) :
    s.findCountFunc fa c0 = .ok (Count.countNullableAggregator fa) := by
  have hb := index_lt_length h
  unfold Count.findCountFunc
  rw [if_neg (by omega)]

/-- What `Count.Aggregate` returns on a batch whose values at the index are in
bounds, are NULL or integers of type `k`, and are not all NULL. -/
theorem count_aggregate_ints (fa : FloatArith) (s : Count) (k : IntKind) (cols : List Row)
    (hrows : ∀ row ∈ cols, nullOrKind s.countInfo.Index (.int k) row)
    (hnn : ∃ row ∈ cols, nonNullAt s.countInfo.Index row) :
    s.Aggregate fa cols
      = .ok (.int k (k.wrap (nonNullInts s.countInfo.Index cols).sum)) := by
  cases cols with
  | nil =>
    obtain ⟨row, hrow, _⟩ := hnn
    cases hrow
  | cons c0 rest =>
    obtain ⟨col, hcol, _⟩ := hrows c0 (List.mem_cons_self _ _)
    have hne := filterMap_keepRow_ne_nil hnn
    simp only [Count.Aggregate, findCountFunc_ok fa s c0 col hcol,
      Count.countNullableAggregator, nullableAggregator_eq _ _ _ hrows,
      List.length_eq_zero, hne, if_false, countAggregateFuncMapping, countAggregate,
      NumKind.zero]
    rw [countLoop_kept fa k _ _ 0 hrows (wrap_zero k)]
    simp

/-- What `Count.Aggregate` returns on a batch whose values at the index are in
bounds, whose non-null values are of a kind without an entry in the table, and
which has a non-null value. -/
theorem count_aggregate_no_entry (fa : FloatArith) (s : Count) (K : Kind) (cols : List Row)
    (hrows : ∀ row ∈ cols, nullOrKind s.countInfo.Index K row)
    (hnn : ∃ row ∈ cols, nonNullAt s.countInfo.Index row)
    (hK : (countAggregateFuncMapping fa K).isNone = true) :
    s.Aggregate fa cols = .error (.err .ErrMergerAggregateFuncNotFound) := by
  cases cols with
  | nil =>
    obtain ⟨row, hrow, _⟩ := hnn
    cases hrow
  | cons c0 rest =>
    obtain ⟨col, hcol, _⟩ := hrows c0 (List.mem_cons_self _ _)
    have hne := filterMap_keepRow_ne_nil hnn
    rw [Option.isNone_iff_eq_none] at hK
    simp only [Count.Aggregate, findCountFunc_ok fa s c0 col hcol,
      Count.countNullableAggregator, nullableAggregator_eq _ _ _ hrows,
      List.length_eq_zero, hne, if_false, hK]

theorem nullOrKind_of_int {idx : Int} {k : IntKind} {row : Row}
    (h : ∃ col n, index row idx = some col ∧ col.unwrap = some (.int k n)) :
    nullOrKind idx (.int k) row := by
  obtain ⟨col, n, h1, h2⟩ := h
  exact ⟨col, h1, Or.inr ⟨_, h2, rfl⟩⟩

theorem nonNullInts_length_of_int {idx : Int} {k : IntKind} {cols : List Row}
    (h : ∀ row ∈ cols, ∃ col n, index row idx = some col ∧ col.unwrap = some (.int k n)) :
    (nonNullInts idx cols).length = cols.length := by
  induction cols with
  | nil => rfl
  | cons row rest ih =>
    obtain ⟨col, n, h1, h2⟩ := h row (List.mem_cons_self _ _)
    simp only [nonNullInts, List.filterMap_cons, intValueAt_of_int h1 h2, List.length_cons]
    have := ih (fun r hr => h r (List.mem_cons_of_mem _ hr))
    simp only [nonNullInts] at this
    rw [this]

theorem nonNullInts_dropNulls (idx : Int) (cols : List Row) :
    nonNullInts idx (dropNulls idx cols) = nonNullInts idx cols := by
  induction cols with
  | nil => rfl
  | cons row rest ih =>
    simp only [nonNullInts, dropNulls] at ih ⊢
    rw [List.filter_cons]
    split
    · simp only [List.filterMap_cons]
      rw [ih]
    · rename_i hf
      have hnone : intValueAt idx row = none := by
        unfold intValueAt
        cases hi : index row idx with
        | none => rfl
        | some col =>
          simp only [hi, Value.isNull] at hf
          have hu : col.unwrap = none := by
            cases hc : col.unwrap with
            | none => rfl
            | some v => simp [hc] at hf
          simp [hu]
      simp only [List.filterMap_cons, hnone]
      exact ih

theorem mem_dropNulls_of_nonNull {idx : Int} {cols : List Row} {row : Row}
    (hrow : row ∈ cols) (h : nonNullAt idx row) : row ∈ dropNulls idx cols := by
  obtain ⟨col, v, h1, h2⟩ := h
  unfold dropNulls
  rw [List.mem_filter]
  refine ⟨hrow, ?_⟩
  simp [h1, Value.isNull, h2]

/-- C1 (as amended).  On a non-empty batch whose value at the configured index
is, in every row, in bounds and a non-null integer of one type `k` (a scalar or
a valid wrapper), `Count.Aggregate` succeeds; every row contributes; the result
is the sum of the values reduced into `k` as Go's addition does on overflow,
and it is the arithmetic sum whenever that sum is representable in `k`. -/
theorem count_merges_to_wrapped_sum (fa : FloatArith) (s : Count) (k : IntKind)
    (cols : List Row) (hne : cols ≠ [])
    (hrows : ∀ row ∈ cols, ∃ col n,
      index row s.countInfo.Index = some col ∧ col.unwrap = some (.int k n)) :
    (nonNullInts s.countInfo.Index cols).length = cols.length ∧
    s.Aggregate fa cols = .ok (.int k (k.wrap (nonNullInts s.countInfo.Index cols).sum)) ∧
    (k.inRange (nonNullInts s.countInfo.Index cols).sum →
      s.Aggregate fa cols = .ok (.int k (nonNullInts s.countInfo.Index cols).sum)) := by
  have hnn : ∃ row ∈ cols, nonNullAt s.countInfo.Index row := by
    cases cols with
    | nil => exact absurd rfl hne
    | cons c0 rest =>
      obtain ⟨col, n, h1, h2⟩ := hrows c0 (List.mem_cons_self _ _)
      exact ⟨c0, List.mem_cons_self _ _, col, _, h1, h2⟩
  have hmain := count_aggregate_ints fa s k cols
    (fun row hrow => nullOrKind_of_int (hrows row hrow)) hnn
  refine ⟨nonNullInts_length_of_int hrows, hmain, fun hr => ?_⟩
  rw [hmain, wrap_of_inRange k _ hr]

/-- C1, witness: the counts 10, 20 and 30 of three shards merge to 60. -/
theorem count_merges_to_wrapped_sum_witness :
    (nonNullInts 0 [[.int .int64 10], [.int .int64 20], [.int .int64 30]]).length = 3 ∧
    (countAt 0).Aggregate FloatArith.sample
        [[.int .int64 10], [.int .int64 20], [.int .int64 30]]
      = .ok (.int .int64 (IntKind.int64.wrap 60)) ∧
    (IntKind.int64.inRange 60 →
      (countAt 0).Aggregate FloatArith.sample
          [[.int .int64 10], [.int .int64 20], [.int .int64 30]]
        = .ok (.int .int64 60)) :=
  count_merges_to_wrapped_sum FloatArith.sample (countAt 0) .int64
    [[.int .int64 10], [.int .int64 20], [.int .int64 30]] (by decide)
    (by
      intro row hrow
      simp only [List.mem_cons, List.mem_singleton, List.not_mem_nil, or_false] at hrow
      rcases hrow with rfl | rfl | rfl
      · exact ⟨_, 10, rfl, rfl⟩
      · exact ⟨_, 20, rfl, rfl⟩
      · exact ⟨_, 30, rfl, rfl⟩)

/-- C1, counterexample: two shards report the `int64` counts 2^62 each; both
are representable, their arithmetic sum 2^63 is not what `Count.Aggregate`
returns: it returns -2^63. -/
theorem count_arithmetic_sum_overflow :
    IntKind.int64.inRange 4611686018427387904 ∧
    (countAt 0).Aggregate FloatArith.sample
        [[.int .int64 4611686018427387904], [.int .int64 4611686018427387904]]
      = .ok (.int .int64 (-9223372036854775808)) ∧
    (countAt 0).Aggregate FloatArith.sample
        [[.int .int64 4611686018427387904], [.int .int64 4611686018427387904]]
      ≠ .ok (.int .int64 (4611686018427387904 + 4611686018427387904)) := by
  decide

/-- C2 (as amended).  On a batch whose value at the configured index is, in
every row, in bounds and either a SQL NULL or a non-null integer of one type
`k` (valid wrapper or scalar), with at least one non-null value,
`Count.Aggregate` returns the unwrapped sum of exactly the non-null values,
reduced into `k` as Go's addition does on overflow; it is the arithmetic sum
whenever that sum is representable in `k`; and the NULL rows do not change the
result: the batch without them gives the same. -/
theorem count_ignores_nulls (fa : FloatArith) (s : Count) (k : IntKind) (cols : List Row)
    (hrows : ∀ row ∈ cols, nullOrKind s.countInfo.Index (.int k) row)
    (hnn : ∃ row ∈ cols, nonNullAt s.countInfo.Index row) :
    s.Aggregate fa cols = .ok (.int k (k.wrap (nonNullInts s.countInfo.Index cols).sum)) ∧
    (k.inRange (nonNullInts s.countInfo.Index cols).sum →
      s.Aggregate fa cols = .ok (.int k (nonNullInts s.countInfo.Index cols).sum)) ∧
    s.Aggregate fa (dropNulls s.countInfo.Index cols) = s.Aggregate fa cols := by
  have hmain := count_aggregate_ints fa s k cols hrows hnn
  refine ⟨hmain, fun hr => ?_, ?_⟩
  · rw [hmain, wrap_of_inRange k _ hr]
  · have hrows2 : ∀ row ∈ dropNulls s.countInfo.Index cols,
        nullOrKind s.countInfo.Index (.int k) row := fun row hrow =>
      hrows row (List.mem_of_mem_filter hrow)
    have hnn2 : ∃ row ∈ dropNulls s.countInfo.Index cols, nonNullAt s.countInfo.Index row := by
      obtain ⟨row, hrow, h⟩ := hnn
      exact ⟨row, mem_dropNulls_of_nonNull hrow h, h⟩
    rw [hmain, count_aggregate_ints fa s k _ hrows2 hnn2, nonNullInts_dropNulls]

/-- C2, witness: a valid wrapper 8, a NULL and a scalar 8 give `int64` 16. -/
theorem count_ignores_nulls_witness :
    (countAt 0).Aggregate FloatArith.sample
        [[.nullInt64 8 true], [.nullInt64 0 false], [.int .int64 8]]
      = .ok (.int .int64 (IntKind.int64.wrap
          (nonNullInts 0 [[.nullInt64 8 true], [.nullInt64 0 false], [.int .int64 8]]).sum)) ∧
    (IntKind.int64.inRange
        (nonNullInts 0 [[.nullInt64 8 true], [.nullInt64 0 false], [.int .int64 8]]).sum →
      (countAt 0).Aggregate FloatArith.sample
          [[.nullInt64 8 true], [.nullInt64 0 false], [.int .int64 8]]
        = .ok (.int .int64
            (nonNullInts 0 [[.nullInt64 8 true], [.nullInt64 0 false], [.int .int64 8]]).sum)) ∧
    (countAt 0).Aggregate FloatArith.sample
        (dropNulls 0 [[.nullInt64 8 true], [.nullInt64 0 false], [.int .int64 8]])
      = (countAt 0).Aggregate FloatArith.sample
        [[.nullInt64 8 true], [.nullInt64 0 false], [.int .int64 8]] :=
  count_ignores_nulls FloatArith.sample (countAt 0) .int64
    [[.nullInt64 8 true], [.nullInt64 0 false], [.int .int64 8]]
    (by
      intro row hrow
      simp only [List.mem_cons, List.mem_singleton, List.not_mem_nil, or_false] at hrow
      rcases hrow with rfl | rfl | rfl
      · exact ⟨_, rfl, Or.inr ⟨.int .int64 8, rfl, rfl⟩⟩
      · exact ⟨_, rfl, Or.inl rfl⟩
      · exact ⟨_, rfl, Or.inr ⟨.int .int64 8, rfl, rfl⟩⟩)
    ⟨[.int .int64 8], by decide, _, .int .int64 8, rfl, rfl⟩

/-- C2, counterexample: a NULL and the `int8` values 100 and 100; the sum of
the non-null values is 200, `Count.Aggregate` returns `int8` -56. -/
theorem count_null_mix_overflow :
    IntKind.int8.inRange 100 ∧
    (nonNullInts 0 [[.nullInt64 0 false], [.int .int8 100], [.int .int8 100]]).sum = 200 ∧
    (countAt 0).Aggregate FloatArith.sample
        [[.nullInt64 0 false], [.int .int8 100], [.int .int8 100]]
      = .ok (.int .int8 (-56)) := by
  decide

/-- C3.  On a non-empty batch whose value at the configured index is, in every
row, in bounds and a SQL NULL, `Count.Aggregate` succeeds and returns the value
of the first row at the index as it is: a wrapper that is still not valid. -/
theorem count_all_null_returns_first (fa : FloatArith) (s : Count) (c0 : Row)
    (rest : List Row)
    (hrows : ∀ row ∈ c0 :: rest, ∃ col,
      index row s.countInfo.Index = some col ∧ col.unwrap = none) :
    ∃ w, index c0 s.countInfo.Index = some w ∧ w.isNull = true ∧ w.kind = .struct ∧
      s.Aggregate fa (c0 :: rest) = .ok w := by
  obtain ⟨w, hw, hnull⟩ := hrows c0 (List.mem_cons_self _ _)
  have hk : ∀ row ∈ c0 :: rest, nullOrKind s.countInfo.Index .invalid row :=
    fun row hrow => by
      obtain ⟨col, h1, h2⟩ := hrows row hrow
      exact ⟨col, h1, Or.inl h2⟩
  refine ⟨w, hw, by simp [Value.isNull, hnull], ?_, ?_⟩
  · cases w <;> simp [Value.unwrap] at hnull <;> rfl
  · simp only [Count.Aggregate, findCountFunc_ok fa s c0 w hw,
      Count.countNullableAggregator, nullableAggregator_eq _ _ _ hk,
      filterMap_keepRow_eq_nil hrows, List.length_nil, if_true, hw]

/-- C3, witness: three shards report NULL; the result is the first wrapper. -/
theorem count_all_null_returns_first_witness :
    ∃ w, index [.nullInt64 0 false] 0 = some w ∧ w.isNull = true ∧ w.kind = .struct ∧
      (countAt 0).Aggregate FloatArith.sample
        ([.nullInt64 0 false] :: [[.nullFloat64 0 false], [.nullInt64 0 false]]) = .ok w :=
  count_all_null_returns_first FloatArith.sample (countAt 0) [.nullInt64 0 false]
    [[.nullFloat64 0 false], [.nullInt64 0 false]]
    (by
      intro row hrow
      simp only [List.mem_cons, List.mem_singleton, List.not_mem_nil, or_false] at hrow
      rcases hrow with rfl | rfl | rfl
      · exact ⟨_, rfl, rfl⟩
      · exact ⟨_, rfl, rfl⟩
      · exact ⟨_, rfl, rfl⟩)

/-- C4.  On a non-empty batch, a configured index that is negative or not less
than the length of the first row makes `Count.Aggregate` return the error
`ErrMergerInvalidAggregateColumnIndex` and no value, whatever the rows hold. -/
theorem count_index_out_of_range (fa : FloatArith) (s : Count) (c0 : Row) (rest : List Row)
    (h : s.countInfo.Index < 0 ∨ (c0.length : Int) ≤ s.countInfo.Index) :
    s.Aggregate fa (c0 :: rest) = .error (.err .ErrMergerInvalidAggregateColumnIndex) := by
  simp only [Count.Aggregate, Count.findCountFunc, ge_iff_le, h, if_true]

/-- C4, witness: index 20 on rows of length one, of mixed kinds. -/
theorem count_index_out_of_range_witness :
    (countAt 20).Aggregate FloatArith.sample
        ([.int .int64 10] :: [[.str "a"], [.nullInt64 0 false]])
      = .error (.err .ErrMergerInvalidAggregateColumnIndex) :=
  count_index_out_of_range FloatArith.sample (countAt 20) [.int .int64 10]
    [[.str "a"], [.nullInt64 0 false]] (Or.inr (by decide))

/-- C5.  On a batch whose value at the configured index is in bounds in every
row, whose non-null values are of one scalar kind `K` that has no entry in
`countAggregateFuncMapping`, and which holds a non-null value,
`Count.Aggregate` fails with `ErrMergerAggregateFuncNotFound`. -/
theorem count_unregistered_kind (fa : FloatArith) (s : Count) (K : Kind) (cols : List Row)
    (hrows : ∀ row ∈ cols, nullOrKind s.countInfo.Index K row)
    (hnn : ∃ row ∈ cols, nonNullAt s.countInfo.Index row)
    (hK : (countAggregateFuncMapping fa K).isNone = true) :
    s.Aggregate fa cols = .error (.err .ErrMergerAggregateFuncNotFound) :=
  count_aggregate_no_entry fa s K cols hrows hnn hK

/-- C5, witness: the strings "1" and "3". -/
theorem count_unregistered_kind_witness :
    (countAt 0).Aggregate FloatArith.sample [[.str "1"], [.str "3"]]
      = .error (.err .ErrMergerAggregateFuncNotFound) :=
  count_unregistered_kind FloatArith.sample (countAt 0) .string [[.str "1"], [.str "3"]]
    (by
      intro row hrow
      simp only [List.mem_cons, List.mem_singleton, List.not_mem_nil, or_false] at hrow
      rcases hrow with rfl | rfl
      · exact ⟨_, rfl, Or.inr ⟨.str "1", rfl, rfl⟩⟩
      · exact ⟨_, rfl, Or.inr ⟨.str "3", rfl, rfl⟩⟩)
    ⟨[.str "1"], by decide, _, .str "1", rfl, rfl⟩
    rfl

theorem nonNullInts_perm {idx : Int} {cols cols2 : List Row} (h : cols2.Perm cols) :
    (nonNullInts idx cols2).sum = (nonNullInts idx cols).sum :=
  (h.filterMap (intValueAt idx)).sum_eq

/-- C6 (as amended).  On a batch whose value at the configured index is in
bounds in every row, which holds a non-null value, and whose non-null values
are all of one kind other than the two float kinds, shard order does not affect
`Count.Aggregate`: every permutation of the batch gives the same value and the
same error. -/
theorem count_perm_invariant (fa : FloatArith) (s : Count) (K : Kind) (cols cols2 : List Row)
    (hrows : ∀ row ∈ cols, nullOrKind s.countInfo.Index K row)
    (hnn : ∃ row ∈ cols, nonNullAt s.countInfo.Index row)
    (hK : K ≠ .float32 ∧ K ≠ .float64)
    (hperm : cols2.Perm cols) :
    s.Aggregate fa cols2 = s.Aggregate fa cols := by
  have hrows2 : ∀ row ∈ cols2, nullOrKind s.countInfo.Index K row := fun row hrow =>
    hrows row (hperm.mem_iff.mp hrow)
  have hnn2 : ∃ row ∈ cols2, nonNullAt s.countInfo.Index row := by
    obtain ⟨row, hrow, h⟩ := hnn
    exact ⟨row, hperm.mem_iff.mpr hrow, h⟩
  cases K with
  | int k =>
    rw [count_aggregate_ints fa s k cols hrows hnn,
      count_aggregate_ints fa s k cols2 hrows2 hnn2, nonNullInts_perm hperm]
  | float32 => exact absurd rfl hK.1
  | float64 => exact absurd rfl hK.2
  | invalid =>
    rw [count_aggregate_no_entry fa s _ cols hrows hnn rfl,
      count_aggregate_no_entry fa s _ cols2 hrows2 hnn2 rfl]
  | string =>
    rw [count_aggregate_no_entry fa s _ cols hrows hnn rfl,
      count_aggregate_no_entry fa s _ cols2 hrows2 hnn2 rfl]
  | bool =>
    rw [count_aggregate_no_entry fa s _ cols hrows hnn rfl,
      count_aggregate_no_entry fa s _ cols2 hrows2 hnn2 rfl]
  | struct =>
    rw [count_aggregate_no_entry fa s _ cols hrows hnn rfl,
      count_aggregate_no_entry fa s _ cols2 hrows2 hnn2 rfl]

/-- C6, witness: the counts 10, NULL, 20 and the same rows in another order. -/
theorem count_perm_invariant_witness :
    (countAt 0).Aggregate FloatArith.sample
        [[.nullInt64 0 false], [.int .int64 10], [.int .int64 20]]
      = (countAt 0).Aggregate FloatArith.sample
        [[.int .int64 10], [.nullInt64 0 false], [.int .int64 20]] :=
  count_perm_invariant FloatArith.sample (countAt 0) (.int .int64)
    [[.int .int64 10], [.nullInt64 0 false], [.int .int64 20]]
    [[.nullInt64 0 false], [.int .int64 10], [.int .int64 20]]
    (by
      intro row hrow
      simp only [List.mem_cons, List.mem_singleton, List.not_mem_nil, or_false] at hrow
      rcases hrow with rfl | rfl | rfl
      · exact ⟨_, rfl, Or.inr ⟨.int .int64 10, rfl, rfl⟩⟩
      · exact ⟨_, rfl, Or.inl rfl⟩
      · exact ⟨_, rfl, Or.inr ⟨.int .int64 20, rfl, rfl⟩⟩)
    ⟨[.int .int64 10], by decide, _, .int .int64 10, rfl, rfl⟩
    (by decide)
    (List.Perm.swap _ _ _)

/-- C6, counterexample: two shards report NULL in wrappers of different kinds;
the batch and its permutation give different values, each the wrapper of the
row that comes first. -/
theorem count_all_null_order_dependent :
    List.Perm [[Value.nullFloat64 0 false], [Value.nullInt64 0 false]]
        [[Value.nullInt64 0 false], [Value.nullFloat64 0 false]] ∧
    (countAt 0).Aggregate FloatArith.sample
        [[.nullInt64 0 false], [.nullFloat64 0 false]] = .ok (.nullInt64 0 false) ∧
    (countAt 0).Aggregate FloatArith.sample
        [[.nullFloat64 0 false], [.nullInt64 0 false]] = .ok (.nullFloat64 0 false) ∧
    (countAt 0).Aggregate FloatArith.sample [[.nullFloat64 0 false], [.nullInt64 0 false]]
      ≠ (countAt 0).Aggregate FloatArith.sample
          [[.nullInt64 0 false], [.nullFloat64 0 false]] :=
  ⟨List.Perm.swap _ _ _, by decide, by decide, by decide⟩

/-- The loop of `Min` over the rows that `nullableAggregator` hands on returns
an integer that is the start value or a non-null integer of the batch, and that
is at most the start value and every non-null integer of the batch. -/
theorem minLoop_kept (fa : FloatArith) (k : IntKind) (idx : Int) :
    ∀ (cols : List Row) (a : Int),
      (∀ row ∈ cols, nullOrKind idx (.int k) row) →
      ∃ m, minLoop fa (.int k) idx (.int k a) (cols.filterMap (keepRow idx)) = .ok (.int k m) ∧
        (m = a ∨ m ∈ nonNullInts idx cols) ∧ m ≤ a ∧ ∀ n ∈ nonNullInts idx cols, m ≤ n := by
  intro cols
  induction cols with
  | nil =>
    intro a _
    exact ⟨a, by simp [minLoop], Or.inl rfl, le_refl _, by simp [nonNullInts]⟩
  | cons row rest ih =>
    intro a hrows
    obtain ⟨col, hcol, hcase⟩ := hrows row (List.mem_cons_self _ _)
    have hrest : ∀ r ∈ rest, nullOrKind idx (.int k) r := fun r hr =>
      hrows r (List.mem_cons_of_mem _ hr)
    rcases hcase with hnull | ⟨v, hv, hvk⟩
    · rw [List.filterMap_cons, keepRow_eq_none hcol hnull]
      simp only [nonNullInts, List.filterMap_cons, intValueAt_of_null hcol hnull]
      exact ih a hrest
    · obtain ⟨n, rfl⟩ := kind_eq_int hvk
      rw [List.filterMap_cons, keepRow_eq_some hcol hv]
      simp only [nonNullInts, List.filterMap_cons, intValueAt_of_int hcol hv,
        List.mem_cons, forall_eq_or_imp]
      simp only [minLoop, index_set_self hcol, lessAssert, if_true]
      by_cases hlt : n < a
      · obtain ⟨m, hm, hmem, hle, hall⟩ := ih n hrest
        refine ⟨m, ?_, ?_, by omega, hle, hall⟩
        · simp only [hlt, decide_True]
          exact hm
        · rcases hmem with h | h
          · exact Or.inr (Or.inl h)
          · exact Or.inr (Or.inr h)
      · obtain ⟨m, hm, hmem, hle, hall⟩ := ih a hrest
        refine ⟨m, ?_, ?_, hle, by omega, hall⟩
        · simp only [hlt, decide_False]
          exact hm
        · rcases hmem with h | h
          · exact Or.inl h
          · exact Or.inr (Or.inr h)

/-! ### Merge -/

theorem allPresent_of_mem_none {results : List (Option ShardRows)} (h : none ∈ results) :
    allPresent results = none := by
  induction results with
  | nil => cases h
  | cons x rest ih =>
    cases x with
    | none => rfl
    | some r =>
      have hrest : none ∈ rest := by
        rcases List.mem_cons.mp h with h | h
        · cases h
        · exact h
      simp [allPresent, ih hrest]

theorem allPresent_map_some (srcs : List ShardRows) : allPresent (srcs.map some) = some srcs := by
  induction srcs with
  | nil => rfl
  | cons s rest ih => simp [allPresent, ih]

/-- On sources none of which is nil, with a context that is not cancelled, the
plain `Merge` returns the cursor `cursorOf`. -/
theorem merge_ok (m : Merger) (ctx : Context) (srcs : List ShardRows) (hctx : ctx.err = none)
    (hne : srcs ≠ []) : (m.Merge ctx (srcs.map some)).2 = .ok (cursorOf m srcs) := by
  have hlen : ¬ (srcs.map some).length = 0 := by
    simpa using hne
  simp only [Merger.Merge, hctx, hlen, if_false, allPresent_map_some, cursorOf]

theorem cursorOf_fresh (m : Merger) (srcs : List ShardRows) : (cursorOf m srcs).fresh :=
  ⟨rfl, rfl, rfl⟩

/-- C8.  With a context that is not cancelled, `Merge` of the plain merger and
`Merge` of the group-by merger fail with `ErrMergerEmptyRows` on an empty list
of shard sources and with `ErrMergerRowsIsNull` on a list that contains a nil
entry; the result is the error alone, no cursor. -/
theorem merge_rejects_empty_and_nil (fa : FloatArith) (m : Merger) (a : AggregatorMerger)
    (ctx : Context) (results : List (Option ShardRows)) (hctx : ctx.err = none) :
    ((m.Merge ctx []).2 = .error .ErrMergerEmptyRows ∧
      (a.Merge fa ctx []).2 = .error (.err .ErrMergerEmptyRows)) ∧
    (none ∈ results →
      (m.Merge ctx results).2 = .error .ErrMergerRowsIsNull ∧
      (a.Merge fa ctx results).2 = .error (.err .ErrMergerRowsIsNull)) := by
  refine ⟨⟨?_, ?_⟩, fun hnil => ?_⟩
  · simp [Merger.Merge, hctx]
  · simp [AggregatorMerger.Merge, hctx]
  · have hlen : ¬ results.length = 0 := by
      intro h0
      rw [List.length_eq_zero] at h0
      rw [h0] at hnil
      cases hnil
    have hp := allPresent_of_mem_none hnil
    constructor
    · simp only [Merger.Merge, hctx, hlen, if_false, hp]
    · simp only [AggregatorMerger.Merge, hctx, hlen, if_false, hp]

/-- C8, witness: no sources, and a source followed by a nil entry. -/
theorem merge_rejects_empty_and_nil_witness :
    ((sampleMerger.Merge { err := none } []).2 = .error .ErrMergerEmptyRows ∧
      (sampleGroupMerger.Merge FloatArith.sample { err := none } []).2
        = .error (.err .ErrMergerEmptyRows)) ∧
    (none ∈ [some (sourceOf [[.int .int64 1]]), none] →
      (sampleMerger.Merge { err := none } [some (sourceOf [[.int .int64 1]]), none]).2
        = .error .ErrMergerRowsIsNull ∧
      (sampleGroupMerger.Merge FloatArith.sample { err := none }
          [some (sourceOf [[.int .int64 1]]), none]).2
        = .error (.err .ErrMergerRowsIsNull)) :=
  merge_rejects_empty_and_nil FloatArith.sample sampleMerger sampleGroupMerger { err := none }
    [some (sourceOf [[.int .int64 1]]), none] rfl

/-! ### The cursor of the plain merger -/

theorem getSqlRowsData_of_yields (srcs : List ShardRows) (h : ∀ src ∈ srcs, yieldsRow src) :
    ∃ srcs2, getSqlRowsData srcs = (srcs2, .ok (firstRows srcs)) := by
  induction srcs with
  | nil => exact ⟨[], rfl⟩
  | cons src rest ih =>
    obtain ⟨hs, row, tail, hp⟩ := h src (List.mem_cons_self _ _)
    obtain ⟨rest2, hrest⟩ := ih (fun s hsm => h s (List.mem_cons_of_mem _ hsm))
    refine ⟨{ (src.called .newScanner).called .scan with pending := tail } :: rest2, ?_⟩
    simp only [getSqlRowsData, getSqlRowData, hs, hp, hrest, firstRows, List.filterMap_cons]

theorem executeAggregateCalculation_ok (aggs : List Aggregator) (rowsData : List Row)
    (h : ∀ agg ∈ aggs, ∃ v, agg.Aggregate rowsData = .ok v) :
    ∃ res, executeAggregateCalculation aggs rowsData = .ok res := by
  induction aggs with
  | nil => exact ⟨[], rfl⟩
  | cons agg rest ih =>
    obtain ⟨v, hv⟩ := h agg (List.mem_cons_self _ _)
    obtain ⟨res, hres⟩ := ih (fun a ha => h a (List.mem_cons_of_mem _ ha))
    exact ⟨v :: res, by simp [executeAggregateCalculation, hv, hres]⟩

/-- Once `nextCalled` is set, `Next` returns false, does not panic and leaves
`nextCalled` set. -/
theorem next_of_nextCalled (r : Rows) (h : r.nextCalled = true) :
    ∃ r2, r.Next = some (r2, false) ∧ r2.nextCalled = true := by
  unfold Rows.Next
  by_cases hc : r.closed = true ∨ r.lastErr ≠ none
  · exact ⟨r, by rw [if_pos hc], h⟩
  · exact ⟨r.Close.1, by rw [if_neg hc, if_pos h], h⟩

/-- Every call on a cursor whose `nextCalled` is set executes, leaves it set,
and returns false if it is `Next`. -/
theorem step_of_nextCalled (r : Rows) (h : r.nextCalled = true) (op : CursorOp) :
    ∃ r2 out, r.step op = some (r2, out) ∧ r2.nextCalled = true ∧
      ∀ b, out = .next b → b = false := by
  cases op with
  | next =>
    obtain ⟨r2, h2, h3⟩ := next_of_nextCalled r h
    refine ⟨r2, .next false, by simp [Rows.step, h2], h3, ?_⟩
    intro b hb
    cases hb
    rfl
  | scan dest => exact ⟨r, _, rfl, h, fun b hb => by cases hb⟩
  | close => exact ⟨_, _, rfl, h, fun b hb => by cases hb⟩
  | columns => exact ⟨r, _, rfl, h, fun b hb => by cases hb⟩
  | columnTypes =>
    refine ⟨_, _, rfl, ?_, fun b hb => by cases hb⟩
    unfold Rows.ColumnTypes
    split
    · exact h
    · split
      · exact h
      · split
        · exact h
        · split
          · exact h
          · split <;> exact h
  | err => exact ⟨r, _, rfl, h, fun b hb => by cases hb⟩
  | nextResultSet => exact ⟨r, _, rfl, h, fun b hb => by cases hb⟩

theorem run_of_nextCalled (ops : List CursorOp) :
    ∀ r : Rows, r.nextCalled = true →
      (r.run ops).2.length = ops.length ∧ ∀ b, CursorOut.next b ∈ (r.run ops).2 → b = false := by
  induction ops with
  | nil =>
    intro r _
    exact ⟨rfl, fun b hb => by cases hb⟩
  | cons op ops ih =>
    intro r h
    obtain ⟨r2, out, hstep, h2, hout⟩ := step_of_nextCalled r h op
    obtain ⟨hlen, hall⟩ := ih r2 h2
    simp only [Rows.run, hstep, List.length_cons, hlen, List.mem_cons, true_and]
    intro b hb
    rcases hb with hb | hb
    · exact hout b hb.symm
    · exact hall b hb

/-- A closed cursor without recorded error stays so under every call, and every
call on it executes. -/
theorem step_of_closed (r : Rows) (hc : r.closed = true) (he : r.lastErr = none)
    (op : CursorOp) :
    ∃ r2 out, r.step op = some (r2, out) ∧ r2.closed = true ∧ r2.lastErr = none := by
  cases op with
  | next =>
    refine ⟨r, .next false, ?_, hc, he⟩
    simp [Rows.step, Rows.Next, hc]
  | scan dest => exact ⟨r, _, rfl, hc, he⟩
  | close => exact ⟨_, _, rfl, rfl, he⟩
  | columns => exact ⟨r, _, rfl, hc, he⟩
  | columnTypes =>
    refine ⟨r, .columnTypes (.error (.err .ErrMergerRowsClosed)), ?_, hc, he⟩
    simp [Rows.step, Rows.ColumnTypes, hc]
  | err => exact ⟨r, _, rfl, hc, he⟩
  | nextResultSet => exact ⟨r, _, rfl, hc, he⟩

theorem run_of_closed (ops : List CursorOp) :
    ∀ r : Rows, r.closed = true → r.lastErr = none →
      (r.run ops).1.closed = true ∧ (r.run ops).1.lastErr = none := by
  induction ops with
  | nil =>
    intro r hc he
    exact ⟨hc, he⟩
  | cons op ops ih =>
    intro r hc he
    obtain ⟨r2, out, hstep, h2, h3⟩ := step_of_closed r hc he op
    simp only [Rows.run, hstep]
    exact ih r2 h2 h3

theorem scan_of_closed (r : Rows) (hc : r.closed = true) (he : r.lastErr = none)
    (dest : List Dest) : r.Scan dest = .error (.err .ErrMergerRowsClosed) := by
  simp [Rows.Scan, hc, he]

/-- C9.  On a plain-merger cursor fresh from `Merge` whose shard sources each
yield a row and whose aggregators all succeed on the gathered rows, the first
`Next` returns true; after it every sequence of calls executes and every `Next`
in it returns false; and after the second `Next`, whatever calls follow, `Scan`
fails with `ErrMergerRowsClosed`. -/
theorem plain_next_true_once (r : Rows) (hfresh : r.fresh)
    (hsrc : ∀ src ∈ r.rowsList, yieldsRow src)
    (hagg : ∀ agg ∈ r.aggregators, ∃ v, agg.Aggregate (firstRows r.rowsList) = .ok v) :
    ∃ r1, r.Next = some (r1, true) ∧
      (∀ ops : List CursorOp, (r1.run ops).2.length = ops.length ∧
        ∀ b, CursorOut.next b ∈ (r1.run ops).2 → b = false) ∧
      ∃ r2, r1.Next = some (r2, false) ∧
        ∀ (ops : List CursorOp) (dest : List Dest),
          (r2.run ops).1.Scan dest = .error (.err .ErrMergerRowsClosed) := by
  obtain ⟨hc, he, hn⟩ := hfresh
  obtain ⟨srcs, hsrcs⟩ := getSqlRowsData_of_yields r.rowsList hsrc
  obtain ⟨res, hres⟩ := executeAggregateCalculation_ok r.aggregators _ hagg
  refine ⟨{ r with rowsList := srcs, nextCalled := true, cur := res }, ?_, ?_, ?_⟩
  · simp [Rows.Next, hc, he, hn, hsrcs, hres]
  · intro ops
    exact run_of_nextCalled ops _ rfl
  · refine ⟨(Rows.Close { r with rowsList := srcs, nextCalled := true, cur := res }).1, ?_, ?_⟩
    · simp [Rows.Next, hc, he]
    · intro ops dest
      obtain ⟨h1, h2⟩ := run_of_closed ops
        (Rows.Close { r with rowsList := srcs, nextCalled := true, cur := res }).1 rfl he
      exact scan_of_closed _ h1 h2 dest

/-- C9, witness: three shards report the counts 10, 20 and 30. -/
theorem plain_next_true_once_witness :
    ∃ r1, (cursorOf sampleMerger [sourceOf [[.int .int64 10]], sourceOf [[.int .int64 20]],
        sourceOf [[.int .int64 30]]]).Next = some (r1, true) ∧
      (∀ ops : List CursorOp, (r1.run ops).2.length = ops.length ∧
        ∀ b, CursorOut.next b ∈ (r1.run ops).2 → b = false) ∧
      ∃ r2, r1.Next = some (r2, false) ∧
        ∀ (ops : List CursorOp) (dest : List Dest),
          (r2.run ops).1.Scan dest = .error (.err .ErrMergerRowsClosed) :=
  plain_next_true_once
    (cursorOf sampleMerger [sourceOf [[.int .int64 10]], sourceOf [[.int .int64 20]],
      sourceOf [[.int .int64 30]]])
    (cursorOf_fresh _ _)
    (by
      intro src hsrc
      simp only [cursorOf, List.mem_cons, List.mem_singleton, List.not_mem_nil,
        or_false] at hsrc
      rcases hsrc with rfl | rfl | rfl
      · exact ⟨rfl, _, _, rfl⟩
      · exact ⟨rfl, _, _, rfl⟩
      · exact ⟨rfl, _, _, rfl⟩)
    (by
      intro agg hagg
      simp only [cursorOf, sampleMerger, NewMerger, List.mem_singleton] at hagg
      subst hagg
      exact ⟨.int .int64 60, by decide⟩)

theorem getSqlRowsData_of_empty (post : List ShardRows) (src : ShardRows)
    (hsrc : yieldsNoRow src) :
    ∀ pre : List ShardRows, (∀ s ∈ pre, ¬ failsToScan s) →
      ∃ srcs, getSqlRowsData (pre ++ src :: post)
        = (srcs, .error .ErrMergerAggregateHasEmptyRows) := by
  intro pre
  induction pre with
  | nil =>
    intro _
    obtain ⟨h1, h2⟩ := hsrc
    exact ⟨(src.called .newScanner).called .scan :: post,
      by simp [getSqlRowsData, getSqlRowData, h1, h2]⟩
  | cons s rest ih =>
    intro hpre
    have hs := hpre s (List.mem_cons_self _ _)
    obtain ⟨srcs, hrest⟩ := ih (fun t ht => hpre t (List.mem_cons_of_mem _ ht))
    have hscanner : s.scannerErr = none := by
      by_contra hne
      exact hs (Or.inl hne)
    cases hp : s.pending with
    | nil =>
      exact ⟨(s.called .newScanner).called .scan :: (rest ++ src :: post),
        by simp [getSqlRowsData, getSqlRowData, hscanner, hp]⟩
    | cons res tail =>
      cases res with
      | error e => exact absurd (Or.inr ⟨e, tail, hp⟩) hs
      | ok row =>
        exact ⟨{ (s.called .newScanner).called .scan with pending := tail } :: srcs,
          by simp [getSqlRowsData, getSqlRowData, hscanner, hp, hrest]⟩

theorem closeAll_called (srcs : List ShardRows) :
    ∀ s ∈ (closeAll srcs).1, SourceCall.close ∈ s.calls := by
  induction srcs with
  | nil =>
    intro s hs
    cases hs
  | cons src rest ih =>
    intro s hs
    have hfst : (closeAll (src :: rest)).1 = src.called .close :: (closeAll rest).1 := by
      simp only [closeAll]
      split <;> rfl
    rw [hfst] at hs
    rcases List.mem_cons.mp hs with rfl | hs
    · simp [ShardRows.called]
    · exact ih s hs

/-- C10.  On a plain-merger cursor fresh from `Merge` in which a shard source
yields zero rows and no source before it fails to scan, the first `Next`
returns false; `Err` then returns `ErrMergerAggregateHasEmptyRows`; the cursor
is closed and `Close` has been called on every source; and a following `Scan`
returns that same error. -/
theorem plain_next_empty_source (r : Rows) (hfresh : r.fresh)
    (pre post : List ShardRows) (src : ShardRows)
    (hlist : r.rowsList = pre ++ src :: post)
    (hpre : ∀ s ∈ pre, ¬ failsToScan s) (hsrc : yieldsNoRow src) :
    ∃ r1, r.Next = some (r1, false) ∧
      r1.Err = some .ErrMergerAggregateHasEmptyRows ∧
      r1.closed = true ∧
      (∀ s ∈ r1.rowsList, SourceCall.close ∈ s.calls) ∧
      ∀ dest : List Dest, r1.Scan dest = .error (.err .ErrMergerAggregateHasEmptyRows) := by
  obtain ⟨hc, he, hn⟩ := hfresh
  obtain ⟨srcs, hsrcs⟩ := getSqlRowsData_of_empty post src hsrc pre hpre
  rw [← hlist] at hsrcs
  refine ⟨(Rows.Close { r with
      rowsList := srcs, nextCalled := true,
      lastErr := some GoError.ErrMergerAggregateHasEmptyRows }).1, ?_, rfl, rfl, ?_, ?_⟩
  · simp [Rows.Next, hc, he, hn, hsrcs]
  · exact closeAll_called srcs
  · intro dest
    simp [Rows.Scan, Rows.Close]

/-- C10, witness: the second of three shards has no row. -/
theorem plain_next_empty_source_witness :
    ∃ r1, (cursorOf sampleMerger [sourceOf [[.int .int64 10]], sourceOf [],
        sourceOf [[.int .int64 30]]]).Next = some (r1, false) ∧
      r1.Err = some .ErrMergerAggregateHasEmptyRows ∧
      r1.closed = true ∧
      (∀ s ∈ r1.rowsList, SourceCall.close ∈ s.calls) ∧
      ∀ dest : List Dest, r1.Scan dest = .error (.err .ErrMergerAggregateHasEmptyRows) :=
  plain_next_empty_source
    (cursorOf sampleMerger [sourceOf [[.int .int64 10]], sourceOf [],
      sourceOf [[.int .int64 30]]])
    (cursorOf_fresh _ _)
    [sourceOf [[.int .int64 10]]] [sourceOf [[.int .int64 30]]] (sourceOf [])
    rfl
    (by
      intro s hs
      simp only [List.mem_singleton] at hs
      subst hs
      intro hf
      rcases hf with hf | ⟨e, rest, hf⟩
      · exact hf rfl
      · simp [sourceOf] at hf)
    ⟨rfl, rfl⟩

/-! ### Close, closed cursors, Scan before Next, column types -/

theorem closeAll_fst (srcs : List ShardRows) :
    (closeAll srcs).1 = srcs.map (fun s => s.called .close) := by
  induction srcs with
  | nil => rfl
  | cons src rest ih =>
    simp only [closeAll, List.map_cons]
    split <;> simp [ih]

theorem closeAll_snd (srcs : List ShardRows) :
    (closeAll srcs).2 = srcs.filterMap (fun s => s.closeErr) := by
  induction srcs with
  | nil => rfl
  | cons src rest ih =>
    simp only [closeAll, List.filterMap_cons]
    split <;> rename_i h <;> simp [h, ih]

theorem filterMap_closeErr_eq_nil (srcs : List ShardRows) :
    srcs.filterMap (fun s => s.closeErr) = [] ↔ ∀ s ∈ srcs, s.closeErr = none := by
  induction srcs with
  | nil => simp
  | cons src rest ih =>
    cases h : src.closeErr with
    | none => simp [List.filterMap_cons, h, ih]
    | some e => simp [List.filterMap_cons, h]

/-- C11.  On both cursors and in every state, `Close` sets `closed`, leaves the
recorded error as it is, makes exactly one `Close` call on every owned shard
source whether or not the sources before it failed to close, and returns the
close failures of all sources in source order: nil (the empty list) if and
only if no source failed. -/
theorem close_closes_every_source (r : Rows) (a : AggregatorRows) :
    (r.Close.1.closed = true ∧ r.Close.1.lastErr = r.lastErr ∧
      r.Close.1.rowsList = r.rowsList.map (fun s => s.called .close) ∧
      (∀ s : ShardRows, (s.called .close).calls = s.calls ++ [SourceCall.close]) ∧
      r.Close.2 = r.rowsList.filterMap (fun s => s.closeErr) ∧
      (r.Close.2 = [] ↔ ∀ s ∈ r.rowsList, s.closeErr = none)) ∧
    (a.Close.1.closed = true ∧ a.Close.1.lastErr = a.lastErr ∧
      a.Close.1.rowsList = a.rowsList.map (fun s => s.called .close) ∧
      a.Close.2 = a.rowsList.filterMap (fun s => s.closeErr) ∧
      (a.Close.2 = [] ↔ ∀ s ∈ a.rowsList, s.closeErr = none)) := by
  refine ⟨⟨rfl, rfl, closeAll_fst _, fun s => rfl, closeAll_snd _, ?_⟩,
    ⟨rfl, rfl, closeAll_fst _, closeAll_snd _, ?_⟩⟩
  · simp only [Rows.Close, closeAll_snd]
    exact filterMap_closeErr_eq_nil _
  · simp only [AggregatorRows.Close, closeAll_snd]
    exact filterMap_closeErr_eq_nil _

/-- C12 (as amended).  On both cursors, in every state in which `closed` is
true, `Columns` and `ColumnTypes` fail with `ErrMergerRowsClosed`, `Next`
returns false and changes nothing, and `Scan` fails: with the recorded error if
`Next` recorded one, with `ErrMergerRowsClosed` otherwise. -/
theorem closed_cursor_fails (fa : FloatArith) (r : Rows) (a : AggregatorRows)
    (dest : List Dest) (hr : r.closed = true) (ha : a.closed = true) :
    (r.Columns = .error .ErrMergerRowsClosed ∧
      r.ColumnTypes = (r, .error (.err .ErrMergerRowsClosed)) ∧
      r.Next = some (r, false) ∧
      r.Scan dest = .error (.err (r.lastErr.getD .ErrMergerRowsClosed))) ∧
    (a.Columns = .error .ErrMergerRowsClosed ∧
      a.ColumnTypes = .error (.err .ErrMergerRowsClosed) ∧
      a.Next fa = some (a, false) ∧
      a.Scan dest = .error (.err (a.lastErr.getD .ErrMergerRowsClosed))) := by
  refine ⟨⟨?_, ?_, ?_, ?_⟩, ⟨?_, ?_, ?_, ?_⟩⟩
  · simp [Rows.Columns, hr]
  · simp [Rows.ColumnTypes, hr]
  · simp [Rows.Next, hr]
  · cases he : r.lastErr <;> simp [Rows.Scan, hr, he]
  · simp [AggregatorRows.Columns, ha]
  · simp [AggregatorRows.ColumnTypes, ha]
  · simp [AggregatorRows.Next, ha]
  · cases he : a.lastErr <;> simp [AggregatorRows.Scan, ha, he]

/-- C12, witness: a plain cursor and a group-by cursor after `Close`. -/
theorem closed_cursor_fails_witness :
    ((cursorOf sampleMerger [sourceOf [[.int .int64 10]]]).Close.1.Columns
        = .error .ErrMergerRowsClosed ∧
      (cursorOf sampleMerger [sourceOf [[.int .int64 10]]]).Close.1.ColumnTypes
        = ((cursorOf sampleMerger [sourceOf [[.int .int64 10]]]).Close.1,
            .error (.err .ErrMergerRowsClosed)) ∧
      (cursorOf sampleMerger [sourceOf [[.int .int64 10]]]).Close.1.Next
        = some ((cursorOf sampleMerger [sourceOf [[.int .int64 10]]]).Close.1, false) ∧
      (cursorOf sampleMerger [sourceOf [[.int .int64 10]]]).Close.1.Scan []
        = .error (.err (((cursorOf sampleMerger
            [sourceOf [[.int .int64 10]]]).Close.1.lastErr).getD .ErrMergerRowsClosed))) ∧
    ((groupCursorOf sampleGroupMerger [] [] [] []).Close.1.Columns
        = .error .ErrMergerRowsClosed ∧
      (groupCursorOf sampleGroupMerger [] [] [] []).Close.1.ColumnTypes
        = .error (.err .ErrMergerRowsClosed) ∧
      (groupCursorOf sampleGroupMerger [] [] [] []).Close.1.Next FloatArith.sample
        = some ((groupCursorOf sampleGroupMerger [] [] [] []).Close.1, false) ∧
      (groupCursorOf sampleGroupMerger [] [] [] []).Close.1.Scan []
        = .error (.err (((groupCursorOf sampleGroupMerger [] [] [] []).Close.1.lastErr).getD
            .ErrMergerRowsClosed))) :=
  closed_cursor_fails FloatArith.sample
    (cursorOf sampleMerger [sourceOf [[.int .int64 10]]]).Close.1
    (groupCursorOf sampleGroupMerger [] [] [] []).Close.1 [] rfl rfl

/-- C12, counterexample: the only shard of a plain cursor has no row; `Next`
returns false and closes the cursor, and `Scan` on the closed cursor returns
the recorded `ErrMergerAggregateHasEmptyRows`, not `ErrMergerRowsClosed`. -/
theorem closed_by_error_scan_returns_error :
    ∃ r1, (cursorOf sampleMerger [sourceOf []]).Next = some (r1, false) ∧
      r1.closed = true ∧
      r1.Scan [] = .error (.err .ErrMergerAggregateHasEmptyRows) ∧
      r1.Scan [] ≠ .error (.err .ErrMergerRowsClosed) :=
  ⟨_, rfl, rfl, rfl, by decide⟩

/-- C13, the code at the failing input: a plain merger without aggregators and
one shard with one row.  The first `Next` returns true and leaves the cursor
open and without recorded error, yet `Scan` returns `ErrMergerScanNotNext`,
because the current row is empty.  The group-by cursor of a merger without
aggregators, which tests its position instead, scans after its first `Next`. -/
theorem plain_scan_not_next_after_next :
    (∃ r1, (cursorOf (NewMerger (fun info => info.Name) [])
          [sourceOf [[.int .int64 10]]]).Next = some (r1, true) ∧
        r1.closed = false ∧ r1.lastErr = none ∧
        r1.Scan [] = .error (.err .ErrMergerScanNotNext)) ∧
    (∃ c c1, ((NewAggregatorMerger (fun info => info.Name) []
          [{ Index := 0, Name := "user", AggregateFunc := "" }]).Merge FloatArith.sample
            { err := none } [some (sourceOf [[.int .int64 10]])]).2 = .ok c ∧
        c.Scan [] = .error (.err .ErrMergerScanNotNext) ∧
        c.Next FloatArith.sample = some (c1, true) ∧
        c1.closed = false ∧ c1.lastErr = none ∧
        c1.Scan [] = .ok []) :=
  ⟨⟨_, rfl, rfl, rfl, rfl⟩, ⟨_, _, rfl, rfl, rfl, rfl, rfl, rfl⟩⟩

/-- C14, the code at the failing input: the aggregators `AVG` over column 0 and
`COUNT` over column 3 of shard rows with the four column types of `AVG`, its
two synthetic columns and `COUNT`.  `ColumnTypes` of the plain cursor returns
the type of `AVG` alone, and likewise, with a group column in front, that of the
group-by cursor: the type of the column after the synthetic columns of the last
`AVG` is missing, while `Columns` names both aggregate columns. -/
theorem column_types_drop_tail :
    ((cursorOf (NewMerger (fun info => info.Name)
          [avgAggregator 0, (countAt 3).toAggregator FloatArith.sample])
        [sourceWith [] ["avg_grade", "sum_grade", "count_grade", "count_id"]]).ColumnTypes.2
      = .ok ["avg_grade"] ∧
     (cursorOf (NewMerger (fun info => info.Name)
          [avgAggregator 0, (countAt 3).toAggregator FloatArith.sample])
        [sourceWith [] ["avg_grade", "sum_grade", "count_grade", "count_id"]]).Columns
      = .ok ["grade", "id"]) ∧
    ((groupCursorOf (NewAggregatorMerger (fun info => info.Name)
          [avgAggregator 1, (countAt 4).toAggregator FloatArith.sample]
          [{ Index := 0, Name := "user", AggregateFunc := "" }])
        [] ["user", "avg_grade", "sum_grade", "count_grade", "count_id"] [] []).ColumnTypes
      = .ok ["user", "avg_grade"] ∧
     (groupCursorOf (NewAggregatorMerger (fun info => info.Name)
          [avgAggregator 1, (countAt 4).toAggregator FloatArith.sample]
          [{ Index := 0, Name := "user", AggregateFunc := "" }])
        [] ["user", "avg_grade", "sum_grade", "count_grade", "count_id"] [] []).Columns
      = .ok ["user", "grade", "id"]) :=
  ⟨⟨by decide, by decide⟩, ⟨by decide, by decide⟩⟩

/-- C20.  Called with a context that is already cancelled, `Merge` of the
plain merger and `Merge` of the group-by merger return the error of the context
and no cursor, and leave every shard source as it was, the log of the calls
made on it included, whatever the list of sources holds. -/
theorem merge_cancelled_touches_nothing (fa : FloatArith) (m : Merger) (a : AggregatorMerger)
    (ctx : Context) (results : List (Option ShardRows)) (e : GoError)
    (hctx : ctx.err = some e) :
    m.Merge ctx results = (results, .error e) ∧
    a.Merge fa ctx results = (results, .error (.err e)) := by
  constructor
  · simp only [Merger.Merge, hctx]
  · simp only [AggregatorMerger.Merge, hctx]

/-- C20, witness: a cancelled context, a source and a nil entry. -/
theorem merge_cancelled_touches_nothing_witness :
    sampleMerger.Merge { err := some (.contextErr 1) }
        [some (sourceOf [[.int .int64 1]]), none]
      = ([some (sourceOf [[.int .int64 1]]), none], .error (.contextErr 1)) ∧
    sampleGroupMerger.Merge FloatArith.sample { err := some (.contextErr 1) }
        [some (sourceOf [[.int .int64 1]]), none]
      = ([some (sourceOf [[.int .int64 1]]), none], .error (.err (.contextErr 1))) :=
  merge_cancelled_touches_nothing FloatArith.sample sampleMerger sampleGroupMerger
    { err := some (.contextErr 1) } [some (sourceOf [[.int .int64 1]]), none]
    (.contextErr 1) rfl

/-! ### The row of the plain merger -/

theorem firstRows_forall2 (srcs : List ShardRows) (h : ∀ src ∈ srcs, yieldsRow src) :
    List.Forall₂ (fun src row => ∃ rest, src.pending = .ok row :: rest) srcs (firstRows srcs) := by
  induction srcs with
  | nil => exact List.Forall₂.nil
  | cons src rest ih =>
    obtain ⟨_, row, tail, hp⟩ := h src (List.mem_cons_self _ _)
    have hrest := ih (fun s hs => h s (List.mem_cons_of_mem _ hs))
    simp only [firstRows, List.filterMap_cons, hp]
    exact List.Forall₂.cons ⟨tail, hp⟩ hrest

theorem executeAggregateCalculation_forall2 (aggs : List Aggregator) (rowsData : List Row)
    (h : ∀ agg ∈ aggs, ∃ v, agg.Aggregate rowsData = .ok v) :
    ∃ res, executeAggregateCalculation aggs rowsData = .ok res ∧
      List.Forall₂ (fun agg v => agg.Aggregate rowsData = .ok v) aggs res := by
  induction aggs with
  | nil => exact ⟨[], rfl, List.Forall₂.nil⟩
  | cons agg rest ih =>
    obtain ⟨v, hv⟩ := h agg (List.mem_cons_self _ _)
    obtain ⟨res, hres, hall⟩ := ih (fun a ha => h a (List.mem_cons_of_mem _ ha))
    exact ⟨v :: res, by simp [executeAggregateCalculation, hv, hres],
      List.Forall₂.cons hv hall⟩

theorem executeAggregateCalculation_error (rowsData : List Row) (agg : Aggregator)
    (post : List Aggregator) (f : Fault) (hagg : agg.Aggregate rowsData = .error f) :
    ∀ pre : List Aggregator, (∀ g ∈ pre, ∃ v, g.Aggregate rowsData = .ok v) →
      executeAggregateCalculation (pre ++ agg :: post) rowsData = .error f := by
  intro pre
  induction pre with
  | nil =>
    intro _
    simp [executeAggregateCalculation, hagg]
  | cons g rest ih =>
    intro hpre
    obtain ⟨v, hv⟩ := hpre g (List.mem_cons_self _ _)
    have := ih (fun a ha => hpre a (List.mem_cons_of_mem _ ha))
    simp [executeAggregateCalculation, hv, this]

/-- C18.  On a plain-merger cursor fresh from `Merge` whose shard sources each
yield a row, the rows that the first `Next` gathers are the first rows of the
shards in shard order.  If every aggregator succeeds on them, `Next` returns
true and the current row holds one value per configured aggregator in
declaration order, each the result of its aggregator on the gathered rows.  If
an aggregator fails with an error and those before it succeed, `Next` returns
false, records that error and closes the cursor. -/
theorem plain_next_builds_row (r : Rows) (hfresh : r.fresh)
    (hsrc : ∀ src ∈ r.rowsList, yieldsRow src) :
    List.Forall₂ (fun src row => ∃ rest, src.pending = .ok row :: rest)
      r.rowsList (firstRows r.rowsList) ∧
    ((∀ agg ∈ r.aggregators, ∃ v, agg.Aggregate (firstRows r.rowsList) = .ok v) →
      ∃ r1, r.Next = some (r1, true) ∧
        List.Forall₂ (fun agg v => agg.Aggregate (firstRows r.rowsList) = .ok v)
          r.aggregators r1.cur) ∧
    (∀ (pre post : List Aggregator) (agg : Aggregator) (e : GoError),
      r.aggregators = pre ++ agg :: post →
      (∀ g ∈ pre, ∃ v, g.Aggregate (firstRows r.rowsList) = .ok v) →
      agg.Aggregate (firstRows r.rowsList) = .error (.err e) →
      ∃ r1, r.Next = some (r1, false) ∧ r1.Err = some e ∧ r1.closed = true ∧
        ∀ s ∈ r1.rowsList, SourceCall.close ∈ s.calls) := by
  obtain ⟨hc, he, hn⟩ := hfresh
  obtain ⟨srcs, hsrcs⟩ := getSqlRowsData_of_yields r.rowsList hsrc
  refine ⟨firstRows_forall2 _ hsrc, ?_, ?_⟩
  · intro hagg
    obtain ⟨res, hres, hall⟩ := executeAggregateCalculation_forall2 r.aggregators _ hagg
    exact ⟨{ r with rowsList := srcs, nextCalled := true, cur := res },
      by simp [Rows.Next, hc, he, hn, hsrcs, hres], hall⟩
  · intro pre post agg e hsplit hpre hagg
    have hres := executeAggregateCalculation_error _ agg post _ hagg pre hpre
    rw [← hsplit] at hres
    refine ⟨(Rows.Close { r with
        rowsList := srcs, nextCalled := true, lastErr := some e }).1, ?_, rfl, rfl, ?_⟩
    · simp [Rows.Next, hc, he, hn, hsrcs, hres]
    · exact closeAll_called srcs

/-- C18, witness: three shards report the counts 10, 20 and 30 to a merger of
one `COUNT`, which succeeds. -/
theorem plain_next_builds_row_witness :
    ∃ r1, sampleCursor.Next = some (r1, true) ∧
      List.Forall₂ (fun agg v => agg.Aggregate (firstRows sampleCursor.rowsList) = .ok v)
        sampleCursor.aggregators r1.cur :=
  (plain_next_builds_row sampleCursor (cursorOf_fresh _ _)
    (by
      intro src hsrc
      simp only [sampleCursor, cursorOf, List.mem_cons, List.mem_singleton, List.not_mem_nil,
        or_false] at hsrc
      rcases hsrc with rfl | rfl | rfl
      · exact ⟨rfl, _, _, rfl⟩
      · exact ⟨rfl, _, _, rfl⟩
      · exact ⟨rfl, _, _, rfl⟩)).2.1
    (by
      intro agg hagg
      simp only [sampleCursor, cursorOf, sampleMerger, NewMerger, List.mem_singleton] at hagg
      subst hagg
      exact ⟨.int .int64 60, by decide⟩)

/-! ### The comparator of group keys -/

theorem valueLt_ne {x y : Value} (h : valueLt x y) : x ≠ y := by
  intro hxy
  subst hxy
  cases x <;> simp only [valueLt] at h
  · exact lt_irrefl _ h
  · exact lt_irrefl _ h
  · obtain ⟨h1, h2⟩ := h
    rw [h1] at h2
    cases h2

/-- The comparison of two values of one supported kind by the function that the
table holds for the kind of the first. -/
theorem compare_sameKind (fa : FloatArith) {x y : Value} (h : sameKind x y) :
    ∃ compareFunc c, compareFuncMapping fa x.kind = some compareFunc ∧
      compareFunc x y = .ok c ∧
      ((c = 0 ∧ x = y) ∨ (c = -1 ∧ valueLt x y) ∨ (c = 1 ∧ valueLt y x)) := by
  cases x with
  | int k i =>
    cases y with
    | int k2 j =>
      simp only [sameKind] at h
      subst h
      refine ⟨compare fa (.int k), (if i < j then -1 else if i > j then 1 else 0), rfl,
        by simp [compare], ?_⟩
      by_cases h1 : i < j
      · simp [h1, valueLt]
      · by_cases h2 : j < i
        · simp [h1, h2, valueLt]
        · have : i = j := by omega
          simp [this]
    | _ => simp [sameKind] at h
  | str s =>
    cases y with
    | str t =>
      refine ⟨compare fa .string, (if s < t then -1 else if s > t then 1 else 0), rfl,
        rfl, ?_⟩
      by_cases h1 : s < t
      · simp [h1, valueLt]
      · by_cases h2 : t < s
        · simp [h1, h2, valueLt]
        · have : s = t := le_antisymm (not_lt.mp h2) (not_lt.mp h1)
          simp [this]
    | _ => simp [sameKind] at h
  | bool a =>
    cases y with
    | bool b =>
      refine ⟨compareBool, (if a = b then 0 else if a = true ∧ b = false then 1 else -1),
        rfl, rfl, ?_⟩
      cases a <;> cases b <;> simp [valueLt]
    | _ => simp [sameKind] at h
  | _ => cases y <;> simp [sameKind] at h

/-- The loop of `compareKey` on two lists of pairwise comparable values. -/
theorem compareKeyLoop_lex (fa : FloatArith) {xs ys : List Value}
    (h : List.Forall₂ sameKind xs ys) :
    ∃ c, compareKeyLoop fa xs ys = .ok c ∧
      ((c = 0 ∧ xs = ys) ∨
        ∃ pre x y sx sy, xs = pre ++ x :: sx ∧ ys = pre ++ y :: sy ∧
          ((c = -1 ∧ valueLt x y) ∨ (c = 1 ∧ valueLt y x))) := by
  induction h with
  | nil => exact ⟨0, rfl, Or.inl ⟨rfl, rfl⟩⟩
  | @cons x y xs ys hxy _ ih =>
    obtain ⟨f, c, hf, hc, hcase⟩ := compare_sameKind fa hxy
    obtain ⟨c2, hc2, hcase2⟩ := ih
    rcases hcase with ⟨h0, hxy2⟩ | ⟨h1, hlt⟩ | ⟨h1, hlt⟩
    · subst h0
      subst hxy2
      refine ⟨c2, by simp [compareKeyLoop, hf, hc, hc2], ?_⟩
      rcases hcase2 with ⟨h0, heq⟩ | ⟨pre, a, b, sa, sb, ha, hb, hab⟩
      · exact Or.inl ⟨h0, by rw [heq]⟩
      · exact Or.inr ⟨x :: pre, a, b, sa, sb, by simp [ha], by simp [hb], hab⟩
    · subst h1
      exact ⟨-1, by simp [compareKeyLoop, hf, hc],
        Or.inr ⟨[], x, y, xs, ys, rfl, rfl, Or.inl ⟨rfl, hlt⟩⟩⟩
    · subst h1
      exact ⟨1, by simp [compareKeyLoop, hf, hc],
        Or.inr ⟨[], x, y, xs, ys, rfl, rfl, Or.inr ⟨rfl, hlt⟩⟩⟩

theorem compareKeyLoop_zero_iff (fa : FloatArith) {xs ys : List Value}
    (h : List.Forall₂ sameKind xs ys) :
    ∃ c, compareKeyLoop fa xs ys = .ok c ∧ (c = 0 ↔ xs = ys) := by
  obtain ⟨c, hc, hcase⟩ := compareKeyLoop_lex fa h
  refine ⟨c, hc, ?_⟩
  rcases hcase with ⟨h0, heq⟩ | ⟨pre, x, y, sx, sy, hx, hy, hxy⟩
  · exact ⟨fun _ => heq, fun _ => h0⟩
  · have hne : x ≠ y := by
      rcases hxy with ⟨_, hlt⟩ | ⟨_, hlt⟩
      · exact valueLt_ne hlt
      · exact (valueLt_ne hlt).symm
    have hc0 : c ≠ 0 := by
      rcases hxy with ⟨h1, _⟩ | ⟨h1, _⟩ <;> omega
    constructor
    · intro h0
      exact absurd h0 hc0
    · intro heq
      rw [hx, hy] at heq
      have := List.append_cancel_left heq
      injection this with h1 _
      exact absurd h1 hne

/-- C17.  On two group keys of the same length whose components at each position
are of one supported kind (integers of one type, strings, booleans),
`compareKey` returns a result, and it is the lexicographic comparison over the
group columns: 0 when the keys agree in every component, and otherwise -1 or 1
as the component of the first key at the first position where the keys differ
is smaller or larger (false before true for booleans); the result is 0 if and
only if every component is equal. -/
theorem compareKey_lexicographic (fa : FloatArith) (a b : Key)
    (h : List.Forall₂ sameKind a.columnValues b.columnValues) :
    ∃ c, compareKey fa a b = .ok c ∧
      ((c = 0 ∧ a.columnValues = b.columnValues) ∨
        ∃ pre x y sa sb, a.columnValues = pre ++ x :: sa ∧ b.columnValues = pre ++ y :: sb ∧
          ((c = -1 ∧ valueLt x y) ∨ (c = 1 ∧ valueLt y x))) ∧
      (c = 0 ↔ a.columnValues = b.columnValues) := by
  obtain ⟨c, hc, hcase⟩ := compareKeyLoop_lex fa h
  obtain ⟨c2, hc2, hiff⟩ := compareKeyLoop_zero_iff fa h
  rw [hc] at hc2
  cases hc2
  exact ⟨c, hc, hcase, hiff⟩

/-- C17, witness: the keys (1, "b", false) and (1, "b", true). -/
theorem compareKey_lexicographic_witness :
    ∃ c, compareKey FloatArith.sample
        { columnValues := [.int .int64 1, .str "b", .bool false] }
        { columnValues := [.int .int64 1, .str "b", .bool true] } = .ok c ∧
      ((c = 0 ∧ [Value.int .int64 1, .str "b", .bool false]
          = [Value.int .int64 1, .str "b", .bool true]) ∨
        ∃ pre x y sa sb, [Value.int .int64 1, .str "b", .bool false] = pre ++ x :: sa ∧
          [Value.int .int64 1, .str "b", .bool true] = pre ++ y :: sb ∧
          ((c = -1 ∧ valueLt x y) ∨ (c = 1 ∧ valueLt y x))) ∧
      (c = 0 ↔ [Value.int .int64 1, .str "b", .bool false]
        = [Value.int .int64 1, .str "b", .bool true]) :=
  compareKey_lexicographic FloatArith.sample
    { columnValues := [.int .int64 1, .str "b", .bool false] }
    { columnValues := [.int .int64 1, .str "b", .bool true] }
    (List.Forall₂.cons rfl (List.Forall₂.cons trivial (List.Forall₂.cons trivial
      List.Forall₂.nil)))

/-! ### The index of the group-by merger -/

theorem firstSeenInto_congr (eq1 eq2 : Key → Key → Bool) :
    ∀ (ks seen : List Key),
      (∀ a ∈ seen ++ ks, ∀ b ∈ seen ++ ks, eq1 a b = eq2 a b) →
      firstSeenInto eq1 seen ks = firstSeenInto eq2 seen ks := by
  intro ks
  induction ks with
  | nil =>
    intro seen _
    rfl
  | cons k ks ih =>
    intro seen h
    have hany : seen.any (fun s => eq1 k s) = seen.any (fun s => eq2 k s) := by
      have hall : ∀ s ∈ seen, eq1 k s = eq2 k s := fun s hs =>
        h k (by simp) s (by simp [hs])
      clear h ih
      induction seen with
      | nil => rfl
      | cons s rest ih2 =>
        simp only [List.any_cons]
        rw [hall s (List.mem_cons_self _ _),
          ih2 (fun t ht => hall t (List.mem_cons_of_mem _ ht))]
    simp only [firstSeenInto, hany]
    split
    · exact ih seen (fun a ha b hb => h a (by
        rcases List.mem_append.mp ha with ha | ha
        · simp [ha]
        · simp [ha]) b (by
        rcases List.mem_append.mp hb with hb | hb
        · simp [hb]
        · simp [hb]))
    · exact ih (seen ++ [k]) (fun a ha b hb => h a (by
        simp only [List.append_assoc, List.singleton_append] at ha
        exact ha) b (by
        simp only [List.append_assoc, List.singleton_append] at hb
        exact hb))

theorem firstSeenInto_decide_snoc :
    ∀ (ks seen : List Key) (k : Key),
      firstSeenInto (fun a b => decide (a = b)) seen (ks ++ [k])
        = if k ∈ firstSeenInto (fun a b => decide (a = b)) seen ks then
            firstSeenInto (fun a b => decide (a = b)) seen ks
          else firstSeenInto (fun a b => decide (a = b)) seen ks ++ [k] := by
  intro ks
  induction ks with
  | nil =>
    intro seen k
    simp only [List.nil_append, firstSeenInto, List.any_eq_true, decide_eq_true_eq]
    by_cases hk : k ∈ seen
    · have : ∃ x, x ∈ seen ∧ k = x := ⟨k, hk, rfl⟩
      simp [hk, this]
    · have : ¬ ∃ x, x ∈ seen ∧ k = x := by
        rintro ⟨x, hx, rfl⟩
        exact hk hx
      simp [hk, this]
  | cons k0 ks ih =>
    intro seen k
    simp only [List.cons_append, firstSeenInto]
    split
    · exact ih seen k
    · exact ih (seen ++ [k0]) k

theorem mem_firstSeenInto_decide :
    ∀ (ks seen : List Key) (k : Key),
      k ∈ firstSeenInto (fun a b => decide (a = b)) seen ks ↔ k ∈ seen ∨ k ∈ ks := by
  intro ks
  induction ks with
  | nil =>
    intro seen k
    simp [firstSeenInto]
  | cons k0 ks ih =>
    intro seen k
    simp only [firstSeenInto, List.any_eq_true, decide_eq_true_eq]
    split
    · rename_i h
      obtain ⟨x, hx, rfl⟩ := h
      rw [ih]
      constructor
      · rintro (h | h)
        · exact Or.inl h
        · exact Or.inr (List.mem_cons_of_mem _ h)
      · rintro (h | h)
        · exact Or.inl h
        · rcases List.mem_cons.mp h with rfl | h
          · exact Or.inl hx
          · exact Or.inr h
    · rw [ih]
      simp only [List.mem_append, List.mem_singleton, List.mem_cons]
      tauto

theorem nodup_firstSeenInto_decide :
    ∀ (ks seen : List Key), seen.Nodup →
      (firstSeenInto (fun a b => decide (a = b)) seen ks).Nodup := by
  intro ks
  induction ks with
  | nil =>
    intro seen h
    exact h
  | cons k0 ks ih =>
    intro seen h
    simp only [firstSeenInto, List.any_eq_true, decide_eq_true_eq]
    split
    · exact ih seen h
    · rename_i hnot
      apply ih
      rw [List.nodup_append]
      refine ⟨h, List.nodup_singleton _, ?_⟩
      intro a ha hb
      simp only [List.mem_singleton] at hb
      subst hb
      exact hnot ⟨a, ha, rfl⟩

theorem mem_dedupKeys (ks : List Key) (k : Key) : k ∈ dedupKeys ks ↔ k ∈ ks := by
  simp [dedupKeys, mem_firstSeenInto_decide]

theorem nodup_dedupKeys (ks : List Key) : (dedupKeys ks).Nodup :=
  nodup_firstSeenInto_decide ks [] List.nodup_nil

theorem dedupKeys_snoc (ks : List Key) (k : Key) :
    dedupKeys (ks ++ [k]) = if k ∈ dedupKeys ks then dedupKeys ks else dedupKeys ks ++ [k] :=
  firstSeenInto_decide_snoc ks [] k

theorem key_eq_iff (a b : Key) : a = b ↔ a.columnValues = b.columnValues := by
  cases a
  cases b
  simp

theorem compareKey_eq_iff (fa : FloatArith) {a b : Key}
    (h : List.Forall₂ sameKind a.columnValues b.columnValues) :
    ∃ c, compareKey fa a b = .ok c ∧ (c = 0 ↔ a = b) := by
  obtain ⟨c, hc, hiff⟩ := compareKeyLoop_zero_iff fa h
  exact ⟨c, hc, by rw [key_eq_iff]; exact hiff⟩

theorem keysEqual_eq_decide (fa : FloatArith) {a b : Key}
    (h : List.Forall₂ sameKind a.columnValues b.columnValues) :
    keysEqual fa a b = decide (a = b) := by
  obtain ⟨c, hc, hiff⟩ := compareKey_eq_iff fa h
  unfold keysEqual
  rw [hc]
  by_cases hab : a = b
  · have := hiff.mpr hab
    subst this
    simp [hab]
  · have hc0 : c ≠ 0 := fun h0 => hab (hiff.mp h0)
    simp [hab, hc0]

/-- Looking a key up in an index that is given by its keys and a bucket for
each, when the key can be compared with every key of the index. -/
theorem get_map (fa : FloatArith) (B : Key → List Row) (q : Key) :
    ∀ keys : List Key,
      (∀ k ∈ keys, ∃ c, compareKey fa q k = .ok c ∧ (c = 0 ↔ q = k)) →
      TreeMap.Get fa (keys.map (fun k => (k, B k))) q
        = .ok (if q ∈ keys then some (B q) else none) := by
  intro keys
  induction keys with
  | nil =>
    intro _
    simp [TreeMap.Get]
  | cons k rest ih =>
    intro hq
    obtain ⟨c, hc, hiff⟩ := hq k (List.mem_cons_self _ _)
    have hrest := ih (fun k2 hk2 => hq k2 (List.mem_cons_of_mem _ hk2))
    simp only [List.map_cons, TreeMap.Get, hc]
    by_cases h0 : c = 0
    · have hqk := hiff.mp h0
      subst hqk
      simp [h0]
    · have hqk : q ≠ k := fun h => h0 (hiff.mpr h)
      simp only [h0, if_false, hrest, List.mem_cons, hqk, false_or]

theorem put_map_not_mem (fa : FloatArith) (B : Key → List Row) (q : Key) (val : List Row) :
    ∀ keys : List Key,
      (∀ k ∈ keys, ∃ c, compareKey fa q k = .ok c ∧ (c = 0 ↔ q = k)) → q ∉ keys →
      TreeMap.Put fa (keys.map (fun k => (k, B k))) q val
        = .ok (keys.map (fun k => (k, B k)) ++ [(q, val)]) := by
  intro keys
  induction keys with
  | nil =>
    intro _ _
    simp [TreeMap.Put]
  | cons k rest ih =>
    intro hq hmem
    obtain ⟨c, hc, hiff⟩ := hq k (List.mem_cons_self _ _)
    have hqk : q ≠ k := fun h => hmem (by simp [h])
    have h0 : c ≠ 0 := fun h => hqk (hiff.mp h)
    have hrest := ih (fun k2 hk2 => hq k2 (List.mem_cons_of_mem _ hk2))
      (fun h => hmem (List.mem_cons_of_mem _ h))
    simp only [List.map_cons, TreeMap.Put, hc, h0, if_false, hrest, List.cons_append]

theorem put_map_mem (fa : FloatArith) (B : Key → List Row) (q : Key) (val : List Row) :
    ∀ keys : List Key,
      (∀ k ∈ keys, ∃ c, compareKey fa q k = .ok c ∧ (c = 0 ↔ q = k)) → q ∈ keys →
      keys.Nodup →
      TreeMap.Put fa (keys.map (fun k => (k, B k))) q val
        = .ok (keys.map (fun k => (k, if k = q then val else B k))) := by
  intro keys
  induction keys with
  | nil =>
    intro _ hmem _
    cases hmem
  | cons k rest ih =>
    intro hq hmem hnd
    obtain ⟨c, hc, hiff⟩ := hq k (List.mem_cons_self _ _)
    obtain ⟨hk, hnd2⟩ := List.nodup_cons.mp hnd
    by_cases h0 : c = 0
    · have hqk := hiff.mp h0
      subst hqk
      simp only [List.map_cons, TreeMap.Put, hc, h0, if_true]
      congr 2
      apply List.map_congr_left
      intro k2 hk2
      have : k2 ≠ q := fun h => hk (h ▸ hk2)
      simp [this]
    · have hqk : q ≠ k := fun h => h0 (hiff.mpr h)
      have hmem2 : q ∈ rest := by
        rcases List.mem_cons.mp hmem with h | h
        · exact absurd h hqk
        · exact h
      have hrest := ih (fun k2 hk2 => hq k2 (List.mem_cons_of_mem _ hk2)) hmem2 hnd2
      have hkq : k ≠ q := fun h => hqk h.symm
      simp only [List.map_cons, TreeMap.Put, hc, h0, if_false, hrest, hkq]

theorem comparableRows_subset {gc : List ColumnInfo} {big small : List Row}
    (h : comparableRows gc big) (hsub : ∀ r ∈ small, r ∈ big) : comparableRows gc small :=
  fun r1 h1 r2 h2 => h r1 (hsub r1 h1) r2 (hsub r2 h2)

theorem rowKey_of_comparable {gc : List ColumnInfo} {rows : List Row} {row : Row}
    (h : comparableRows gc rows) (hrow : row ∈ rows) : ∃ k, rowKey gc row = some k := by
  obtain ⟨k1, _, h1, _, _⟩ := h row hrow row hrow
  exact ⟨k1, h1⟩

theorem sameKind_of_comparable {gc : List ColumnInfo} {rows : List Row} {k1 k2 : Key}
    (h : comparableRows gc rows) (h1 : k1 ∈ keysOf gc rows) (h2 : k2 ∈ keysOf gc rows) :
    List.Forall₂ sameKind k1.columnValues k2.columnValues := by
  obtain ⟨r1, hr1, hk1⟩ := List.mem_filterMap.mp h1
  obtain ⟨r2, hr2, hk2⟩ := List.mem_filterMap.mp h2
  obtain ⟨q1, q2, hq1, hq2, hsame⟩ := h r1 hr1 r2 hr2
  rw [hk1] at hq1
  rw [hk2] at hq2
  cases hq1
  cases hq2
  exact hsame

theorem groupKey_of_rowKey {gc : List ColumnInfo} {row : Row} {q : Key}
    (h : rowKey gc row = some q) : groupKey gc row = some q.columnValues := by
  unfold rowKey at h
  cases hg : groupKey gc row with
  | none => simp [hg] at h
  | some vs =>
    simp only [hg, Option.map_some', Option.some.injEq] at h
    subst h
    rfl

theorem keysOf_append (gc : List ColumnInfo) (a b : List Row) :
    keysOf gc (a ++ b) = keysOf gc a ++ keysOf gc b := by
  simp [keysOf, List.filterMap_append]

theorem keysOf_snoc {gc : List ColumnInfo} (done : List Row) {row : Row} {q : Key}
    (h : rowKey gc row = some q) : keysOf gc (done ++ [row]) = keysOf gc done ++ [q] := by
  rw [keysOf_append]
  simp [keysOf, h]

theorem sameKeyRows_snoc (gc : List ColumnInfo) (done : List Row) (row : Row) (q k : Key)
    (h : rowKey gc row = some q) :
    sameKeyRows gc (done ++ [row]) k
      = if k = q then sameKeyRows gc done k ++ [row] else sameKeyRows gc done k := by
  unfold sameKeyRows
  rw [List.filter_append]
  by_cases hkq : k = q
  · subst hkq
    simp [List.filter_cons, h]
  · have : ¬ q = k := fun h2 => hkq h2.symm
    simp [List.filter_cons, h, hkq, this]

theorem sameKeyRows_eq_nil {gc : List ColumnInfo} {done : List Row} {q : Key}
    (h : q ∉ keysOf gc done) : sameKeyRows gc done q = [] := by
  unfold sameKeyRows
  rw [List.filter_eq_nil_iff]
  intro r hr hrq
  simp only [decide_eq_true_eq] at hrq
  exact h (List.mem_filterMap.mpr ⟨r, hr, hrq⟩)

/-- One row more: the body of the inner loop of `getCols` takes the index and
key list of the rows so far to those of the rows with the new row. -/
theorem addRow_eq (fa : FloatArith) (gc : List ColumnInfo) (done : List Row) (row : Row)
    (h : comparableRows gc (done ++ [row])) :
    addRow fa gc (bucketIndex gc done) (dedupKeys (keysOf gc done)) row
      = .ok (bucketIndex gc (done ++ [row]), dedupKeys (keysOf gc (done ++ [row]))) := by
  obtain ⟨q, hq⟩ := rowKey_of_comparable h (show row ∈ done ++ [row] by simp)
  have hsnoc : keysOf gc (done ++ [row]) = keysOf gc done ++ [q] := keysOf_snoc done hq
  have hqmem : q ∈ keysOf gc (done ++ [row]) := by
    rw [hsnoc]
    simp
  have hcmp : ∀ k ∈ dedupKeys (keysOf gc done),
      ∃ c, compareKey fa q k = .ok c ∧ (c = 0 ↔ q = k) := by
    intro k hk
    have hk2 : k ∈ keysOf gc (done ++ [row]) := by
      rw [hsnoc]
      exact List.mem_append_left _ ((mem_dedupKeys _ _).mp hk)
    exact compareKey_eq_iff fa (sameKind_of_comparable h hqmem hk2)
  have hget := get_map fa (sameKeyRows gc done) q _ hcmp
  have hkey : ({ columnValues := q.columnValues } : Key) = q := rfl
  simp only [addRow, groupKey_of_rowKey hq, hkey]
  unfold bucketIndex
  rw [hget, hsnoc, dedupKeys_snoc]
  by_cases hmem : q ∈ dedupKeys (keysOf gc done)
  · simp only [hmem, if_true]
    rw [put_map_mem fa _ q _ _ hcmp hmem (nodup_dedupKeys _)]
    simp only [Except.ok.injEq, Prod.mk.injEq, and_true]
    apply List.map_congr_left
    intro k _
    rw [sameKeyRows_snoc gc done row q k hq]
    by_cases hkq : k = q
    · subst hkq
      simp
    · simp [hkq]
  · simp only [hmem, if_false]
    rw [put_map_not_mem fa _ q _ _ hcmp hmem]
    simp only [Except.ok.injEq, Prod.mk.injEq, and_true, List.map_append, List.map_cons,
      List.map_nil]
    have hnot : q ∉ keysOf gc done := fun hq2 => hmem ((mem_dedupKeys _ _).mpr hq2)
    congr 1
    · apply List.map_congr_left
      intro k hk
      rw [sameKeyRows_snoc gc done row q k hq]
      have hkq : k ≠ q := fun h2 => hmem (h2 ▸ hk)
      simp [hkq]
    · rw [sameKeyRows_snoc gc done row q q hq]
      simp [sameKeyRows_eq_nil hnot]

/-- The inner loop of `getCols` over further rows. -/
theorem addRows_eq (fa : FloatArith) (gc : List ColumnInfo) :
    ∀ (new done : List Row), comparableRows gc (done ++ new) →
      addRows fa gc (bucketIndex gc done) (dedupKeys (keysOf gc done)) new
        = .ok (bucketIndex gc (done ++ new), dedupKeys (keysOf gc (done ++ new))) := by
  intro new
  induction new with
  | nil =>
    intro done _
    simp [addRows]
  | cons row rest ih =>
    intro done h
    have h1 : comparableRows gc (done ++ [row]) :=
      comparableRows_subset h (fun r hr => by
        rcases List.mem_append.mp hr with hr | hr
        · exact List.mem_append_left _ hr
        · exact List.mem_append_right _ (by
            simp only [List.mem_singleton] at hr
            simp [hr]))
    have h2 : comparableRows gc ((done ++ [row]) ++ rest) := by
      simpa using h
    simp only [addRows, addRow_eq fa gc done row h1]
    rw [ih (done ++ [row]) h2]
    simp

theorem collectRows_ok :
    ∀ pending : List (Except GoError Row), (∀ res ∈ pending, ∃ row, res = .ok row) →
      collectRows pending = ([], .ok (pending.filterMap (fun res =>
        match res with
        | .ok row => some row
        | .error _ => none))) := by
  intro pending
  induction pending with
  | nil =>
    intro _
    rfl
  | cons res rest ih =>
    intro h
    obtain ⟨row, rfl⟩ := h res (List.mem_cons_self _ _)
    have hrest := ih (fun r hr => h r (List.mem_cons_of_mem _ hr))
    simp only [collectRows, hrest, List.filterMap_cons]

theorem scanAllRows_ok (src : ShardRows) (h : scansAll src) :
    scanAllRows src = (src.scanned, .ok (rowsOf src)) := by
  obtain ⟨h1, h2⟩ := h
  simp only [scanAllRows, h1, collectRows_ok src.pending h2, ShardRows.scanned, rowsOf]

/-- The outer loop of `getCols` over sources that can be scanned to their end. -/
theorem getColsLoop_eq (fa : FloatArith) (gc : List ColumnInfo) :
    ∀ (srcs : List ShardRows) (done : List Row), (∀ s ∈ srcs, scansAll s) →
      comparableRows gc (done ++ scannedRows srcs) →
      getColsLoop fa gc (bucketIndex gc done) (dedupKeys (keysOf gc done)) srcs
        = (srcs.map ShardRows.scanned,
            .ok (bucketIndex gc (done ++ scannedRows srcs),
              dedupKeys (keysOf gc (done ++ scannedRows srcs)))) := by
  intro srcs
  induction srcs with
  | nil =>
    intro done _ _
    simp [getColsLoop, scannedRows]
  | cons src rest ih =>
    intro done hscan hcmp
    have h1 : comparableRows gc (done ++ rowsOf src) :=
      comparableRows_subset hcmp (fun r hr => by
        rcases List.mem_append.mp hr with hr | hr
        · exact List.mem_append_left _ hr
        · exact List.mem_append_right _ (by simp [scannedRows, hr]))
    have h2 : comparableRows gc ((done ++ rowsOf src) ++ scannedRows rest) := by
      simpa [scannedRows] using hcmp
    have hrest := ih (done ++ rowsOf src)
      (fun s hs => hscan s (List.mem_cons_of_mem _ hs)) h2
    simp only [getColsLoop, scanAllRows_ok src (hscan src (List.mem_cons_self _ _)),
      addRows_eq fa gc (rowsOf src) done h1, hrest, List.map_cons, scannedRows,
      List.append_assoc]

theorem getCols_eq (fa : FloatArith) (a : AggregatorMerger) (srcs : List ShardRows)
    (hscan : ∀ s ∈ srcs, scansAll s)
    (hcmp : comparableRows a.groupColumns (scannedRows srcs)) :
    a.getCols fa srcs
      = (srcs.map ShardRows.scanned,
          .ok (bucketIndex a.groupColumns (scannedRows srcs),
            dedupKeys (keysOf a.groupColumns (scannedRows srcs)))) := by
  have h := getColsLoop_eq fa a.groupColumns srcs [] hscan (by simpa using hcmp)
  simpa [AggregatorMerger.getCols, bucketIndex, dedupKeys, keysOf, firstSeenInto] using h

theorem firstSeen_eq_dedupKeys (fa : FloatArith) {gc : List ColumnInfo} {rows : List Row}
    (hcmp : comparableRows gc rows) :
    firstSeen (keysEqual fa) (keysOf gc rows) = dedupKeys (keysOf gc rows) := by
  unfold firstSeen dedupKeys
  apply firstSeenInto_congr
  intro k1 h1 k2 h2
  simp only [List.nil_append] at h1 h2
  exact keysEqual_eq_decide fa (sameKind_of_comparable hcmp h1 h2)

theorem mem_keysOf_of_rowKey {gc : List ColumnInfo} {rows : List Row} {row : Row} {q : Key}
    (hrow : row ∈ rows) (hq : rowKey gc row = some q) : q ∈ keysOf gc rows :=
  List.mem_filterMap.mpr ⟨row, hrow, hq⟩

theorem scansAll_sourceOf (rows : List Row) : scansAll (sourceOf rows) := by
  refine ⟨rfl, ?_⟩
  intro res hres
  simp only [sourceOf, List.mem_map] at hres
  obtain ⟨row, _, rfl⟩ := hres
  exact ⟨row, rfl⟩

theorem scansAll_samples : ∀ s ∈ [shardA, shardB], scansAll s := by
  intro s hs
  simp only [List.mem_cons, List.mem_singleton, List.not_mem_nil, or_false] at hs
  rcases hs with rfl | rfl
  · exact scansAll_sourceOf _
  · exact scansAll_sourceOf _

theorem comparableRows_samples :
    comparableRows sampleGroupMerger.groupColumns (scannedRows [shardA, shardB]) := by
  have hrows : scannedRows [shardA, shardB]
      = [[.int .int64 7, .int .int64 1], [.int .int64 3, .int .int64 2],
          [.int .int64 3, .int .int64 3], [.int .int64 7, .int .int64 4]] := rfl
  rw [hrows]
  intro r1 h1 r2 h2
  simp only [List.mem_cons, List.mem_singleton, List.not_mem_nil, or_false] at h1 h2
  rcases h1 with rfl | rfl | rfl | rfl <;> rcases h2 with rfl | rfl | rfl | rfl <;>
    exact ⟨_, _, rfl, rfl, List.Forall₂.cons rfl List.Forall₂.nil⟩

theorem sameKeyRows_eq_rowsUnder (fa : FloatArith) {gc : List ColumnInfo} {rows : List Row}
    {k : Key} (hcmp : comparableRows gc rows) (hk : k ∈ keysOf gc rows) :
    sameKeyRows gc rows k = rowsUnder fa gc rows k := by
  unfold sameKeyRows rowsUnder
  apply List.filter_congr
  intro row hrow
  obtain ⟨q, hq⟩ := rowKey_of_comparable hcmp hrow
  have hke := keysEqual_eq_decide fa (sameKind_of_comparable hcmp
    (mem_keysOf_of_rowKey hrow hq) hk)
  simp only [hq, hke, Option.some.injEq]

theorem mem_sameKeyRows {gc : List ColumnInfo} {rows : List Row} {row : Row} {k : Key} :
    row ∈ sameKeyRows gc rows k ↔ row ∈ rows ∧ rowKey gc row = some k := by
  simp [sameKeyRows, List.mem_filter]

theorem sum_indicator (q : Key) :
    ∀ keys : List Key, keys.Nodup → q ∈ keys →
      (keys.map (fun k => if q = k then 1 else 0)).sum = 1 := by
  intro keys
  induction keys with
  | nil =>
    intro _ h
    cases h
  | cons k rest ih =>
    intro hnd hmem
    obtain ⟨hk, hnd2⟩ := List.nodup_cons.mp hnd
    by_cases hqk : q = k
    · subst hqk
      have hzero : (rest.map (fun k => if q = k then 1 else 0)).sum = 0 := by
        apply List.sum_eq_zero
        intro x hx
        obtain ⟨k2, hk2, rfl⟩ := List.mem_map.mp hx
        have : q ≠ k2 := fun h => hk (h ▸ hk2)
        simp [this]
      simp [hzero]
    · have hmem2 : q ∈ rest := by
        rcases List.mem_cons.mp hmem with h | h
        · exact absurd h hqk
        · exact h
      simp [hqk, ih hnd2 hmem2]

theorem sum_sameKeyRows_length (gc : List ColumnInfo) (keys : List Key) (hnd : keys.Nodup) :
    ∀ rows : List Row, (∀ row ∈ rows, ∃ q, rowKey gc row = some q ∧ q ∈ keys) →
      (keys.map (fun k => (sameKeyRows gc rows k).length)).sum = rows.length := by
  intro rows
  induction rows with
  | nil =>
    intro _
    simp [sameKeyRows]
  | cons row rest ih =>
    intro h
    obtain ⟨q, hq, hqmem⟩ := h row (List.mem_cons_self _ _)
    have hrest := ih (fun r hr => h r (List.mem_cons_of_mem _ hr))
    have hsplit : ∀ k, (sameKeyRows gc (row :: rest) k).length
        = (if q = k then 1 else 0) + (sameKeyRows gc rest k).length := by
      intro k
      unfold sameKeyRows
      rw [List.filter_cons]
      by_cases hqk : q = k
      · subst hqk
        simp [hq, Nat.add_comm]
      · simp [hq, hqk]
    simp only [hsplit, List.sum_map_add, hrest, sum_indicator q keys hnd hqmem,
      List.length_cons]
    omega

/-! ### The cursor of the group-by merger -/

theorem nextLoop_ok (fa : FloatArith) (dataMap : TreeMap) (key : Key) (bucket : List Row)
    (hget : TreeMap.Get fa dataMap key = .ok (some bucket)) :
    ∀ (aggs : List Aggregator) (curData : List Value),
      (∀ agg ∈ aggs, ∃ v, agg.Aggregate bucket = .ok v) →
      ∃ vals, nextLoop fa dataMap key aggs curData = (curData ++ vals, none) ∧
        List.Forall₂ (fun agg v => agg.Aggregate bucket = .ok v) aggs vals := by
  intro aggs
  induction aggs with
  | nil =>
    intro curData _
    exact ⟨[], by simp [nextLoop], List.Forall₂.nil⟩
  | cons agg rest ih =>
    intro curData h
    obtain ⟨v, hv⟩ := h agg (List.mem_cons_self _ _)
    obtain ⟨vals, hvals, hall⟩ := ih (curData ++ [v])
      (fun a ha => h a (List.mem_cons_of_mem _ ha))
    refine ⟨v :: vals, ?_, List.Forall₂.cons hv hall⟩
    simp only [nextLoop, hget, Option.getD_some, hv, hvals, List.append_assoc,
      List.singleton_append]

theorem keyAt_eq (dataIndex : List Key) (i : Nat) : keyAt dataIndex (i : Int) = dataIndex[i]? := by
  unfold keyAt
  rw [if_neg (by omega)]
  simp

/-- One `Next` on an open group-by cursor that stands before the key at
position `i`, whose bucket every aggregator accepts. -/
theorem group_next_step (fa : FloatArith) (c : AggregatorRows) (hc : c.closed = false)
    (i : Nat) (hcur : c.cur + 1 = (i : Int)) (key : Key) (hkey : c.dataIndex[i]? = some key)
    (bucket : List Row) (hget : TreeMap.Get fa c.dataMap key = .ok (some bucket))
    (hagg : ∀ agg ∈ c.aggregators, ∃ v, agg.Aggregate bucket = .ok v) :
    ∃ vals, c.Next fa
        = some ({ c with cur := (i : Int), curData := key.columnValues ++ vals }, true) ∧
      List.Forall₂ (fun agg v => agg.Aggregate bucket = .ok v) c.aggregators vals := by
  obtain ⟨vals, hvals, hall⟩ := nextLoop_ok fa c.dataMap key bucket hget c.aggregators
    key.columnValues hagg
  have hi : i < c.dataIndex.length := by
    rcases Nat.lt_or_ge i c.dataIndex.length with h | h
    · exact h
    · rw [List.getElem?_eq_none h] at hkey
      cases hkey
  refine ⟨vals, ?_, hall⟩
  unfold AggregatorRows.Next
  rw [if_neg (by simp [hc]), hcur, if_neg (by omega), keyAt_eq, hkey]
  simp only [hvals]

/-- One `Next` on an open group-by cursor that stands on or after the last
key. -/
theorem group_next_exhausted (fa : FloatArith) (c : AggregatorRows) (hc : c.closed = false)
    (hcur : c.cur + 1 ≥ (c.dataIndex.length : Int)) :
    ∃ c2, c.Next fa = some (c2, false) ∧ c2.closed = true ∧ c2.lastErr = c.lastErr := by
  refine ⟨(AggregatorRows.Close { c with cur := c.cur + 1 }).1, ?_, rfl, rfl⟩
  unfold AggregatorRows.Next
  rw [if_neg (by simp [hc]), if_pos hcur]

theorem group_nextN_closed (fa : FloatArith) (c : AggregatorRows) (hc : c.closed = true) :
    ∀ m : Nat, c.nextN fa m = some (c, List.replicate m false) := by
  intro m
  induction m with
  | zero => rfl
  | succ m ih =>
    have hnext : c.Next fa = some (c, false) := by
      simp [AggregatorRows.Next, hc]
    simp only [AggregatorRows.nextN, hnext, ih, List.replicate_succ]

theorem group_nextN_add (fa : FloatArith) :
    ∀ (n m : Nat) (c cn : AggregatorRows) (bs : List Bool),
      c.nextN fa n = some (cn, bs) →
      c.nextN fa (n + m)
        = match cn.nextN fa m with
          | none => none
          | some (cm, bs2) => some (cm, bs ++ bs2) := by
  intro n
  induction n with
  | zero =>
    intro m c cn bs h
    simp only [AggregatorRows.nextN, Option.some.injEq, Prod.mk.injEq] at h
    obtain ⟨rfl, rfl⟩ := h
    simp only [Nat.zero_add, List.nil_append]
    cases c.nextN fa m with
    | none => rfl
    | some p => rfl
  | succ n ih =>
    intro m c cn bs h
    have hnm : n + 1 + m = (n + m) + 1 := by omega
    rw [hnm]
    simp only [AggregatorRows.nextN] at h ⊢
    cases hn : c.Next fa with
    | none => simp [hn] at h
    | some p =>
      obtain ⟨c1, b⟩ := p
      simp only [hn] at h ⊢
      cases hrest : AggregatorRows.nextN fa n c1 with
      | none => simp [hrest] at h
      | some p2 =>
        obtain ⟨c2, bs1⟩ := p2
        simp only [hrest, Option.some.injEq, Prod.mk.injEq] at h
        obtain ⟨rfl, rfl⟩ := h
        rw [ih m c1 c2 bs1 hrest]
        cases c2.nextN fa m with
        | none => rfl
        | some p3 => rfl

/-- The first `n` calls of `Next` on a fresh group-by cursor whose key list has
at least `n` keys, each with a bucket that every aggregator accepts: all return
true, and the cursor then stands on key `n - 1` with the current row built from
that key and its bucket. -/
theorem group_nextN_true (fa : FloatArith) (c : AggregatorRows) (hc : c.closed = false)
    (hcur : c.cur = -1)
    (hget : ∀ key ∈ c.dataIndex, ∃ bucket, TreeMap.Get fa c.dataMap key = .ok (some bucket) ∧
      ∀ agg ∈ c.aggregators, ∃ v, agg.Aggregate bucket = .ok v) :
    ∀ n : Nat, n ≤ c.dataIndex.length →
      ∃ cn, c.nextN fa n = some (cn, List.replicate n true) ∧ cn.closed = false ∧
        cn.lastErr = c.lastErr ∧ cn.cur = (n : Int) - 1 ∧ c.sameData cn ∧
        ∀ (i : Nat) (key : Key), n = i + 1 → c.dataIndex[i]? = some key →
          ∃ bucket vals, TreeMap.Get fa c.dataMap key = .ok (some bucket) ∧
            cn.curData = key.columnValues ++ vals ∧
            List.Forall₂ (fun agg v => agg.Aggregate bucket = .ok v) c.aggregators vals := by
  intro n
  induction n with
  | zero =>
    intro _
    refine ⟨c, rfl, hc, rfl, by simp [hcur], ⟨rfl, rfl, rfl, rfl⟩, ?_⟩
    intro i key hi _
    omega
  | succ n ih =>
    intro hn
    obtain ⟨cn, hrun, hclosed, herr, hcn, ⟨hd1, hd2, hd3, hd4⟩, _⟩ := ih (by omega)
    have hlt : n < c.dataIndex.length := by omega
    have hkey : c.dataIndex[n]? = some (c.dataIndex[n]) := List.getElem?_eq_getElem hlt
    obtain ⟨bucket, hb, hagg⟩ := hget (c.dataIndex[n]) (List.getElem_mem hlt)
    obtain ⟨vals, hnext, hall⟩ := group_next_step fa cn hclosed n (by rw [hcn]; omega)
      (c.dataIndex[n]) (by rw [hd2]; exact hkey) bucket (by rw [hd1]; exact hb)
      (by rw [hd3]; exact hagg)
    refine ⟨{ cn with cur := (n : Int), curData := (c.dataIndex[n]).columnValues ++ vals },
      ?_, hclosed, herr, by simp, ⟨hd1, hd2, hd3, hd4⟩, ?_⟩
    · rw [group_nextN_add fa n 1 c cn _ hrun]
      simp only [AggregatorRows.nextN, hnext, List.replicate_succ']
    · intro i key hi hk
      have hin : i = n := by omega
      subst hin
      rw [hkey] at hk
      cases hk
      rw [hd3] at hall
      exact ⟨bucket, vals, hb, rfl, hall⟩

/-- After as many calls of `Next` as there are keys, every further call returns
false and the cursor is closed. -/
theorem group_nextN_false (fa : FloatArith) (c : AggregatorRows) (hc : c.closed = false)
    (hcur : c.cur = -1)
    (hget : ∀ key ∈ c.dataIndex, ∃ bucket, TreeMap.Get fa c.dataMap key = .ok (some bucket) ∧
      ∀ agg ∈ c.aggregators, ∃ v, agg.Aggregate bucket = .ok v) :
    ∀ m : Nat, 1 ≤ m →
      ∃ cm, c.nextN fa (c.dataIndex.length + m)
          = some (cm, List.replicate c.dataIndex.length true ++ List.replicate m false) ∧
        cm.closed = true ∧ cm.lastErr = c.lastErr := by
  intro m hm
  obtain ⟨ck, hrun, hclosed, herr, hck, ⟨_, hd2, _, _⟩, _⟩ :=
    group_nextN_true fa c hc hcur hget c.dataIndex.length (le_refl _)
  obtain ⟨c2, hnext, hc2, herr2⟩ := group_next_exhausted fa ck hclosed
    (by rw [hck, hd2]; omega)
  obtain ⟨m2, rfl⟩ : ∃ m2, m = m2 + 1 := ⟨m - 1, by omega⟩
  have hrest := group_nextN_closed fa c2 hc2 m2
  refine ⟨c2, ?_, hc2, by rw [herr2, herr]⟩
  rw [group_nextN_add fa _ (m2 + 1) c ck _ hrun]
  simp only [AggregatorRows.nextN, hnext, hrest, List.replicate_succ]

theorem groupKey_length :
    ∀ (gc : List ColumnInfo) (row : Row) (vs : List Value),
      groupKey gc row = some vs → vs.length = gc.length := by
  intro gc
  induction gc with
  | nil =>
    intro row vs h
    simp only [groupKey, Option.some.injEq] at h
    subst h
    rfl
  | cons col rest ih =>
    intro row vs h
    simp only [groupKey] at h
    cases hi : index row col.Index with
    | none => simp [hi] at h
    | some v =>
      cases hr : groupKey rest row with
      | none => simp [hi, hr] at h
      | some ws =>
        simp only [hi, hr, Option.some.injEq] at h
        subst h
        simp [ih row ws hr]

theorem key_length_of_mem_keysOf {gc : List ColumnInfo} {rows : List Row} {k : Key}
    (h : k ∈ keysOf gc rows) : k.columnValues.length = gc.length := by
  obtain ⟨row, _, hk⟩ := List.mem_filterMap.mp h
  exact groupKey_length gc row _ (groupKey_of_rowKey hk)

theorem scansAll_called {src : ShardRows} (c : SourceCall) (h : scansAll src) :
    scansAll (src.called c) := h

/-- On sources that can all be scanned to their end and whose group-column
values are of supported kinds, with a context that is not cancelled, the
group-by `Merge` returns the cursor over the index and key list of the scanned
rows. -/
theorem group_merge_ok (fa : FloatArith) (a : AggregatorMerger) (ctx : Context)
    (res0 : ShardRows) (rest : List ShardRows) (ts : List ColumnType)
    (hctx : ctx.err = none) (hts : res0.columnTypes = .ok ts)
    (hscan : ∀ s ∈ res0 :: rest, scansAll s)
    (hcmp : comparableRows a.groupColumns (scannedRows (res0 :: rest))) :
    (a.Merge fa ctx ((res0 :: rest).map some)).2
      = .ok (groupCursorOf a ((res0.called .columnTypes :: rest).map ShardRows.scanned) ts
          (bucketIndex a.groupColumns (scannedRows (res0 :: rest)))
          (dedupKeys (keysOf a.groupColumns (scannedRows (res0 :: rest))))) := by
  have hscan2 : ∀ s ∈ res0.called .columnTypes :: rest, scansAll s := by
    intro s hs
    rcases List.mem_cons.mp hs with rfl | hs
    · exact scansAll_called _ (hscan res0 (List.mem_cons_self _ _))
    · exact hscan s (List.mem_cons_of_mem _ hs)
  have hrows : scannedRows (res0.called .columnTypes :: rest) = scannedRows (res0 :: rest) :=
    rfl
  have hcols := getCols_eq fa a (res0.called .columnTypes :: rest) hscan2
    (by rw [hrows]; exact hcmp)
  rw [hrows] at hcols
  have hlen : ¬ ((res0 :: rest).map some).length = 0 := by simp
  simp only [AggregatorMerger.Merge, hctx, hlen, if_false, allPresent_map_some, hts, hcols,
    groupCursorOf]

theorem get_bucketIndex (fa : FloatArith) {gc : List ColumnInfo} {rows : List Row} {k : Key}
    (hcmp : comparableRows gc rows) (hk : k ∈ dedupKeys (keysOf gc rows)) :
    TreeMap.Get fa (bucketIndex gc rows) k = .ok (some (rowsUnder fa gc rows k)) := by
  have hmemk : ∀ k2 ∈ dedupKeys (keysOf gc rows), k2 ∈ keysOf gc rows :=
    fun k2 hk2 => (mem_dedupKeys _ _).mp hk2
  have hget := get_map fa (sameKeyRows gc rows) k (dedupKeys (keysOf gc rows))
    (fun k2 hk2 => compareKey_eq_iff fa
      (sameKind_of_comparable hcmp (hmemk k hk) (hmemk k2 hk2)))
  unfold bucketIndex
  rw [hget, if_pos hk, sameKeyRows_eq_rowsUnder fa hcmp (hmemk k hk)]

/-! ### The comparator as an order -/

theorem sameKind_symm {x y : Value} (h : sameKind x y) : sameKind y x := by
  cases x <;> cases y <;> simp only [sameKind] at h ⊢
  exact h.symm

theorem sameKind_trans {x y z : Value} (h1 : sameKind x y) (h2 : sameKind y z) :
    sameKind x z := by
  cases x <;> cases y <;> simp only [sameKind] at h1 <;> cases z <;>
    simp only [sameKind] at h2 ⊢
  exact h1.trans h2

theorem valueLt_asymm {x y : Value} (h : valueLt x y) : ¬ valueLt y x := by
  cases x <;> cases y <;> simp only [valueLt] at h ⊢
  · exact lt_asymm h
  · exact lt_asymm h
  · obtain ⟨h1, h2⟩ := h
    simp [h1, h2]

theorem valueLt_trans {x y z : Value} (h1 : valueLt x y) (h2 : valueLt y z) : valueLt x z := by
  cases x <;> cases y <;> simp only [valueLt] at h1 <;> cases z <;>
    simp only [valueLt] at h2 ⊢
  · exact lt_trans h1 h2
  · exact lt_trans h1 h2
  · obtain ⟨_, hb⟩ := h1
    obtain ⟨hb2, _⟩ := h2
    rw [hb] at hb2
    cases hb2

/-- One step of the loop of `compareKey` at two comparable components. -/
theorem compareKeyLoop_cons (fa : FloatArith) {x y : Value} (xs ys : List Value)
    (h : sameKind x y) :
    ∃ c, ((c = 0 ∧ x = y) ∨ (c = -1 ∧ valueLt x y) ∨ (c = 1 ∧ valueLt y x)) ∧
      compareKeyLoop fa (x :: xs) (y :: ys)
        = if c ≠ 0 then .ok c else compareKeyLoop fa xs ys := by
  obtain ⟨f, c, hf, hc, hcase⟩ := compare_sameKind fa h
  exact ⟨c, hcase, by simp only [compareKeyLoop, hf, hc]⟩

theorem compareKeyLoop_self (fa : FloatArith) {xs : List Value}
    (h : List.Forall₂ sameKind xs xs) : compareKeyLoop fa xs xs = .ok 0 := by
  obtain ⟨c, hc, hiff⟩ := compareKeyLoop_zero_iff fa h
  have h0 : c = 0 := hiff.mpr rfl
  rw [hc, h0]

theorem compareKeyLoop_antisymm (fa : FloatArith) {xs ys : List Value}
    (h : List.Forall₂ sameKind xs ys) :
    ∃ c d, compareKeyLoop fa xs ys = .ok c ∧ compareKeyLoop fa ys xs = .ok d ∧ c = -d := by
  induction h with
  | nil => exact ⟨0, 0, rfl, rfl, rfl⟩
  | @cons x y xs ys hxy _ ih =>
    obtain ⟨c, hc, hloop⟩ := compareKeyLoop_cons fa xs ys hxy
    obtain ⟨d, hd, hloop2⟩ := compareKeyLoop_cons fa ys xs (sameKind_symm hxy)
    obtain ⟨c2, d2, hc2, hd2, hcd⟩ := ih
    rw [hloop, hloop2]
    rcases hc with ⟨rfl, hxy2⟩ | ⟨rfl, hlt⟩ | ⟨rfl, hlt⟩
    · rcases hd with ⟨rfl, _⟩ | ⟨_, hlt2⟩ | ⟨_, hlt2⟩
      · exact ⟨c2, d2, by simp [hc2], by simp [hd2], hcd⟩
      · exact absurd hxy2.symm (valueLt_ne hlt2)
      · exact absurd hxy2 (valueLt_ne hlt2)
    · rcases hd with ⟨_, hyx⟩ | ⟨_, hlt2⟩ | ⟨rfl, _⟩
      · exact absurd hyx.symm (valueLt_ne hlt)
      · exact absurd hlt2 (valueLt_asymm hlt)
      · exact ⟨-1, 1, by simp, by simp, rfl⟩
    · rcases hd with ⟨_, hyx⟩ | ⟨rfl, _⟩ | ⟨_, hlt2⟩
      · exact absurd hyx (valueLt_ne hlt)
      · exact ⟨1, -1, by simp, by simp, by simp⟩
      · exact absurd hlt2 (valueLt_asymm hlt)

theorem compareKeyLoop_trans (fa : FloatArith) {xs ys : List Value}
    (h : List.Forall₂ sameKind xs ys) :
    ∀ zs : List Value, List.Forall₂ sameKind ys zs →
      ∃ c d e, compareKeyLoop fa xs ys = .ok c ∧ compareKeyLoop fa ys zs = .ok d ∧
        compareKeyLoop fa xs zs = .ok e ∧ (c ≤ 0 → d ≤ 0 → e ≤ 0) := by
  induction h with
  | nil =>
    intro zs hz
    cases hz
    exact ⟨0, 0, 0, rfl, rfl, rfl, fun _ _ => le_refl _⟩
  | @cons x y xs ys hxy _ ih =>
    intro zs hz
    cases hz with
    | @cons _ z _ zs2 hyz hrest =>
      obtain ⟨c, hc, hl1⟩ := compareKeyLoop_cons fa xs ys hxy
      obtain ⟨d, hd, hl2⟩ := compareKeyLoop_cons fa ys zs2 hyz
      obtain ⟨e, he, hl3⟩ := compareKeyLoop_cons fa xs zs2 (sameKind_trans hxy hyz)
      obtain ⟨c2, d2, e2, hc2, hd2, he2, himp⟩ := ih zs2 hrest
      rw [hl1, hl2, hl3]
      rcases hc with ⟨rfl, hxy2⟩ | ⟨rfl, hlt⟩ | ⟨rfl, hlt⟩
      · subst hxy2
        rcases hd with ⟨rfl, hyz2⟩ | ⟨rfl, hlt2⟩ | ⟨rfl, hlt2⟩
        · subst hyz2
          rcases he with ⟨rfl, _⟩ | ⟨_, hlt3⟩ | ⟨_, hlt3⟩
          · exact ⟨c2, d2, e2, by simp [hc2], by simp [hd2], by simp [he2], himp⟩
          · exact absurd rfl (valueLt_ne hlt3)
          · exact absurd rfl (valueLt_ne hlt3)
        · rcases he with ⟨_, hxz⟩ | ⟨rfl, _⟩ | ⟨_, hlt3⟩
          · exact absurd hxz (valueLt_ne hlt2)
          · exact ⟨c2, -1, -1, by simp [hc2], by simp, by simp, fun _ _ => by omega⟩
          · exact absurd hlt3 (valueLt_asymm hlt2)
        · exact ⟨c2, 1, e, by simp [hc2], by simp, by
            rcases he with ⟨_, hxz⟩ | ⟨_, hlt3⟩ | ⟨rfl, _⟩
            · exact absurd hxz.symm (valueLt_ne hlt2)
            · exact absurd hlt3 (valueLt_asymm hlt2)
            · simp, fun _ h1 => by omega⟩
      · rcases hd with ⟨rfl, hyz2⟩ | ⟨rfl, hlt2⟩ | ⟨rfl, hlt2⟩
        · subst hyz2
          rcases he with ⟨_, hxz⟩ | ⟨rfl, _⟩ | ⟨_, hlt3⟩
          · exact absurd hxz (valueLt_ne hlt)
          · exact ⟨-1, d2, -1, by simp, by simp [hd2], by simp, fun _ _ => by omega⟩
          · exact absurd hlt3 (valueLt_asymm hlt)
        · have hxz := valueLt_trans hlt hlt2
          rcases he with ⟨_, hxz2⟩ | ⟨rfl, _⟩ | ⟨_, hlt3⟩
          · exact absurd hxz2 (valueLt_ne hxz)
          · exact ⟨-1, -1, -1, by simp, by simp, by simp, fun _ _ => by omega⟩
          · exact absurd hlt3 (valueLt_asymm hxz)
        · obtain ⟨e3, he3⟩ : ∃ e3, (if e ≠ 0 then (.ok e : Result Int)
              else compareKeyLoop fa xs zs2) = .ok e3 := by
            by_cases h0 : e ≠ 0
            · exact ⟨e, by simp [h0]⟩
            · exact ⟨e2, by simp [h0, he2]⟩
          exact ⟨-1, 1, e3, by simp, by simp, he3, fun _ h1 => by omega⟩
      · obtain ⟨d3, hd3⟩ : ∃ d3, (if d ≠ 0 then (.ok d : Result Int)
            else compareKeyLoop fa ys zs2) = .ok d3 := by
          by_cases h0 : d ≠ 0
          · exact ⟨d, by simp [h0]⟩
          · exact ⟨d2, by simp [h0, hd2]⟩
        obtain ⟨e3, he3⟩ : ∃ e3, (if e ≠ 0 then (.ok e : Result Int)
            else compareKeyLoop fa xs zs2) = .ok e3 := by
          by_cases h0 : e ≠ 0
          · exact ⟨e, by simp [h0]⟩
          · exact ⟨e2, by simp [h0, he2]⟩
        exact ⟨1, d3, e3, by simp, hd3, he3, fun h1 _ => by omega⟩

theorem sameKind_forall2_self {xs ys : List Value} (h : List.Forall₂ sameKind xs ys) :
    List.Forall₂ sameKind xs xs := by
  induction h with
  | nil => exact List.Forall₂.nil
  | cons hxy _ ih => exact List.Forall₂.cons (sameKind_trans hxy (sameKind_symm hxy)) ih

/-- C22.  On group keys `a`, `b`, `c` of one length whose components at each
position are of one supported kind (integers of one type, strings, booleans),
`compareKey` returns a result on every pair and is a consistent total order:
`compareKey(a, a) = 0`; `compareKey(a, b) = -compareKey(b, a)`; and if
`compareKey(a, b) ≤ 0` and `compareKey(b, c) ≤ 0` then `compareKey(a, c) ≤ 0`. -/
theorem compareKey_total_order (fa : FloatArith) (a b c : Key)
    (hab : List.Forall₂ sameKind a.columnValues b.columnValues)
    (hbc : List.Forall₂ sameKind b.columnValues c.columnValues) :
    compareKey fa a a = .ok 0 ∧
    (∃ x y, compareKey fa a b = .ok x ∧ compareKey fa b a = .ok y ∧ x = -y) ∧
    (∃ x y z, compareKey fa a b = .ok x ∧ compareKey fa b c = .ok y ∧
      compareKey fa a c = .ok z ∧ (x ≤ 0 → y ≤ 0 → z ≤ 0)) := by
  exact ⟨compareKeyLoop_self fa (sameKind_forall2_self hab), compareKeyLoop_antisymm fa hab,
    compareKeyLoop_trans fa hab c.columnValues hbc⟩

/-- C22, witness: the keys (1, true), (2, false) and (2, true). -/
theorem compareKey_total_order_witness :
    compareKey FloatArith.sample { columnValues := [.int .int64 1, .bool true] }
        { columnValues := [.int .int64 1, .bool true] } = .ok 0 ∧
    (∃ x y, compareKey FloatArith.sample { columnValues := [.int .int64 1, .bool true] }
          { columnValues := [.int .int64 2, .bool false] } = .ok x ∧
        compareKey FloatArith.sample { columnValues := [.int .int64 2, .bool false] }
          { columnValues := [.int .int64 1, .bool true] } = .ok y ∧ x = -y) ∧
    (∃ x y z, compareKey FloatArith.sample { columnValues := [.int .int64 1, .bool true] }
          { columnValues := [.int .int64 2, .bool false] } = .ok x ∧
        compareKey FloatArith.sample { columnValues := [.int .int64 2, .bool false] }
          { columnValues := [.int .int64 2, .bool true] } = .ok y ∧
        compareKey FloatArith.sample { columnValues := [.int .int64 1, .bool true] }
          { columnValues := [.int .int64 2, .bool true] } = .ok z ∧
        (x ≤ 0 → y ≤ 0 → z ≤ 0)) :=
  compareKey_total_order FloatArith.sample
    { columnValues := [.int .int64 1, .bool true] }
    { columnValues := [.int .int64 2, .bool false] }
    { columnValues := [.int .int64 2, .bool true] }
    (List.Forall₂.cons rfl (List.Forall₂.cons trivial List.Forall₂.nil))
    (List.Forall₂.cons rfl (List.Forall₂.cons trivial List.Forall₂.nil))

/-! ### The recorded error -/

theorem plain_columnTypes_lastErr (r : Rows) : r.ColumnTypes.1.lastErr = r.lastErr := by
  unfold Rows.ColumnTypes
  split
  · rfl
  · split
    · rfl
    · split
      · rfl
      · split
        · rfl
        · split <;> rfl

/-- A call on a plain cursor without recorded error records one only if it is a
`Next` on an open cursor, the first, that meets an internal error and returns
false. -/
theorem plain_step_sets (r : Rows) (hr : r.lastErr = none) (op : CursorOp) (r1 : Rows)
    (out : CursorOut) (h : r.step op = some (r1, out)) :
    r1.lastErr = none ∨
      (op = .next ∧ out = .next false ∧ r.closed = false ∧ r.nextCalled = false ∧
        r1.closed = true ∧ r1.lastErr = r.nextFailure ∧ r1.lastErr ≠ none) := by
  cases op with
  | next =>
    simp only [Rows.step] at h
    cases hn : r.Next with
    | none => simp [hn] at h
    | some p =>
      obtain ⟨r2, b⟩ := p
      simp only [hn, Option.some.injEq, Prod.mk.injEq] at h
      obtain ⟨rfl, rfl⟩ := h
      unfold Rows.Next at hn
      by_cases hc : r.closed = true ∨ r.lastErr ≠ none
      · rw [if_pos hc] at hn
        simp only [Option.some.injEq, Prod.mk.injEq] at hn
        obtain ⟨rfl, _⟩ := hn
        exact Or.inl hr
      · rw [if_neg hc] at hn
        have hclosed : r.closed = false := by
          cases hcl : r.closed with
          | false => rfl
          | true => exact absurd (Or.inl hcl) hc
        by_cases hnc : r.nextCalled = true
        · rw [if_pos hnc] at hn
          simp only [Option.some.injEq, Prod.mk.injEq] at hn
          obtain ⟨rfl, _⟩ := hn
          exact Or.inl hr
        · rw [if_neg hnc] at hn
          have hnc2 : r.nextCalled = false := by
            cases hx : r.nextCalled with
            | false => rfl
            | true => exact absurd hx hnc
          cases hg : getSqlRowsData r.rowsList with
          | mk srcs res =>
            cases res with
            | error e =>
              simp only [hg, Option.some.injEq, Prod.mk.injEq] at hn
              obtain ⟨rfl, rfl⟩ := hn
              refine Or.inr ⟨rfl, rfl, hclosed, hnc2, rfl, ?_, ?_⟩
              · simp [Rows.nextFailure, hg, Rows.Close]
              · simp [Rows.Close]
            | ok rowsData =>
              simp only [hg] at hn
              cases hx : executeAggregateCalculation r.aggregators rowsData with
              | error f =>
                cases f with
                | err e =>
                  simp only [hx, Option.some.injEq, Prod.mk.injEq] at hn
                  obtain ⟨rfl, rfl⟩ := hn
                  refine Or.inr ⟨rfl, rfl, hclosed, hnc2, rfl, ?_, ?_⟩
                  · simp [Rows.nextFailure, hg, hx, Rows.Close]
                  · simp [Rows.Close]
                | panic => simp [hx] at hn
              | ok vals =>
                simp only [hx, Option.some.injEq, Prod.mk.injEq] at hn
                obtain ⟨rfl, _⟩ := hn
                exact Or.inl hr
  | scan dest =>
    simp only [Rows.step, Option.some.injEq, Prod.mk.injEq] at h
    obtain ⟨rfl, _⟩ := h
    exact Or.inl hr
  | close =>
    simp only [Rows.step, Option.some.injEq, Prod.mk.injEq] at h
    obtain ⟨rfl, _⟩ := h
    exact Or.inl hr
  | columns =>
    simp only [Rows.step, Option.some.injEq, Prod.mk.injEq] at h
    obtain ⟨rfl, _⟩ := h
    exact Or.inl hr
  | columnTypes =>
    simp only [Rows.step, Option.some.injEq, Prod.mk.injEq] at h
    obtain ⟨rfl, _⟩ := h
    exact Or.inl (by rw [plain_columnTypes_lastErr, hr])
  | err =>
    simp only [Rows.step, Option.some.injEq, Prod.mk.injEq] at h
    obtain ⟨rfl, _⟩ := h
    exact Or.inl hr
  | nextResultSet =>
    simp only [Rows.step, Option.some.injEq, Prod.mk.injEq] at h
    obtain ⟨rfl, _⟩ := h
    exact Or.inl hr

/-- Every call on a plain cursor with a recorded error executes and leaves the
error recorded; `Err` returns it and `Scan` fails with it. -/
theorem plain_step_keeps (r : Rows) (e : GoError) (hr : r.lastErr = some e) (op : CursorOp) :
    ∃ r1 out, r.step op = some (r1, out) ∧ r1.lastErr = some e ∧
      (∀ x, out = .err x → x = some e) ∧
      (∀ res, out = .scan res → res = .error (.err e)) := by
  cases op with
  | next =>
    refine ⟨r, .next false, ?_, hr, (fun x hx => by cases hx), (fun res hres => by cases hres)⟩
    simp [Rows.step, Rows.Next, hr]
  | scan dest =>
    refine ⟨r, _, rfl, hr, (fun x hx => by cases hx), ?_⟩
    intro res hres
    cases hres
    simp [Rows.Scan, hr]
  | close => exact ⟨_, _, rfl, hr, (fun x hx => by cases hx), (fun res hres => by cases hres)⟩
  | columns => exact ⟨r, _, rfl, hr, (fun x hx => by cases hx), (fun res hres => by cases hres)⟩
  | columnTypes =>
    exact ⟨_, _, rfl, by rw [plain_columnTypes_lastErr, hr], (fun x hx => by cases hx),
      (fun res hres => by cases hres)⟩
  | err =>
    refine ⟨r, _, rfl, hr, ?_, (fun res hres => by cases hres)⟩
    intro x hx
    cases hx
    exact hr
  | nextResultSet =>
    exact ⟨r, _, rfl, hr, (fun x hx => by cases hx), (fun res hres => by cases hres)⟩

theorem plain_run_keeps (e : GoError) (ops : List CursorOp) :
    ∀ r : Rows, r.lastErr = some e →
      (r.run ops).2.length = ops.length ∧ (r.run ops).1.Err = some e ∧
        errorReturned e (r.run ops).2 := by
  induction ops with
  | nil =>
    intro r hr
    exact ⟨rfl, hr, fun out hout => by cases hout⟩
  | cons op ops ih =>
    intro r hr
    obtain ⟨r1, out, hstep, h1, herr, hscan⟩ := plain_step_keeps r e hr op
    obtain ⟨hlen, hfin, hall⟩ := ih r1 h1
    simp only [Rows.run, hstep, List.length_cons, hlen, true_and]
    refine ⟨hfin, ?_⟩
    intro o ho
    rcases List.mem_cons.mp ho with rfl | ho
    · exact ⟨herr, hscan⟩
    · exact hall o ho

/-- As long as no `Next` has returned false, a plain cursor that started
without recorded error has none. -/
theorem plain_run_none (ops : List CursorOp) :
    ∀ r : Rows, r.lastErr = none →
      (∀ out ∈ (r.run ops).2, out ≠ CursorOut.next false) → (r.run ops).1.Err = none := by
  induction ops with
  | nil =>
    intro r hr _
    exact hr
  | cons op ops ih =>
    intro r hr hall
    cases hstep : r.step op with
    | none =>
      simp only [Rows.run, hstep]
      exact hr
    | some p =>
      obtain ⟨r1, out⟩ := p
      simp only [Rows.run, hstep] at hall ⊢
      rcases plain_step_sets r hr op r1 out hstep with h1 | ⟨_, hout, _⟩
      · exact ih r1 h1 (fun o ho => hall o (List.mem_cons_of_mem _ ho))
      · exact absurd hout (hall out (List.mem_cons_self _ _))

/-- A plain cursor that started without recorded error and has one after some
calls keeps it over all further calls. -/
theorem plain_run_sticky (ops1 : List CursorOp) (e : GoError) (r : Rows)
    (h : (r.run ops1).1.lastErr = some e) (ops2 : List CursorOp) :
    ((r.run ops1).1.run ops2).2.length = ops2.length ∧
      ((r.run ops1).1.run ops2).1.Err = some e ∧
      errorReturned e ((r.run ops1).1.run ops2).2 :=
  plain_run_keeps e ops2 _ h

/-- A call on a group-by cursor without recorded error records one only if it is
a `Next` on an open cursor, not yet past the last key, that meets an aggregator
error and returns false; the cursor is closed then. -/
theorem group_step_sets (fa : FloatArith) (a : AggregatorRows) (ha : a.lastErr = none)
    (op : CursorOp) (a1 : AggregatorRows) (out : CursorOut)
    (h : a.step fa op = some (a1, out)) :
    a1.lastErr = none ∨
      (op = .next ∧ out = .next false ∧ a.closed = false ∧
        a.cur + 1 < (a.dataIndex.length : Int) ∧
        a1.closed = true ∧ a1.lastErr = a.nextFailure fa ∧ a1.lastErr ≠ none) := by
  cases op with
  | next =>
    simp only [AggregatorRows.step] at h
    cases hn : a.Next fa with
    | none => simp [hn] at h
    | some p =>
      obtain ⟨a2, b⟩ := p
      simp only [hn, Option.some.injEq, Prod.mk.injEq] at h
      obtain ⟨rfl, rfl⟩ := h
      unfold AggregatorRows.Next at hn
      by_cases hc : a.closed = true
      · rw [if_pos hc] at hn
        simp only [Option.some.injEq, Prod.mk.injEq] at hn
        obtain ⟨rfl, _⟩ := hn
        exact Or.inl ha
      · rw [if_neg hc] at hn
        have hclosed : a.closed = false := by
          cases hcl : a.closed with
          | false => rfl
          | true => exact absurd hcl hc
        by_cases hend : a.cur + 1 ≥ (a.dataIndex.length : Int)
        · rw [if_pos hend] at hn
          simp only [Option.some.injEq, Prod.mk.injEq] at hn
          obtain ⟨rfl, _⟩ := hn
          exact Or.inl ha
        · rw [if_neg hend] at hn
          cases hk : keyAt a.dataIndex (a.cur + 1) with
          | none => simp [hk] at hn
          | some key =>
            simp only [hk] at hn
            cases hl : nextLoop fa a.dataMap key a.aggregators key.columnValues with
            | mk curData res =>
              cases res with
              | none =>
                simp only [hl, Option.some.injEq, Prod.mk.injEq] at hn
                obtain ⟨rfl, _⟩ := hn
                exact Or.inl ha
              | some f =>
                cases f with
                | err e =>
                  simp only [hl, Option.some.injEq, Prod.mk.injEq] at hn
                  obtain ⟨rfl, rfl⟩ := hn
                  refine Or.inr ⟨rfl, rfl, hclosed, by omega, rfl, ?_, ?_⟩
                  · simp [AggregatorRows.nextFailure, hk, hl, AggregatorRows.Close]
                  · simp [AggregatorRows.Close]
                | panic => simp [hl] at hn
  | scan dest =>
    simp only [AggregatorRows.step, Option.some.injEq, Prod.mk.injEq] at h
    obtain ⟨rfl, _⟩ := h
    exact Or.inl ha
  | close =>
    simp only [AggregatorRows.step, Option.some.injEq, Prod.mk.injEq] at h
    obtain ⟨rfl, _⟩ := h
    exact Or.inl ha
  | columns =>
    simp only [AggregatorRows.step, Option.some.injEq, Prod.mk.injEq] at h
    obtain ⟨rfl, _⟩ := h
    exact Or.inl ha
  | columnTypes =>
    simp only [AggregatorRows.step, Option.some.injEq, Prod.mk.injEq] at h
    obtain ⟨rfl, _⟩ := h
    exact Or.inl ha
  | err =>
    simp only [AggregatorRows.step, Option.some.injEq, Prod.mk.injEq] at h
    obtain ⟨rfl, _⟩ := h
    exact Or.inl ha
  | nextResultSet =>
    simp only [AggregatorRows.step, Option.some.injEq, Prod.mk.injEq] at h
    obtain ⟨rfl, _⟩ := h
    exact Or.inl ha

/-- Every call on a closed group-by cursor with a recorded error executes and
leaves the cursor closed and the error recorded; `Err` returns it and `Scan`
fails with it. -/
theorem group_step_keeps (fa : FloatArith) (a : AggregatorRows) (e : GoError)
    (ha : a.lastErr = some e) (hc : a.closed = true) (op : CursorOp) :
    ∃ a1 out, a.step fa op = some (a1, out) ∧ a1.lastErr = some e ∧ a1.closed = true ∧
      (∀ x, out = .err x → x = some e) ∧
      (∀ res, out = .scan res → res = .error (.err e)) := by
  cases op with
  | next =>
    refine ⟨a, .next false, ?_, ha, hc, (fun x hx => by cases hx),
      (fun res hres => by cases hres)⟩
    simp [AggregatorRows.step, AggregatorRows.Next, hc]
  | scan dest =>
    refine ⟨a, _, rfl, ha, hc, (fun x hx => by cases hx), ?_⟩
    intro res hres
    cases hres
    simp [AggregatorRows.Scan, ha]
  | close =>
    exact ⟨_, _, rfl, ha, rfl, (fun x hx => by cases hx), (fun res hres => by cases hres)⟩
  | columns =>
    exact ⟨a, _, rfl, ha, hc, (fun x hx => by cases hx), (fun res hres => by cases hres)⟩
  | columnTypes =>
    exact ⟨a, _, rfl, ha, hc, (fun x hx => by cases hx), (fun res hres => by cases hres)⟩
  | err =>
    refine ⟨a, _, rfl, ha, hc, ?_, (fun res hres => by cases hres)⟩
    intro x hx
    cases hx
    exact ha
  | nextResultSet =>
    exact ⟨a, _, rfl, ha, hc, (fun x hx => by cases hx), (fun res hres => by cases hres)⟩

theorem group_run_keeps (fa : FloatArith) (e : GoError) (ops : List CursorOp) :
    ∀ a : AggregatorRows, a.lastErr = some e → a.closed = true →
      (a.run fa ops).2.length = ops.length ∧ (a.run fa ops).1.Err = some e ∧
        (a.run fa ops).1.closed = true ∧ errorReturned e (a.run fa ops).2 := by
  induction ops with
  | nil =>
    intro a ha hc
    exact ⟨rfl, ha, hc, fun out hout => by cases hout⟩
  | cons op ops ih =>
    intro a ha hc
    obtain ⟨a1, out, hstep, h1, hc1, herr, hscan⟩ := group_step_keeps fa a e ha hc op
    obtain ⟨hlen, hfin, hcl, hall⟩ := ih a1 h1 hc1
    simp only [AggregatorRows.run, hstep, List.length_cons, hlen, true_and]
    refine ⟨hfin, hcl, ?_⟩
    intro o ho
    rcases List.mem_cons.mp ho with rfl | ho
    · exact ⟨herr, hscan⟩
    · exact hall o ho

/-- A group-by cursor that started without recorded error and has one after
some calls is closed. -/
theorem group_run_closed (fa : FloatArith) (ops : List CursorOp) :
    ∀ a : AggregatorRows, a.lastErr = none →
      ∀ e, (a.run fa ops).1.lastErr = some e → (a.run fa ops).1.closed = true := by
  induction ops with
  | nil =>
    intro a ha e he
    simp only [AggregatorRows.run] at he
    rw [ha] at he
    cases he
  | cons op ops ih =>
    intro a ha e he
    cases hstep : a.step fa op with
    | none =>
      simp only [AggregatorRows.run, hstep] at he
      rw [ha] at he
      cases he
    | some p =>
      obtain ⟨a1, out⟩ := p
      simp only [AggregatorRows.run, hstep] at he ⊢
      rcases group_step_sets fa a ha op a1 out hstep with h1 | ⟨_, _, _, _, hc1, _, hne⟩
      · exact ih a1 h1 e he
      · cases he1 : a1.lastErr with
        | none => exact absurd he1 hne
        | some e1 => exact (group_run_keeps fa e1 ops a1 he1 hc1).2.2.1

/-- As long as no `Next` has returned false, a group-by cursor that started
without recorded error has none. -/
theorem group_run_none (fa : FloatArith) (ops : List CursorOp) :
    ∀ a : AggregatorRows, a.lastErr = none →
      (∀ out ∈ (a.run fa ops).2, out ≠ CursorOut.next false) →
      (a.run fa ops).1.Err = none := by
  induction ops with
  | nil =>
    intro a ha _
    exact ha
  | cons op ops ih =>
    intro a ha hall
    cases hstep : a.step fa op with
    | none =>
      simp only [AggregatorRows.run, hstep]
      exact ha
    | some p =>
      obtain ⟨a1, out⟩ := p
      simp only [AggregatorRows.run, hstep] at hall ⊢
      rcases group_step_sets fa a ha op a1 out hstep with h1 | ⟨_, hout, _⟩
      · exact ih a1 h1 (fun o ho => hall o (List.mem_cons_of_mem _ ho))
      · exact absurd hout (hall out (List.mem_cons_self _ _))

/-- A `Next` of an open plain cursor without recorded error, called for the
first time, that meets an internal error (a failing scan of a shard or a
failing aggregator) returns false, records that error and closes the cursor. -/
theorem plain_next_records (r : Rows) (e : GoError) (hc : r.closed = false)
    (hl : r.lastErr = none) (hn : r.nextCalled = false) (hf : r.nextFailure = some e) :
    ∃ r1, r.step .next = some (r1, .next false) ∧ r1.Err = some e ∧ r1.closed = true := by
  unfold Rows.nextFailure at hf
  simp only [Rows.step, Rows.Next]
  rw [if_neg (by simp [hc, hl]), if_neg (by simp [hn])]
  rcases hg : getSqlRowsData r.rowsList with ⟨srcs, res⟩
  rw [hg] at hf
  cases res with
  | error e1 =>
    simp only [Option.some.injEq] at hf
    subst hf
    exact ⟨_, rfl, rfl, rfl⟩
  | ok rowsData =>
    simp only at hf ⊢
    cases hx : executeAggregateCalculation r.aggregators rowsData with
    | ok res =>
      rw [hx] at hf
      cases hf
    | error f =>
      rw [hx] at hf
      cases f with
      | panic => cases hf
      | err e1 =>
        simp only [Option.some.injEq] at hf
        subst hf
        exact ⟨_, rfl, rfl, rfl⟩

/-- A `Next` of an open group-by cursor that meets an internal error (a
failing aggregator on the bucket of the next key) returns false, records that
error and closes the cursor. -/
theorem group_next_records (fa : FloatArith) (a : AggregatorRows) (e : GoError)
    (hc : a.closed = false) (hf : a.nextFailure fa = some e) :
    ∃ a1, a.step fa .next = some (a1, .next false) ∧ a1.Err = some e ∧ a1.closed = true := by
  unfold AggregatorRows.nextFailure at hf
  cases hk : keyAt a.dataIndex (a.cur + 1) with
  | none =>
    rw [hk] at hf
    cases hf
  | some key =>
    rw [hk] at hf
    have hlt : ¬ (a.cur + 1 ≥ (a.dataIndex.length : Int)) := by
      unfold keyAt at hk
      by_cases h0 : a.cur + 1 < 0
      · rw [if_pos h0] at hk
        cases hk
      · rw [if_neg h0] at hk
        have := (List.getElem?_eq_some_iff.mp hk).1
        omega
    simp only [AggregatorRows.step, AggregatorRows.Next]
    rw [if_neg (by simp [hc]), if_neg hlt, hk]
    simp only at hf ⊢
    rcases hn : nextLoop fa a.dataMap key a.aggregators key.columnValues with ⟨curData, res⟩
    rw [hn] at hf
    cases res with
    | none => cases hf
    | some f =>
      cases f with
      | panic => cases hf
      | err e1 =>
        simp only [Option.some.injEq] at hf
        subst hf
        exact ⟨_, rfl, rfl, rfl⟩

/-- The first aggregator that fails with an error on the bucket of the next
key, after aggregators that succeed, is the failure that `Next` of a group-by
cursor meets. -/
theorem nextLoop_fails (fa : FloatArith) (dataMap : TreeMap) (key : Key) (val : Option (List Row))
    (hget : TreeMap.Get fa dataMap key = .ok val) (agg : Aggregator) (post : List Aggregator)
    (f : Fault) (hagg : agg.Aggregate (val.getD []) = .error f) :
    ∀ (pre : List Aggregator) (curData : List Value),
      (∀ p ∈ pre, ∃ v, p.Aggregate (val.getD []) = .ok v) →
      (nextLoop fa dataMap key (pre ++ agg :: post) curData).2 = some f := by
  intro pre
  induction pre with
  | nil =>
    intro curData _
    simp only [List.nil_append, nextLoop, hget, hagg]
  | cons p pre ih =>
    intro curData hpre
    obtain ⟨v, hv⟩ := hpre p (List.mem_cons_self _ _)
    simp only [List.cons_append, nextLoop, hget, hv]
    exact ih _ (fun q hq => hpre q (List.mem_cons_of_mem _ hq))

/-- C21.  On both cursors, from any state without recorded error (such as the
cursor fresh from `Merge`) and for every sequence of calls: as long as no `Next`
has returned false, `Err` returns nil; a `Next` of the open cursor that meets an
internal error (on the plain cursor the first `Next`, when the scan of a shard
or an aggregator fails; on the group-by cursor a `Next` whose aggregator fails
on the bucket of the next key) returns false, records that error so that `Err`
returns it, and closes the cursor; a call records an error only if it is such a
`Next`, never a `Next` at exhaustion, a `Close` or another call; and once an
error is recorded, every further sequence of calls executes, `Err` returns that
same error throughout and at the end, and every `Scan` fails with it. -/
theorem recorded_error_sticks (fa : FloatArith) (r : Rows) (a : AggregatorRows)
    (hr : r.lastErr = none) (ha : a.lastErr = none) :
    ((∀ ops : List CursorOp, (∀ out ∈ (r.run ops).2, out ≠ CursorOut.next false) →
        (r.run ops).1.Err = none) ∧
      (∀ e : GoError, r.closed = false → r.nextCalled = false → r.nextFailure = some e →
        ∃ r1, r.step .next = some (r1, .next false) ∧ r1.Err = some e ∧ r1.closed = true ∧
          ∀ ops : List CursorOp, (r1.run ops).2.length = ops.length ∧
            (r1.run ops).1.Err = some e ∧ errorReturned e (r1.run ops).2) ∧
      (∀ (op : CursorOp) (r1 : Rows) (out : CursorOut), r.step op = some (r1, out) →
        r1.lastErr = none ∨
          (op = .next ∧ out = .next false ∧ r.closed = false ∧ r.nextCalled = false ∧
            r1.closed = true ∧ r1.lastErr = r.nextFailure ∧ r1.lastErr ≠ none)) ∧
      (∀ (ops1 : List CursorOp) (e : GoError), (r.run ops1).1.lastErr = some e →
        ∀ ops2 : List CursorOp,
          ((r.run ops1).1.run ops2).2.length = ops2.length ∧
          ((r.run ops1).1.run ops2).1.Err = some e ∧
          errorReturned e ((r.run ops1).1.run ops2).2)) ∧
    ((∀ ops : List CursorOp, (∀ out ∈ (a.run fa ops).2, out ≠ CursorOut.next false) →
        (a.run fa ops).1.Err = none) ∧
      (∀ e : GoError, a.closed = false → a.nextFailure fa = some e →
        ∃ a1, a.step fa .next = some (a1, .next false) ∧ a1.Err = some e ∧ a1.closed = true ∧
          ∀ ops : List CursorOp, (a1.run fa ops).2.length = ops.length ∧
            (a1.run fa ops).1.Err = some e ∧ errorReturned e (a1.run fa ops).2) ∧
      (∀ (key : Key) (bucket : Option (List Row)) (pre post : List Aggregator)
          (agg : Aggregator) (e : GoError),
        a.closed = false → keyAt a.dataIndex (a.cur + 1) = some key →
        TreeMap.Get fa a.dataMap key = .ok bucket → a.aggregators = pre ++ agg :: post →
        (∀ p ∈ pre, ∃ v, p.Aggregate (bucket.getD []) = .ok v) →
        agg.Aggregate (bucket.getD []) = .error (.err e) →
        ∃ a1, a.step fa .next = some (a1, .next false) ∧ a1.Err = some e ∧ a1.closed = true) ∧
      (∀ (op : CursorOp) (a1 : AggregatorRows) (out : CursorOut),
        a.step fa op = some (a1, out) →
        a1.lastErr = none ∨
          (op = .next ∧ out = .next false ∧ a.closed = false ∧
            a.cur + 1 < (a.dataIndex.length : Int) ∧
            a1.closed = true ∧ a1.lastErr = a.nextFailure fa ∧ a1.lastErr ≠ none)) ∧
      (∀ (ops1 : List CursorOp) (e : GoError), (a.run fa ops1).1.lastErr = some e →
        ∀ ops2 : List CursorOp,
          (((a.run fa ops1).1).run fa ops2).2.length = ops2.length ∧
          (((a.run fa ops1).1).run fa ops2).1.Err = some e ∧
          errorReturned e (((a.run fa ops1).1).run fa ops2).2)) := by
  refine ⟨⟨fun ops => plain_run_none ops r hr, ?_, plain_step_sets r hr, ?_⟩,
    ⟨fun ops => group_run_none fa ops a ha, ?_, ?_, group_step_sets fa a ha, ?_⟩⟩
  · intro e hc hn hf
    obtain ⟨r1, h1, h2, h3⟩ := plain_next_records r e hc hr hn hf
    refine ⟨r1, h1, h2, h3, fun ops => ?_⟩
    have h := plain_run_sticky [] e r1 h2 ops
    exact h
  · intro ops1 e he ops2
    exact plain_run_sticky ops1 e r he ops2
  · intro e hc hf
    obtain ⟨a1, h1, h2, h3⟩ := group_next_records fa a e hc hf
    refine ⟨a1, h1, h2, h3, fun ops => ?_⟩
    obtain ⟨g1, g2, _, g4⟩ := group_run_keeps fa e ops a1 h2 h3
    exact ⟨g1, g2, g4⟩
  · intro key bucket pre post agg e hc hk hget hsplit hpre hagg
    have hf : a.nextFailure fa = some e := by
      have h := nextLoop_fails fa a.dataMap key bucket hget agg post (.err e) hagg pre
        key.columnValues hpre
      unfold AggregatorRows.nextFailure
      rw [hk, hsplit]
      rcases hn : nextLoop fa a.dataMap key (pre ++ agg :: post) key.columnValues
        with ⟨curData, res⟩
      rw [hn] at h
      simp only at h
      subst h
      simp only [hn]
    obtain ⟨a1, h1, h2, h3⟩ := group_next_records fa a e hc hf
    exact ⟨a1, h1, h2, h3⟩
  · intro ops1 e he ops2
    have hc := group_run_closed fa ops1 a ha e he
    obtain ⟨h1, h2, _, h4⟩ := group_run_keeps fa e ops2 _ he hc
    exact ⟨h1, h2, h4⟩

/-- C21, witness: a plain cursor whose only shard has no row, and a group-by
cursor whose `COUNT` column holds a string.  Both start open and without
recorded error and their first `Next` meets an internal error; on each, `Err`
returns nil, `Next` fails, and `Err` and `Scan` return the error of `Next`
before and after `Close` and a further `Next`. -/
theorem recorded_error_sticks_witness :
    (failingPlainCursor.lastErr = none ∧ failingGroupCursor.lastErr = none) ∧
    (((∀ ops : List CursorOp,
          (∀ out ∈ (failingPlainCursor.run ops).2, out ≠ CursorOut.next false) →
          (failingPlainCursor.run ops).1.Err = none) ∧
        (∀ e : GoError, failingPlainCursor.closed = false →
          failingPlainCursor.nextCalled = false → failingPlainCursor.nextFailure = some e →
          ∃ r1, failingPlainCursor.step .next = some (r1, .next false) ∧ r1.Err = some e ∧
            r1.closed = true ∧
            ∀ ops : List CursorOp, (r1.run ops).2.length = ops.length ∧
              (r1.run ops).1.Err = some e ∧ errorReturned e (r1.run ops).2) ∧
        (∀ (op : CursorOp) (r1 : Rows) (out : CursorOut),
          failingPlainCursor.step op = some (r1, out) →
          r1.lastErr = none ∨
            (op = .next ∧ out = .next false ∧ failingPlainCursor.closed = false ∧
              failingPlainCursor.nextCalled = false ∧ r1.closed = true ∧
              r1.lastErr = failingPlainCursor.nextFailure ∧ r1.lastErr ≠ none)) ∧
        (∀ (ops1 : List CursorOp) (e : GoError),
          (failingPlainCursor.run ops1).1.lastErr = some e →
          ∀ ops2 : List CursorOp,
            ((failingPlainCursor.run ops1).1.run ops2).2.length = ops2.length ∧
            ((failingPlainCursor.run ops1).1.run ops2).1.Err = some e ∧
            errorReturned e ((failingPlainCursor.run ops1).1.run ops2).2)) ∧
      ((∀ ops : List CursorOp,
          (∀ out ∈ (failingGroupCursor.run FloatArith.sample ops).2,
            out ≠ CursorOut.next false) →
          (failingGroupCursor.run FloatArith.sample ops).1.Err = none) ∧
        (∀ e : GoError, failingGroupCursor.closed = false →
          failingGroupCursor.nextFailure FloatArith.sample = some e →
          ∃ a1, failingGroupCursor.step FloatArith.sample .next = some (a1, .next false) ∧
            a1.Err = some e ∧ a1.closed = true ∧
            ∀ ops : List CursorOp, (a1.run FloatArith.sample ops).2.length = ops.length ∧
              (a1.run FloatArith.sample ops).1.Err = some e ∧
              errorReturned e (a1.run FloatArith.sample ops).2) ∧
        (∀ (key : Key) (bucket : Option (List Row)) (pre post : List Aggregator)
            (agg : Aggregator) (e : GoError),
          failingGroupCursor.closed = false →
          keyAt failingGroupCursor.dataIndex (failingGroupCursor.cur + 1) = some key →
          TreeMap.Get FloatArith.sample failingGroupCursor.dataMap key = .ok bucket →
          failingGroupCursor.aggregators = pre ++ agg :: post →
          (∀ p ∈ pre, ∃ v, p.Aggregate (bucket.getD []) = .ok v) →
          agg.Aggregate (bucket.getD []) = .error (.err e) →
          ∃ a1, failingGroupCursor.step FloatArith.sample .next = some (a1, .next false) ∧
            a1.Err = some e ∧ a1.closed = true) ∧
        (∀ (op : CursorOp) (a1 : AggregatorRows) (out : CursorOut),
          failingGroupCursor.step FloatArith.sample op = some (a1, out) →
          a1.lastErr = none ∨
            (op = .next ∧ out = .next false ∧ failingGroupCursor.closed = false ∧
              failingGroupCursor.cur + 1 < (failingGroupCursor.dataIndex.length : Int) ∧
              a1.closed = true ∧
              a1.lastErr = failingGroupCursor.nextFailure FloatArith.sample ∧
              a1.lastErr ≠ none)) ∧
        (∀ (ops1 : List CursorOp) (e : GoError),
          (failingGroupCursor.run FloatArith.sample ops1).1.lastErr = some e →
          ∀ ops2 : List CursorOp,
            (((failingGroupCursor.run FloatArith.sample ops1).1).run
              FloatArith.sample ops2).2.length = ops2.length ∧
            (((failingGroupCursor.run FloatArith.sample ops1).1).run
              FloatArith.sample ops2).1.Err = some e ∧
            errorReturned e
              (((failingGroupCursor.run FloatArith.sample ops1).1).run
                FloatArith.sample ops2).2))) ∧
    (failingPlainCursor.closed = false ∧ failingPlainCursor.nextCalled = false ∧
      failingPlainCursor.nextFailure = some .ErrMergerAggregateHasEmptyRows) ∧
    (failingGroupCursor.closed = false ∧
      failingGroupCursor.nextFailure FloatArith.sample
        = some .ErrMergerAggregateFuncNotFound) ∧
    (failingPlainCursor.run
        [.err, .next, .err, .scan [], .close, .next, .err, .scan []]).2
      = [.err none, .next false, .err (some .ErrMergerAggregateHasEmptyRows),
          .scan (.error (.err .ErrMergerAggregateHasEmptyRows)), .close [], .next false,
          .err (some .ErrMergerAggregateHasEmptyRows),
          .scan (.error (.err .ErrMergerAggregateHasEmptyRows))] ∧
    (failingGroupCursor.run FloatArith.sample
        [.err, .next, .err, .scan [], .close, .next, .err, .scan []]).2
      = [.err none, .next false, .err (some .ErrMergerAggregateFuncNotFound),
          .scan (.error (.err .ErrMergerAggregateFuncNotFound)), .close [], .next false,
          .err (some .ErrMergerAggregateFuncNotFound),
          .scan (.error (.err .ErrMergerAggregateFuncNotFound))] :=
  ⟨⟨rfl, rfl⟩,
    recorded_error_sticks FloatArith.sample failingPlainCursor failingGroupCursor rfl rfl,
    ⟨rfl, rfl, by decide⟩, ⟨rfl, by decide⟩, by decide, by decide⟩

/-! ### The minimum of integers and floats -/

theorem kind_eq_float32 {v : Value} (h : v.kind = .float32) : ∃ b, v = .float32 b := by
  cases v <;> simp only [Value.kind] at h <;> first | exact ⟨_, rfl⟩ | cases h

theorem kind_eq_float64 {v : Value} (h : v.kind = .float64) : ∃ b, v = .float64 b := by
  cases v <;> simp only [Value.kind] at h <;> first | exact ⟨_, rfl⟩ | cases h

/-- With the comparisons of Go, `x.(T) < ans` on two numbers of type `T` that
are no NaN is decided: when it holds `x ≤ ans`, when it does not `ans ≤ x`. -/
theorem lessAssert_numLe (fa : FloatArith) (hfa : fa.ieeeCompare) (T : NumKind) (x ans : Value)
    (hx : x.kind = T.kind) (ha : ans.kind = T.kind) (hxn : x.isNaN = false)
    (han : ans.isNaN = false) :
    ∃ b, lessAssert fa T x ans = .ok b ∧ (b = true → numLe x ans) ∧ (b = false → numLe ans x) := by
  cases T with
  | int k =>
    obtain ⟨i, rfl⟩ := kind_eq_int hx
    obtain ⟨j, rfl⟩ := kind_eq_int ha
    refine ⟨decide (i < j), by simp [lessAssert], ?_, ?_⟩
    · intro h
      simp only [decide_eq_true_eq] at h
      simp only [numLe]
      omega
    · intro h
      simp only [decide_eq_false_iff_not] at h
      simp only [numLe]
      omega
  | float32 =>
    obtain ⟨i, rfl⟩ := kind_eq_float32 hx
    obtain ⟨j, rfl⟩ := kind_eq_float32 ha
    simp only [Value.isNaN] at hxn han
    refine ⟨decide (f32Key i < f32Key j), ?_, ?_, ?_⟩
    · simp [lessAssert, hfa.1, f32Lt, hxn, han]
    · intro h
      simp only [decide_eq_true_eq] at h
      exact ⟨hxn, han, by omega⟩
    · intro h
      simp only [decide_eq_false_iff_not] at h
      exact ⟨han, hxn, by omega⟩
  | float64 =>
    obtain ⟨i, rfl⟩ := kind_eq_float64 hx
    obtain ⟨j, rfl⟩ := kind_eq_float64 ha
    simp only [Value.isNaN] at hxn han
    refine ⟨decide (f64Key i < f64Key j), ?_, ?_, ?_⟩
    · simp [lessAssert, hfa.2, f64Lt, hxn, han]
    · intro h
      simp only [decide_eq_true_eq] at h
      exact ⟨hxn, han, by omega⟩
    · intro h
      simp only [decide_eq_false_iff_not] at h
      exact ⟨han, hxn, by omega⟩

theorem numLe_trans {a b c : Value} (h1 : numLe a b) (h2 : numLe b c) : numLe a c := by
  cases a <;> cases b <;> simp only [numLe] at h1 <;> cases c <;> simp only [numLe] at h2 ⊢
  · omega
  · exact ⟨h1.1, h2.2.1, by omega⟩
  · exact ⟨h1.1, h2.2.1, by omega⟩

theorem numLe_refl (T : NumKind) {a : Value} (ha : a.kind = T.kind) (han : a.isNaN = false) :
    numLe a a := by
  cases T with
  | int k =>
    obtain ⟨i, rfl⟩ := kind_eq_int ha
    exact le_refl i
  | float32 =>
    obtain ⟨i, rfl⟩ := kind_eq_float32 ha
    exact ⟨han, han, le_refl _⟩
  | float64 =>
    obtain ⟨i, rfl⟩ := kind_eq_float64 ha
    exact ⟨han, han, le_refl _⟩

theorem assertType_of_kind (T : NumKind) {v : Value} (h : v.kind = T.kind) :
    assertType T v = .ok v := by
  cases T with
  | int k =>
    obtain ⟨i, rfl⟩ := kind_eq_int h
    simp [assertType]
  | float32 =>
    obtain ⟨i, rfl⟩ := kind_eq_float32 h
    rfl
  | float64 =>
    obtain ⟨i, rfl⟩ := kind_eq_float64 h
    rfl

theorem nonNullValues_cons_null {idx : Int} {row : Row} {col : Value} (rest : List Row)
    (h1 : index row idx = some col) (h2 : col.unwrap = none) :
    nonNullValues idx (row :: rest) = nonNullValues idx rest := by
  simp [nonNullValues, List.filterMap_cons, h1, h2]

theorem nonNullValues_cons_value {idx : Int} {row : Row} {col v : Value} (rest : List Row)
    (h1 : index row idx = some col) (h2 : col.unwrap = some v) :
    nonNullValues idx (row :: rest) = v :: nonNullValues idx rest := by
  simp [nonNullValues, List.filterMap_cons, h1, h2]

/-- With the comparisons of Go, the loop of `Min` over the rows that
`nullableAggregator` hands on, started at a number that is no NaN, returns the
start value or a non-null value of the batch, and what it returns is at most the
start value and every non-null value of the batch. -/
theorem minLoop_least (fa : FloatArith) (hfa : fa.ieeeCompare) (T : NumKind) (idx : Int) :
    ∀ (cols : List Row) (a : Value), a.kind = T.kind → a.isNaN = false →
      (∀ row ∈ cols, nullOrKind idx T.kind row) →
      (∀ v ∈ nonNullValues idx cols, v.isNaN = false) →
      ∃ m, minLoop fa T idx a (cols.filterMap (keepRow idx)) = .ok m ∧
        (m = a ∨ m ∈ nonNullValues idx cols) ∧ numLe m a ∧
        ∀ v ∈ nonNullValues idx cols, numLe m v := by
  intro cols
  induction cols with
  | nil =>
    intro a ha han _ _
    exact ⟨a, by simp [minLoop], Or.inl rfl, numLe_refl T ha han, by simp [nonNullValues]⟩
  | cons row rest ih =>
    intro a ha han hrows hnan
    obtain ⟨col, hcol, hcase⟩ := hrows row (List.mem_cons_self _ _)
    have hrest : ∀ r ∈ rest, nullOrKind idx T.kind r := fun r hr =>
      hrows r (List.mem_cons_of_mem _ hr)
    rcases hcase with hnull | ⟨v, hv, hvk⟩
    · rw [List.filterMap_cons, keepRow_eq_none hcol hnull]
      rw [nonNullValues_cons_null rest hcol hnull] at hnan ⊢
      exact ih a ha han hrest hnan
    · rw [List.filterMap_cons, keepRow_eq_some hcol hv]
      rw [nonNullValues_cons_value rest hcol hv] at hnan ⊢
      have hvn : v.isNaN = false := hnan v (List.mem_cons_self _ _)
      have hnan2 : ∀ w ∈ nonNullValues idx rest, w.isNaN = false := fun w hw =>
        hnan w (List.mem_cons_of_mem _ hw)
      obtain ⟨b, hb, htrue, hfalse⟩ := lessAssert_numLe fa hfa T v a hvk ha hvn han
      simp only [minLoop, index_set_self hcol, hb, List.mem_cons, forall_eq_or_imp]
      cases b with
      | true =>
        obtain ⟨m, hm, hmem, hle, hall⟩ := ih v hvk hvn hrest hnan2
        refine ⟨m, hm, ?_, numLe_trans hle (htrue rfl), hle, hall⟩
        rcases hmem with h | h
        · exact Or.inr (Or.inl h)
        · exact Or.inr (Or.inr h)
      | false =>
        obtain ⟨m, hm, hmem, hle, hall⟩ := ih a ha han hrest hnan2
        refine ⟨m, hm, ?_, hle, numLe_trans hle (hfalse rfl), hall⟩
        rcases hmem with h | h
        · exact Or.inl h
        · exact Or.inr (Or.inr h)

theorem minAggregateFuncMapping_kind (fa : FloatArith) (T : NumKind) :
    minAggregateFuncMapping fa T.kind = some (minAggregate fa T) := by
  cases T <;> rfl

/-- C7.  With the comparisons of Go on floats: on a batch whose value at the
configured index is in bounds in every row and is NULL or a number of one
numeric type (one of the ten integer types, float32 or float64), with at least
one non-null value and no NaN among the non-null values, `Min.Aggregate`
returns the true minimum of the non-null values: the unwrapped value of some
non-null input that is less than or equal to every non-null input; NULL inputs
are ignored. -/
theorem min_returns_minimum (fa : FloatArith) (s : Min) (T : NumKind) (cols : List Row)
    (hfa : fa.ieeeCompare)
    (hrows : ∀ row ∈ cols, nullOrKind s.minInfo.Index T.kind row)
    (hnn : ∃ row ∈ cols, nonNullAt s.minInfo.Index row)
    (hnan : ∀ v ∈ nonNullValues s.minInfo.Index cols, v.isNaN = false) :
    ∃ m, s.Aggregate fa cols = .ok m ∧
      m ∈ nonNullValues s.minInfo.Index cols ∧
      ∀ v ∈ nonNullValues s.minInfo.Index cols, numLe m v := by
  have hne := filterMap_keepRow_ne_nil hnn
  have hagg : s.Aggregate fa cols
      = minAggregate fa T (cols.filterMap (keepRow s.minInfo.Index)) s.minInfo.Index := by
    cases cols with
    | nil =>
      obtain ⟨row, hrow, _⟩ := hnn
      cases hrow
    | cons c0 rest =>
      obtain ⟨col, hcol, _⟩ := hrows c0 (List.mem_cons_self _ _)
      have hb := index_lt_length hcol
      simp only [Min.Aggregate, Min.minNullableAggregator, nullableAggregator_eq _ _ _ hrows,
        List.length_eq_zero, hne, if_false, minAggregateFuncMapping_kind]
      rw [if_neg (by omega)]
  rw [hagg]
  clear hagg hne
  induction cols with
  | nil =>
    obtain ⟨row, hrow, _⟩ := hnn
    cases hrow
  | cons row rest ih =>
    obtain ⟨col, hcol, hcase⟩ := hrows row (List.mem_cons_self _ _)
    have hrest : ∀ r ∈ rest, nullOrKind s.minInfo.Index T.kind r := fun r hr =>
      hrows r (List.mem_cons_of_mem _ hr)
    rcases hcase with hnull | ⟨v, hv, hvk⟩
    · have hnn2 : ∃ r ∈ rest, nonNullAt s.minInfo.Index r := by
        obtain ⟨r, hr, c, w, h1, h2⟩ := hnn
        rcases List.mem_cons.mp hr with rfl | hr
        · rw [hcol] at h1
          cases h1
          rw [hnull] at h2
          cases h2
        · exact ⟨r, hr, c, w, h1, h2⟩
      rw [List.filterMap_cons, keepRow_eq_none hcol hnull]
      rw [nonNullValues_cons_null rest hcol hnull] at hnan ⊢
      exact ih hrest hnn2 hnan
    · rw [List.filterMap_cons, keepRow_eq_some hcol hv]
      rw [nonNullValues_cons_value rest hcol hv] at hnan ⊢
      have hvn : v.isNaN = false := hnan v (List.mem_cons_self _ _)
      have hnan2 : ∀ w ∈ nonNullValues s.minInfo.Index rest, w.isNaN = false := fun w hw =>
        hnan w (List.mem_cons_of_mem _ hw)
      simp only [minAggregate, index_set_self hcol, assertType_of_kind T hvk, List.mem_cons,
        forall_eq_or_imp]
      obtain ⟨m, hm, hmem, hle, hall⟩ :=
        minLoop_least fa hfa T s.minInfo.Index rest v hvk hvn hrest hnan2
      exact ⟨m, hm, hmem, hle, hall⟩

/-- C7, witness: the floats 2.2, NULL and 3.4 of the test of `Min` give 2.2. -/
theorem min_returns_minimum_witness :
    FloatArith.ieee.ieeeCompare ∧
    (∃ m, (minAt 0).Aggregate FloatArith.ieee
        [[.nullFloat64 f64TwoPointTwo true], [.nullFloat64 0 false],
          [.float64 f64ThreePointFour]] = .ok m ∧
      m ∈ nonNullValues 0 [[.nullFloat64 f64TwoPointTwo true], [.nullFloat64 0 false],
          [.float64 f64ThreePointFour]] ∧
      ∀ v ∈ nonNullValues 0 [[.nullFloat64 f64TwoPointTwo true], [.nullFloat64 0 false],
          [.float64 f64ThreePointFour]], numLe m v) ∧
    (minAt 0).Aggregate FloatArith.ieee
        [[.nullFloat64 f64TwoPointTwo true], [.nullFloat64 0 false],
          [.float64 f64ThreePointFour]] = .ok (.float64 f64TwoPointTwo) ∧
    (minAt 0).Aggregate FloatArith.ieee
        [[.int .int64 10], [.int .int64 20], [.int .int64 30]] = .ok (.int .int64 10) :=
  ⟨⟨fun _ _ => rfl, fun _ _ => rfl⟩,
    min_returns_minimum FloatArith.ieee (minAt 0) .float64
      [[.nullFloat64 f64TwoPointTwo true], [.nullFloat64 0 false], [.float64 f64ThreePointFour]]
      ⟨fun _ _ => rfl, fun _ _ => rfl⟩
      (by
        intro row hrow
        simp only [List.mem_cons, List.mem_singleton, List.not_mem_nil, or_false] at hrow
        rcases hrow with rfl | rfl | rfl
        · exact ⟨_, rfl, Or.inr ⟨.float64 f64TwoPointTwo, rfl, rfl⟩⟩
        · exact ⟨_, rfl, Or.inl rfl⟩
        · exact ⟨_, rfl, Or.inr ⟨.float64 f64ThreePointFour, rfl, rfl⟩⟩)
      ⟨[.float64 f64ThreePointFour], by decide, _, .float64 f64ThreePointFour, rfl, rfl⟩
      (by decide),
    by decide, by decide⟩

/-- C7, counterexample: with the comparisons of Go, a batch of the float64 NaN
and 1 has the non-null values NaN and 1; `Min.Aggregate` returns the NaN that
comes first, which is not less than or equal to the input 1, and no value at
all is less than or equal to the input NaN.  In the other order it returns 1,
which is not less than or equal to the input NaN. -/
theorem min_of_nan_not_minimum :
    nonNullValues 0 [[.float64 f64NaN], [.float64 f64One]]
      = [.float64 f64NaN, .float64 f64One] ∧
    (minAt 0).Aggregate FloatArith.ieee [[.float64 f64NaN], [.float64 f64One]]
      = .ok (.float64 f64NaN) ∧
    ¬ numLe (.float64 f64NaN) (.float64 f64One) ∧
    (minAt 0).Aggregate FloatArith.ieee [[.float64 f64One], [.float64 f64NaN]]
      = .ok (.float64 f64One) ∧
    ¬ numLe (.float64 f64One) (.float64 f64NaN) ∧
    ∀ m : Value, ¬ numLe m (.float64 f64NaN) := by
  refine ⟨by decide, by decide, ?_, by decide, ?_, ?_⟩
  · intro h
    exact absurd h.1 (by decide)
  · intro h
    exact absurd h.2.1 (by decide)
  · intro m h
    cases m <;> simp only [numLe] at h
    exact absurd h.2.1 (by decide)

/-! ### The iteration of the group-by cursor -/

theorem addRow_key_length (fa : FloatArith) (gc : List ColumnInfo) (treeMap : TreeMap)
    (keys : List Key) (row : Row) (treeMap2 : TreeMap) (keys2 : List Key)
    (h : addRow fa gc treeMap keys row = .ok (treeMap2, keys2))
    (hk : ∀ k ∈ keys, k.columnValues.length = gc.length) :
    ∀ k ∈ keys2, k.columnValues.length = gc.length := by
  unfold addRow at h
  cases hg : groupKey gc row with
  | none =>
    rw [hg] at h
    cases h
  | some vs =>
    rw [hg] at h
    simp only at h
    cases hget : TreeMap.Get fa treeMap { columnValues := vs } with
    | error f =>
      rw [hget] at h
      cases h
    | ok found =>
      rw [hget] at h
      cases found with
      | some val =>
        simp only at h
        cases hput : TreeMap.Put fa treeMap { columnValues := vs } (val ++ [row]) with
        | error f =>
          rw [hput] at h
          cases h
        | ok tm =>
          rw [hput] at h
          simp only [Except.ok.injEq, Prod.mk.injEq] at h
          obtain ⟨_, rfl⟩ := h
          exact hk
      | none =>
        simp only at h
        cases hput : TreeMap.Put fa treeMap { columnValues := vs } [row] with
        | error f =>
          rw [hput] at h
          cases h
        | ok tm =>
          rw [hput] at h
          simp only [Except.ok.injEq, Prod.mk.injEq] at h
          obtain ⟨_, rfl⟩ := h
          intro k hmem
          rcases List.mem_append.mp hmem with hmem | hmem
          · exact hk k hmem
          · rw [List.mem_singleton] at hmem
            subst hmem
            exact groupKey_length gc row vs hg

theorem addRows_key_length (fa : FloatArith) (gc : List ColumnInfo) :
    ∀ (rows : List Row) (treeMap : TreeMap) (keys : List Key) (treeMap2 : TreeMap)
      (keys2 : List Key),
      addRows fa gc treeMap keys rows = .ok (treeMap2, keys2) →
      (∀ k ∈ keys, k.columnValues.length = gc.length) →
      ∀ k ∈ keys2, k.columnValues.length = gc.length := by
  intro rows
  induction rows with
  | nil =>
    intro treeMap keys treeMap2 keys2 h hk
    simp only [addRows, Except.ok.injEq, Prod.mk.injEq] at h
    obtain ⟨_, rfl⟩ := h
    exact hk
  | cons row rest ih =>
    intro treeMap keys treeMap2 keys2 h hk
    simp only [addRows] at h
    cases hrow : addRow fa gc treeMap keys row with
    | error f =>
      rw [hrow] at h
      cases h
    | ok p =>
      obtain ⟨tm, ks⟩ := p
      rw [hrow] at h
      exact ih tm ks treeMap2 keys2 h (addRow_key_length fa gc treeMap keys row tm ks hrow hk)

theorem getColsLoop_key_length (fa : FloatArith) (gc : List ColumnInfo) :
    ∀ (srcs : List ShardRows) (treeMap : TreeMap) (keys : List Key) (treeMap2 : TreeMap)
      (keys2 : List Key),
      (getColsLoop fa gc treeMap keys srcs).2 = .ok (treeMap2, keys2) →
      (∀ k ∈ keys, k.columnValues.length = gc.length) →
      ∀ k ∈ keys2, k.columnValues.length = gc.length := by
  intro srcs
  induction srcs with
  | nil =>
    intro treeMap keys treeMap2 keys2 h hk
    simp only [getColsLoop, Except.ok.injEq, Prod.mk.injEq] at h
    obtain ⟨_, rfl⟩ := h
    exact hk
  | cons src rest ih =>
    intro treeMap keys treeMap2 keys2 h hk
    simp only [getColsLoop] at h
    rcases hscan : scanAllRows src with ⟨src2, res⟩
    rw [hscan] at h
    cases res with
    | error e => cases h
    | ok colsData =>
      simp only at h
      cases hrows : addRows fa gc treeMap keys colsData with
      | error f =>
        rw [hrows] at h
        cases h
      | ok p =>
        obtain ⟨tm, ks⟩ := p
        rw [hrows] at h
        exact ih tm ks treeMap2 keys2 h
          (addRows_key_length fa gc colsData treeMap keys tm ks hrows hk)

/-- The cursor that the group-by `Merge` returns is open, stands before the
first key, has no recorded error, the aggregators and group columns of the
merger, and keys with one component for every group column. -/
theorem group_merge_fresh (fa : FloatArith) (a : AggregatorMerger) (ctx : Context)
    (results : List (Option ShardRows)) (c : AggregatorRows)
    (hm : (a.Merge fa ctx results).2 = .ok c) :
    c.closed = false ∧ c.cur = -1 ∧ c.lastErr = none ∧ c.aggregators = a.aggregators ∧
      c.groupColumns = a.groupColumns ∧
      ∀ key ∈ c.dataIndex, key.columnValues.length = a.groupColumns.length := by
  unfold AggregatorMerger.Merge at hm
  cases hctx : ctx.err with
  | some e =>
    rw [hctx] at hm
    cases hm
  | none =>
    rw [hctx] at hm
    simp only at hm
    by_cases hlen : results.length = 0
    · rw [if_pos hlen] at hm
      cases hm
    · rw [if_neg hlen] at hm
      cases hall : allPresent results with
      | none =>
        rw [hall] at hm
        cases hm
      | some srcs =>
        rw [hall] at hm
        cases srcs with
        | nil => cases hm
        | cons res0 rest =>
          simp only at hm
          cases hts : res0.columnTypes with
          | error e =>
            rw [hts] at hm
            cases hm
          | ok ts =>
            rw [hts] at hm
            simp only at hm
            rcases hcols : a.getCols fa (res0.called .columnTypes :: rest) with ⟨srcs2, res⟩
            rw [hcols] at hm
            cases res with
            | error f => cases hm
            | ok p =>
              obtain ⟨dataMap, dataIndex⟩ := p
              simp only [Except.ok.injEq] at hm
              subst hm
              refine ⟨rfl, rfl, rfl, rfl, rfl, ?_⟩
              have h2 : (getColsLoop fa a.groupColumns [] []
                  (res0.called .columnTypes :: rest)).2 = .ok (dataMap, dataIndex) := by
                have h3 : (a.getCols fa (res0.called .columnTypes :: rest)).2
                    = .ok (dataMap, dataIndex) := by rw [hcols]
                exact h3
              exact getColsLoop_key_length fa a.groupColumns _ [] [] dataMap dataIndex h2
                (fun k hk => by cases hk)

/-- C16.  Let the group-by `Merge` return a cursor, and let every aggregator
succeed on the bucket that the index of the cursor stores under each key of its
key list.  For every position `i` of the key list the first `i + 1` calls of
`Next` all return true and leave the cursor open, with the current row made of
the components of the key at position `i`, as many as there are group columns,
followed by one value per configured aggregator in declaration order, each the
result of its aggregator on the bucket stored under that key, so that the row
has as many values as there are group columns and aggregators.  With `k` keys,
the first `k` calls return true and every later call returns false, the cursor
closed. -/
theorem group_next_iterates (fa : FloatArith) (a : AggregatorMerger) (ctx : Context)
    (results : List (Option ShardRows)) (c : AggregatorRows)
    (hm : (a.Merge fa ctx results).2 = .ok c)
    (hagg : ∀ key ∈ c.dataIndex, ∃ bucket,
      TreeMap.Get fa c.dataMap key = .ok (some bucket) ∧
        ∀ agg ∈ a.aggregators, ∃ v, agg.Aggregate bucket = .ok v) :
    (∀ (i : Nat) (key : Key), c.dataIndex[i]? = some key →
      ∃ ci bucket vals, c.nextN fa (i + 1) = some (ci, List.replicate (i + 1) true) ∧
        ci.closed = false ∧
        TreeMap.Get fa c.dataMap key = .ok (some bucket) ∧
        ci.curData = key.columnValues ++ vals ∧
        key.columnValues.length = a.groupColumns.length ∧
        List.Forall₂ (fun agg v => agg.Aggregate bucket = .ok v) a.aggregators vals ∧
        ci.curData.length = a.groupColumns.length + a.aggregators.length) ∧
    (∀ m : Nat, 1 ≤ m →
      ∃ cm, c.nextN fa (c.dataIndex.length + m)
          = some (cm, List.replicate c.dataIndex.length true ++ List.replicate m false) ∧
        cm.closed = true) := by
  obtain ⟨hc, hcur, _, haggs, _, hlen⟩ := group_merge_fresh fa a ctx results c hm
  have hget : ∀ key ∈ c.dataIndex, ∃ bucket,
      TreeMap.Get fa c.dataMap key = .ok (some bucket) ∧
        ∀ agg ∈ c.aggregators, ∃ v, agg.Aggregate bucket = .ok v := by
    rw [haggs]
    exact hagg
  refine ⟨?_, ?_⟩
  · intro i key hkey
    have hi : i < c.dataIndex.length := by
      rcases Nat.lt_or_ge i c.dataIndex.length with h | h
      · exact h
      · rw [List.getElem?_eq_none h] at hkey
        cases hkey
    have hmem : key ∈ c.dataIndex := List.getElem?_mem hkey
    obtain ⟨ci, hrun, hclosed, _, _, _, hrow⟩ :=
      group_nextN_true fa c hc hcur hget (i + 1) (by omega)
    obtain ⟨bucket, vals, hb, hrowi, hall⟩ := hrow i key rfl hkey
    rw [haggs] at hall
    have hklen := hlen key hmem
    refine ⟨ci, bucket, vals, hrun, hclosed, hb, hrowi, hklen, hall, ?_⟩
    rw [hrowi, List.length_append, hklen, ← List.Forall₂.length_eq hall]
  · intro m hm1
    obtain ⟨cm, hrun, hclosed, _⟩ := group_nextN_false fa c hc hcur hget m hm1
    exact ⟨cm, hrun, hclosed⟩

/-- C16, witness: the merger of one `COUNT` over column 1 grouped by column 0 on
the shards with the rows (7, 1), (3, 2) and (3, 3), (7, 4).  The first `Next`
gives the row (7, 5), the second the row (3, 5), the third returns false. -/
theorem group_next_iterates_witness :
    (sampleGroupMerger.Merge FloatArith.sample { err := none } [some shardA, some shardB]).2
      = .ok (mergedGroupCursor FloatArith.sample sampleGroupMerger [shardA, shardB]) ∧
    ((∀ (i : Nat) (key : Key),
        (mergedGroupCursor FloatArith.sample sampleGroupMerger [shardA, shardB]).dataIndex[i]?
          = some key →
        ∃ ci bucket vals,
          (mergedGroupCursor FloatArith.sample sampleGroupMerger [shardA, shardB]).nextN
            FloatArith.sample (i + 1) = some (ci, List.replicate (i + 1) true) ∧
          ci.closed = false ∧
          TreeMap.Get FloatArith.sample
            (mergedGroupCursor FloatArith.sample sampleGroupMerger [shardA, shardB]).dataMap key
            = .ok (some bucket) ∧
          ci.curData = key.columnValues ++ vals ∧
          key.columnValues.length = sampleGroupMerger.groupColumns.length ∧
          List.Forall₂ (fun agg v => agg.Aggregate bucket = .ok v)
            sampleGroupMerger.aggregators vals ∧
          ci.curData.length
            = sampleGroupMerger.groupColumns.length + sampleGroupMerger.aggregators.length) ∧
      (∀ m : Nat, 1 ≤ m →
        ∃ cm, (mergedGroupCursor FloatArith.sample sampleGroupMerger [shardA, shardB]).nextN
            FloatArith.sample
            ((mergedGroupCursor FloatArith.sample sampleGroupMerger
              [shardA, shardB]).dataIndex.length + m)
            = some (cm, List.replicate
                (mergedGroupCursor FloatArith.sample sampleGroupMerger
                  [shardA, shardB]).dataIndex.length true ++ List.replicate m false) ∧
          cm.closed = true)) ∧
    (mergedGroupCursor FloatArith.sample sampleGroupMerger [shardA, shardB]).dataIndex
      = [{ columnValues := [.int .int64 7] }, { columnValues := [.int .int64 3] }] ∧
    groupRowAfter FloatArith.sample sampleGroupMerger [shardA, shardB] 1
      = some ([.int .int64 7, .int .int64 5], [true]) ∧
    groupRowAfter FloatArith.sample sampleGroupMerger [shardA, shardB] 2
      = some ([.int .int64 3, .int .int64 5], [true, true]) ∧
    groupRowAfter FloatArith.sample sampleGroupMerger [shardA, shardB] 3
      = some ([.int .int64 3, .int .int64 5], [true, true, false]) :=
  ⟨rfl,
    group_next_iterates FloatArith.sample sampleGroupMerger { err := none }
      [some shardA, some shardB]
      (mergedGroupCursor FloatArith.sample sampleGroupMerger [shardA, shardB]) rfl
      (by
        have hkeys :
            (mergedGroupCursor FloatArith.sample sampleGroupMerger [shardA, shardB]).dataIndex
              = [{ columnValues := [.int .int64 7] }, { columnValues := [.int .int64 3] }] := by
          decide
        intro key hkey
        rw [hkeys] at hkey
        simp only [List.mem_cons, List.mem_singleton, List.not_mem_nil, or_false] at hkey
        rcases hkey with rfl | rfl
        · refine ⟨[[.int .int64 7, .int .int64 1], [.int .int64 7, .int .int64 4]],
            by decide, ?_⟩
          intro agg hagg
          simp only [sampleGroupMerger, NewAggregatorMerger, List.mem_singleton] at hagg
          subst hagg
          exact ⟨.int .int64 5, by decide⟩
        · refine ⟨[[.int .int64 3, .int .int64 2], [.int .int64 3, .int .int64 3]],
            by decide, ?_⟩
          intro agg hagg
          simp only [sampleGroupMerger, NewAggregatorMerger, List.mem_singleton] at hagg
          subst hagg
          exact ⟨.int .int64 5, by decide⟩),
    by decide, by decide, by decide, by decide⟩

/-! ### The index of the group-by merger on keys with floats -/

/-- With the comparisons of Go, the comparison of two values of one ordered
kind by the function that the table holds for the kind of the first returns,
and returns 0 exactly when the values are equal. -/
theorem compare_orderedKind (fa : FloatArith) (hfa : fa.ieeeCompare) {x y : Value}
    (h : orderedKind x y) :
    ∃ compareFunc c, compareFuncMapping fa x.kind = some compareFunc ∧
      compareFunc x y = .ok c ∧ (c = 0 ↔ sameValue x y) := by
  cases x with
  | int k i =>
    cases y with
    | int k2 j =>
      simp only [orderedKind] at h
      subst h
      refine ⟨compare fa (.int k), (if i < j then -1 else if i > j then 1 else 0), rfl,
        by simp [compare], ?_⟩
      simp only [sameValue, true_and]
      by_cases h1 : i < j
      · simp only [h1, if_true]
        constructor
        · intro h0
          omega
        · intro h0
          omega
      · by_cases h2 : i > j
        · simp only [h1, h2, if_true, if_false]
          constructor
          · intro h0
            omega
          · intro h0
            omega
        · simp only [h1, h2, if_false, true_iff]
          omega
    | _ => simp [orderedKind] at h
  | float32 a =>
    cases y with
    | float32 b =>
      simp only [orderedKind] at h
      obtain ⟨ha, hb⟩ := h
      refine ⟨compare fa .float32,
        (if fa.lt32 a b = true then -1 else if fa.lt32 b a = true then 1 else 0), rfl, rfl, ?_⟩
      simp only [hfa.1, f32Lt, ha, hb, Bool.not_false, Bool.true_and, decide_eq_true_eq,
        sameValue, true_and]
      by_cases h1 : f32Key a < f32Key b
      · simp only [h1, if_true]
        constructor
        · intro h0
          omega
        · intro h0
          omega
      · by_cases h2 : f32Key b < f32Key a
        · simp only [h1, h2, if_true, if_false]
          constructor
          · intro h0
            omega
          · intro h0
            omega
        · simp only [h1, h2, if_false, true_iff]
          omega
    | _ => simp [orderedKind] at h
  | float64 a =>
    cases y with
    | float64 b =>
      simp only [orderedKind] at h
      obtain ⟨ha, hb⟩ := h
      refine ⟨compare fa .float64,
        (if fa.lt64 a b = true then -1 else if fa.lt64 b a = true then 1 else 0), rfl, rfl, ?_⟩
      simp only [hfa.2, f64Lt, ha, hb, Bool.not_false, Bool.true_and, decide_eq_true_eq,
        sameValue, true_and]
      by_cases h1 : f64Key a < f64Key b
      · simp only [h1, if_true]
        constructor
        · intro h0
          omega
        · intro h0
          omega
      · by_cases h2 : f64Key b < f64Key a
        · simp only [h1, h2, if_true, if_false]
          constructor
          · intro h0
            omega
          · intro h0
            omega
        · simp only [h1, h2, if_false, true_iff]
          omega
    | _ => simp [orderedKind] at h
  | str s =>
    cases y with
    | str t =>
      refine ⟨compare fa .string, (if s < t then -1 else if s > t then 1 else 0), rfl,
        rfl, ?_⟩
      simp only [sameValue]
      by_cases h1 : s < t
      · simp only [h1, if_true]
        constructor
        · intro h0
          omega
        · intro h0
          subst h0
          exact absurd h1 (lt_irrefl _)
      · by_cases h2 : t < s
        · have h3 : s > t := h2
          simp only [h1, h3, if_true, if_false]
          constructor
          · intro h0
            omega
          · intro h0
            subst h0
            exact absurd h2 (lt_irrefl _)
        · have h3 : ¬ s > t := h2
          simp only [h1, h3, if_false, true_iff]
          exact le_antisymm (not_lt.mp h2) (not_lt.mp h1)
    | _ => simp [orderedKind] at h
  | bool a =>
    cases y with
    | bool b =>
      refine ⟨compareBool, (if a = b then 0 else if a = true ∧ b = false then 1 else -1),
        rfl, rfl, ?_⟩
      cases a <;> cases b <;> simp [sameValue]
    | _ => simp [orderedKind] at h
  | _ => cases y <;> simp [orderedKind] at h

/-- With the comparisons of Go, the loop of `compareKey` on two lists of values
of pairwise ordered kinds returns, and returns 0 exactly when the values are
equal at every position. -/
theorem compareKeyLoop_sameValue (fa : FloatArith) (hfa : fa.ieeeCompare) {xs ys : List Value}
    (h : List.Forall₂ orderedKind xs ys) :
    ∃ c, compareKeyLoop fa xs ys = .ok c ∧ (c = 0 ↔ List.Forall₂ sameValue xs ys) := by
  induction h with
  | nil => exact ⟨0, rfl, by simp⟩
  | @cons x y xs ys hxy _ ih =>
    obtain ⟨f, c, hf, hc, hiff⟩ := compare_orderedKind fa hfa hxy
    obtain ⟨c2, hc2, hiff2⟩ := ih
    by_cases h0 : c = 0
    · refine ⟨c2, by simp [compareKeyLoop, hf, hc, h0, hc2], ?_⟩
      rw [List.forall₂_cons]
      constructor
      · intro h2
        exact ⟨hiff.mp h0, hiff2.mp h2⟩
      · intro h2
        exact hiff2.mpr h2.2
    · refine ⟨c, by simp [compareKeyLoop, hf, hc, h0], ?_⟩
      rw [List.forall₂_cons]
      constructor
      · intro h2
        exact absurd h2 h0
      · intro h2
        exact absurd (hiff.mpr h2.1) h0

theorem keysEqual_iff_sameValue (fa : FloatArith) (hfa : fa.ieeeCompare) {a b : Key}
    (h : List.Forall₂ orderedKind a.columnValues b.columnValues) :
    (∃ c, compareKey fa a b = .ok c) ∧
      (keysEqual fa a b = true ↔ List.Forall₂ sameValue a.columnValues b.columnValues) := by
  obtain ⟨c, hc, hiff⟩ := compareKeyLoop_sameValue fa hfa h
  have hc2 : compareKey fa a b = .ok c := hc
  refine ⟨⟨c, hc2⟩, ?_⟩
  unfold keysEqual
  rw [hc2, ← hiff]
  simp

theorem sameValue_refl {x y : Value} (h : orderedKind x y) : sameValue x x := by
  cases x <;> cases y <;> simp only [orderedKind] at h <;> simp [sameValue] <;> exact h.1

theorem sameValue_symm {x y : Value} (h : sameValue x y) : sameValue y x := by
  cases x <;> cases y <;> simp only [sameValue] at h ⊢
  · exact ⟨h.1.symm, h.2.symm⟩
  · exact ⟨h.2.1, h.1, h.2.2.symm⟩
  · exact ⟨h.2.1, h.1, h.2.2.symm⟩
  · exact h.symm
  · exact h.symm

theorem sameValue_trans {x y z : Value} (h1 : sameValue x y) (h2 : sameValue y z) :
    sameValue x z := by
  cases x <;> cases y <;> simp only [sameValue] at h1 <;> cases z <;>
    simp only [sameValue] at h2 ⊢
  · exact ⟨h1.1.trans h2.1, h1.2.trans h2.2⟩
  · exact ⟨h1.1, h2.2.1, h1.2.2.trans h2.2.2⟩
  · exact ⟨h1.1, h2.2.1, h1.2.2.trans h2.2.2⟩
  · exact h1.trans h2
  · exact h1.trans h2

/-- Two values of one supported kind other than float that are equal as values
are the same value. -/
theorem eq_of_sameValue {x y : Value} (hk : sameKind x x) (h : sameValue x y) : x = y := by
  cases x <;> cases y <;> simp only [sameValue] at h <;> simp only [sameKind] at hk
  · obtain ⟨rfl, rfl⟩ := h
    rfl
  · rw [h]
  · rw [h]

theorem forall2_sameValue_refl {xs ys : List Value} (h : List.Forall₂ orderedKind xs ys) :
    List.Forall₂ sameValue xs xs := by
  induction h with
  | nil => exact List.Forall₂.nil
  | cons hxy _ ih => exact List.Forall₂.cons (sameValue_refl hxy) ih

theorem forall2_sameValue_symm {xs ys : List Value} (h : List.Forall₂ sameValue xs ys) :
    List.Forall₂ sameValue ys xs := by
  induction h with
  | nil => exact List.Forall₂.nil
  | cons hxy _ ih => exact List.Forall₂.cons (sameValue_symm hxy) ih

theorem forall2_sameValue_trans {xs ys : List Value} (h : List.Forall₂ sameValue xs ys) :
    ∀ {zs : List Value}, List.Forall₂ sameValue ys zs → List.Forall₂ sameValue xs zs := by
  induction h with
  | nil =>
    intro zs h2
    cases h2
    exact List.Forall₂.nil
  | cons hxy _ ih =>
    intro zs h2
    cases h2 with
    | cons hyz hrest => exact List.Forall₂.cons (sameValue_trans hxy hyz) (ih hrest)

theorem eq_of_forall2_sameValue {xs ys : List Value} (h : List.Forall₂ sameValue xs ys) :
    List.Forall₂ sameKind xs xs → xs = ys := by
  induction h with
  | nil =>
    intro _
    rfl
  | cons hxy _ ih =>
    intro hk
    cases hk with
    | cons hx hrest => rw [eq_of_sameValue hx hxy, ih hrest]

theorem orderedRows_subset {gc : List ColumnInfo} {big small : List Row}
    (h : orderedRows gc big) (hsub : ∀ r ∈ small, r ∈ big) : orderedRows gc small :=
  fun r1 h1 r2 h2 => h r1 (hsub r1 h1) r2 (hsub r2 h2)

theorem rowKey_of_ordered {gc : List ColumnInfo} {rows : List Row} {row : Row}
    (h : orderedRows gc rows) (hrow : row ∈ rows) : ∃ k, rowKey gc row = some k := by
  obtain ⟨k1, _, h1, _, _⟩ := h row hrow row hrow
  exact ⟨k1, h1⟩

theorem orderedKind_of_ordered {gc : List ColumnInfo} {rows : List Row} {k1 k2 : Key}
    (h : orderedRows gc rows) (h1 : k1 ∈ keysOf gc rows) (h2 : k2 ∈ keysOf gc rows) :
    List.Forall₂ orderedKind k1.columnValues k2.columnValues := by
  obtain ⟨r1, hr1, hk1⟩ := List.mem_filterMap.mp h1
  obtain ⟨r2, hr2, hk2⟩ := List.mem_filterMap.mp h2
  obtain ⟨q1, q2, hq1, hq2, hsame⟩ := h r1 hr1 r2 hr2
  rw [hk1] at hq1
  rw [hk2] at hq2
  cases hq1
  cases hq2
  exact hsame

/-- With the comparisons of Go, the comparator returns on the keys of rows
whose group-column values are of ordered kinds, and to compare equal is an
equivalence on these keys. -/
theorem equivalenceOn_of_ordered (fa : FloatArith) (hfa : fa.ieeeCompare)
    {gc : List ColumnInfo} {rows : List Row} (h : orderedRows gc rows) :
    equivalenceOn fa (keysOf gc rows) := by
  refine ⟨?_, ?_, ?_, ?_⟩
  · intro a ha b hb
    exact (keysEqual_iff_sameValue fa hfa (orderedKind_of_ordered h ha hb)).1
  · intro a ha
    have hk := orderedKind_of_ordered h ha ha
    exact (keysEqual_iff_sameValue fa hfa hk).2.mpr (forall2_sameValue_refl hk)
  · intro a ha b hb hab
    have h1 := (keysEqual_iff_sameValue fa hfa (orderedKind_of_ordered h ha hb)).2.mp hab
    exact (keysEqual_iff_sameValue fa hfa (orderedKind_of_ordered h hb ha)).2.mpr
      (forall2_sameValue_symm h1)
  · intro a ha b hb c hc hab hbc
    have h1 := (keysEqual_iff_sameValue fa hfa (orderedKind_of_ordered h ha hb)).2.mp hab
    have h2 := (keysEqual_iff_sameValue fa hfa (orderedKind_of_ordered h hb hc)).2.mp hbc
    exact (keysEqual_iff_sameValue fa hfa (orderedKind_of_ordered h ha hc)).2.mpr
      (forall2_sameValue_trans h1 h2)

theorem equivalenceOn_subset {fa : FloatArith} {big small : List Key}
    (h : equivalenceOn fa big) (hsub : ∀ k ∈ small, k ∈ big) : equivalenceOn fa small :=
  ⟨fun a ha b hb => h.1 a (hsub a ha) b (hsub b hb),
    fun a ha => h.2.1 a (hsub a ha),
    fun a ha b hb => h.2.2.1 a (hsub a ha) b (hsub b hb),
    fun a ha b hb c hc => h.2.2.2 a (hsub a ha) b (hsub b hb) c (hsub c hc)⟩

theorem firstSeenInto_snoc (eq : Key → Key → Bool) :
    ∀ (ks seen : List Key) (k : Key),
      firstSeenInto eq seen (ks ++ [k])
        = if (firstSeenInto eq seen ks).any (fun s => eq k s) = true then
            firstSeenInto eq seen ks
          else firstSeenInto eq seen ks ++ [k] := by
  intro ks
  induction ks with
  | nil =>
    intro seen k
    simp only [List.nil_append, firstSeenInto]
  | cons k0 ks ih =>
    intro seen k
    simp only [List.cons_append, firstSeenInto]
    split
    · exact ih seen k
    · exact ih (seen ++ [k0]) k

theorem firstSeen_snoc (eq : Key → Key → Bool) (ks : List Key) (k : Key) :
    firstSeen eq (ks ++ [k])
      = if (firstSeen eq ks).any (fun s => eq k s) = true then firstSeen eq ks
        else firstSeen eq ks ++ [k] :=
  firstSeenInto_snoc eq ks [] k

/-- The keys in first-seen order are keys of the list; every key of the list
compares equal to one of them; and none of them compares equal to one before
it. -/
theorem firstSeen_spec (eq : Key → Key → Bool) :
    ∀ ks : List Key, (∀ a ∈ ks, eq a a = true) →
      (∀ s ∈ firstSeen eq ks, s ∈ ks) ∧
      (∀ k ∈ ks, ∃ s ∈ firstSeen eq ks, eq k s = true) ∧
      (firstSeen eq ks).Pairwise (fun s1 s2 => eq s2 s1 = false) := by
  intro ks
  induction ks using List.reverseRecOn with
  | nil =>
    intro _
    exact ⟨(fun s hs => by cases hs), (fun k hk => by cases hk), List.Pairwise.nil⟩
  | append_singleton ks k ih =>
    intro hrefl
    obtain ⟨hsub, hcov, hpw⟩ := ih (fun a ha => hrefl a (List.mem_append_left _ ha))
    rw [firstSeen_snoc]
    by_cases hany : (firstSeen eq ks).any (fun s => eq k s) = true
    · rw [if_pos hany]
      refine ⟨fun s hs => List.mem_append_left _ (hsub s hs), ?_, hpw⟩
      intro k2 hk2
      rcases List.mem_append.mp hk2 with hk2 | hk2
      · exact hcov k2 hk2
      · rw [List.mem_singleton] at hk2
        subst hk2
        obtain ⟨s, hs, hks⟩ := List.any_eq_true.mp hany
        exact ⟨s, hs, hks⟩
    · rw [if_neg hany]
      refine ⟨?_, ?_, ?_⟩
      · intro s hs
        rcases List.mem_append.mp hs with hs | hs
        · exact List.mem_append_left _ (hsub s hs)
        · exact List.mem_append_right _ hs
      · intro k2 hk2
        rcases List.mem_append.mp hk2 with hk2 | hk2
        · obtain ⟨s, hs, hks⟩ := hcov k2 hk2
          exact ⟨s, List.mem_append_left _ hs, hks⟩
        · rw [List.mem_singleton] at hk2
          subst hk2
          exact ⟨k2, List.mem_append_right _ (List.mem_singleton_self _),
            hrefl k2 (List.mem_append_right _ (List.mem_singleton_self _))⟩
      · rw [List.pairwise_append]
        refine ⟨hpw, List.pairwise_singleton _ _, ?_⟩
        intro s hs b hb
        rw [List.mem_singleton] at hb
        subst hb
        cases hsb : eq b s with
        | false => rfl
        | true => exact absurd (List.any_eq_true.mpr ⟨s, hs, hsb⟩) hany

/-- On keys on which to compare equal is an equivalence: no two of the keys in
first-seen order compare equal, in either direction. -/
theorem firstSeen_pairwise (fa : FloatArith) {all ks : List Key} (hE : equivalenceOn fa all)
    (hsub : ∀ k ∈ ks, k ∈ all) :
    (firstSeen (keysEqual fa) ks).Pairwise
      (fun k1 k2 => keysEqual fa k1 k2 = false ∧ keysEqual fa k2 k1 = false) := by
  obtain ⟨hmem, _, hpw⟩ := firstSeen_spec (keysEqual fa) ks (fun a ha => hE.2.1 a (hsub a ha))
  refine List.Pairwise.imp_of_mem ?_ hpw
  intro k1 k2 h1 h2 h21
  refine ⟨?_, h21⟩
  cases h12 : keysEqual fa k1 k2 with
  | false => rfl
  | true =>
    have := hE.2.2.1 k1 (hsub k1 (hmem k1 h1)) k2 (hsub k2 (hmem k2 h2)) h12
    rw [h21] at this
    cases this

theorem firstSeen_nodup (fa : FloatArith) {all ks : List Key} (hE : equivalenceOn fa all)
    (hsub : ∀ k ∈ ks, k ∈ all) : (firstSeen (keysEqual fa) ks).Nodup := by
  obtain ⟨hmem, _, _⟩ := firstSeen_spec (keysEqual fa) ks (fun a ha => hE.2.1 a (hsub a ha))
  refine List.Pairwise.imp_of_mem ?_ (firstSeen_pairwise fa hE hsub)
  intro k1 k2 h1 _ h12 heq
  subst heq
  have := hE.2.1 k1 (hsub k1 (hmem k1 h1))
  rw [h12.1] at this
  cases this

/-- On keys on which to compare equal is an equivalence: a key compares equal to
at most one of the keys in first-seen order. -/
theorem firstSeen_unique (fa : FloatArith) {all ks : List Key} (hE : equivalenceOn fa all)
    (hsub : ∀ k ∈ ks, k ∈ all) {q k1 k2 : Key} (hq : q ∈ all)
    (h1 : k1 ∈ firstSeen (keysEqual fa) ks) (h2 : k2 ∈ firstSeen (keysEqual fa) ks)
    (e1 : keysEqual fa q k1 = true) (e2 : keysEqual fa q k2 = true) : k1 = k2 := by
  obtain ⟨hmem, _, _⟩ := firstSeen_spec (keysEqual fa) ks (fun a ha => hE.2.1 a (hsub a ha))
  by_contra hne
  have hpw := firstSeen_pairwise fa hE hsub
  have hsymm : Symmetric (fun k1 k2 : Key =>
      keysEqual fa k1 k2 = false ∧ keysEqual fa k2 k1 = false) := fun _ _ h => ⟨h.2, h.1⟩
  have hfalse := (List.Pairwise.forall hsymm hpw h1 h2 hne).1
  have m1 := hsub k1 (hmem k1 h1)
  have m2 := hsub k2 (hmem k2 h2)
  have e3 := hE.2.2.1 q hq k1 m1 e1
  have e4 := hE.2.2.2 k1 m1 q hq k2 m2 e3 e2
  rw [hfalse] at e4
  cases e4

theorem keysEqual_of_compareKey {fa : FloatArith} {a b : Key} {c : Int}
    (h : compareKey fa a b = .ok c) : keysEqual fa a b = decide (c = 0) := by
  unfold keysEqual
  rw [h]
  by_cases h0 : c = 0
  · subst h0
    rfl
  · simp [h0]

/-- Looking up a key that compares equal to none of the keys of an index. -/
theorem get_class_none (fa : FloatArith) (B : Key → List Row) (q : Key) :
    ∀ keys : List Key, (∀ k ∈ keys, ∃ c, compareKey fa q k = .ok c) →
      (∀ k ∈ keys, keysEqual fa q k = false) →
      TreeMap.Get fa (keys.map (fun k => (k, B k))) q = .ok none := by
  intro keys
  induction keys with
  | nil =>
    intro _ _
    rfl
  | cons k rest ih =>
    intro hnp hne
    obtain ⟨c, hc⟩ := hnp k (List.mem_cons_self _ _)
    have h0 : c ≠ 0 := by
      have := hne k (List.mem_cons_self _ _)
      rw [keysEqual_of_compareKey hc] at this
      simpa using this
    simp only [List.map_cons, TreeMap.Get, hc, h0, if_false]
    exact ih (fun k2 hk2 => hnp k2 (List.mem_cons_of_mem _ hk2))
      (fun k2 hk2 => hne k2 (List.mem_cons_of_mem _ hk2))

/-- Looking up a key that compares equal to exactly one key of an index. -/
theorem get_class_some (fa : FloatArith) (B : Key → List Row) (q k : Key) :
    ∀ keys : List Key, (∀ k2 ∈ keys, ∃ c, compareKey fa q k2 = .ok c) →
      k ∈ keys → keysEqual fa q k = true →
      (∀ k2 ∈ keys, keysEqual fa q k2 = true → k2 = k) →
      TreeMap.Get fa (keys.map (fun k2 => (k2, B k2))) q = .ok (some (B k)) := by
  intro keys
  induction keys with
  | nil =>
    intro _ hmem _ _
    cases hmem
  | cons s rest ih =>
    intro hnp hmem hqk huniq
    obtain ⟨c, hc⟩ := hnp s (List.mem_cons_self _ _)
    have hs := keysEqual_of_compareKey hc
    by_cases h0 : c = 0
    · have hsk : s = k := huniq s (List.mem_cons_self _ _) (by rw [hs]; simp [h0])
      subst hsk
      simp only [List.map_cons, TreeMap.Get, hc, h0, if_true]
    · have hne : k ≠ s := by
        intro h
        subst h
        rw [hs] at hqk
        simp [h0] at hqk
      have hmem2 : k ∈ rest := by
        rcases List.mem_cons.mp hmem with h | h
        · exact absurd h hne
        · exact h
      simp only [List.map_cons, TreeMap.Get, hc, h0, if_false]
      exact ih (fun k2 hk2 => hnp k2 (List.mem_cons_of_mem _ hk2)) hmem2 hqk
        (fun k2 hk2 => huniq k2 (List.mem_cons_of_mem _ hk2))

/-- Storing under a key that compares equal to none of the keys of an index
adds an entry. -/
theorem put_class_none (fa : FloatArith) (B : Key → List Row) (q : Key) (val : List Row) :
    ∀ keys : List Key, (∀ k ∈ keys, ∃ c, compareKey fa q k = .ok c) →
      (∀ k ∈ keys, keysEqual fa q k = false) →
      TreeMap.Put fa (keys.map (fun k => (k, B k))) q val
        = .ok (keys.map (fun k => (k, B k)) ++ [(q, val)]) := by
  intro keys
  induction keys with
  | nil =>
    intro _ _
    rfl
  | cons k rest ih =>
    intro hnp hne
    obtain ⟨c, hc⟩ := hnp k (List.mem_cons_self _ _)
    have h0 : c ≠ 0 := by
      have := hne k (List.mem_cons_self _ _)
      rw [keysEqual_of_compareKey hc] at this
      simpa using this
    have hrest := ih (fun k2 hk2 => hnp k2 (List.mem_cons_of_mem _ hk2))
      (fun k2 hk2 => hne k2 (List.mem_cons_of_mem _ hk2))
    simp only [List.map_cons, TreeMap.Put, hc, h0, if_false, hrest, List.cons_append]

/-- Storing under a key that compares equal to exactly one key of an index
replaces the bucket of that key. -/
theorem put_class_some (fa : FloatArith) (B : Key → List Row) (q k : Key) (val : List Row) :
    ∀ keys : List Key, (∀ k2 ∈ keys, ∃ c, compareKey fa q k2 = .ok c) →
      k ∈ keys → keysEqual fa q k = true →
      (∀ k2 ∈ keys, keysEqual fa q k2 = true → k2 = k) → keys.Nodup →
      TreeMap.Put fa (keys.map (fun k2 => (k2, B k2))) q val
        = .ok (keys.map (fun k2 => (k2, if keysEqual fa q k2 = true then val else B k2))) := by
  intro keys
  induction keys with
  | nil =>
    intro _ hmem _ _ _
    cases hmem
  | cons s rest ih =>
    intro hnp hmem hqk huniq hnd
    obtain ⟨c, hc⟩ := hnp s (List.mem_cons_self _ _)
    obtain ⟨hsrest, hnd2⟩ := List.nodup_cons.mp hnd
    have hs := keysEqual_of_compareKey hc
    by_cases h0 : c = 0
    · have hsk : s = k := huniq s (List.mem_cons_self _ _) (by rw [hs]; simp [h0])
      subst hsk
      have hqs : keysEqual fa q s = true := hqk
      simp only [List.map_cons, TreeMap.Put, hc, h0, if_true, hqs]
      congr 2
      apply List.map_congr_left
      intro k2 hk2
      have hne : keysEqual fa q k2 ≠ true := by
        intro h
        have := huniq k2 (List.mem_cons_of_mem _ hk2) h
        subst this
        exact hsrest hk2
      simp [hne]
    · have hqs : keysEqual fa q s ≠ true := by
        rw [hs]
        simp [h0]
      have hne : k ≠ s := by
        intro h
        subst h
        exact hqs hqk
      have hmem2 : k ∈ rest := by
        rcases List.mem_cons.mp hmem with h | h
        · exact absurd h hne
        · exact h
      have hrest := ih (fun k2 hk2 => hnp k2 (List.mem_cons_of_mem _ hk2)) hmem2 hqk
        (fun k2 hk2 => huniq k2 (List.mem_cons_of_mem _ hk2)) hnd2
      simp [TreeMap.Put, hc, h0, hrest, hqs]

theorem rowsUnder_snoc (fa : FloatArith) (gc : List ColumnInfo) (done : List Row) (row : Row)
    (q k : Key) (h : rowKey gc row = some q) :
    rowsUnder fa gc (done ++ [row]) k
      = if keysEqual fa q k = true then rowsUnder fa gc done k ++ [row]
        else rowsUnder fa gc done k := by
  unfold rowsUnder
  rw [List.filter_append]
  by_cases hqk : keysEqual fa q k = true
  · simp [List.filter_cons, h, hqk]
  · simp [List.filter_cons, h, hqk]

theorem rowsUnder_eq_nil (fa : FloatArith) {gc : List ColumnInfo} {done : List Row} {k : Key}
    (h : ∀ q ∈ keysOf gc done, keysEqual fa q k = false) : rowsUnder fa gc done k = [] := by
  unfold rowsUnder
  rw [List.filter_eq_nil_iff]
  intro r hr hrq
  cases hk : rowKey gc r with
  | none => simp [hk] at hrq
  | some q =>
    rw [hk] at hrq
    have := h q (List.mem_filterMap.mpr ⟨r, hr, hk⟩)
    simp only at hrq
    rw [this] at hrq
    cases hrq

/-- One row more: on keys on which to compare equal is an equivalence, the body
of the inner loop of `getCols` takes the index and key list of the rows so far
to those of the rows with the new row. -/
theorem addRow_class (fa : FloatArith) (gc : List ColumnInfo) (done : List Row) (row : Row)
    (q : Key) (hq : rowKey gc row = some q)
    (hE : equivalenceOn fa (keysOf gc (done ++ [row]))) :
    addRow fa gc (classIndex fa gc done) (firstSeen (keysEqual fa) (keysOf gc done)) row
      = .ok (classIndex fa gc (done ++ [row]),
          firstSeen (keysEqual fa) (keysOf gc (done ++ [row]))) := by
  have hsnoc : keysOf gc (done ++ [row]) = keysOf gc done ++ [q] := keysOf_snoc done hq
  have hsub : ∀ k ∈ keysOf gc done, k ∈ keysOf gc (done ++ [row]) := by
    intro k hk
    rw [hsnoc]
    exact List.mem_append_left _ hk
  have hqmem : q ∈ keysOf gc (done ++ [row]) := by
    rw [hsnoc]
    simp
  obtain ⟨hmem, hcov, _⟩ := firstSeen_spec (keysEqual fa) (keysOf gc done)
    (fun a ha => hE.2.1 a (hsub a ha))
  have hnp : ∀ k ∈ firstSeen (keysEqual fa) (keysOf gc done),
      ∃ c, compareKey fa q k = .ok c :=
    fun k hk => hE.1 q hqmem k (hsub k (hmem k hk))
  have hkey : ({ columnValues := q.columnValues } : Key) = q := rfl
  simp only [addRow, groupKey_of_rowKey hq, hkey]
  unfold classIndex
  rw [hsnoc, firstSeen_snoc]
  by_cases hany :
      (firstSeen (keysEqual fa) (keysOf gc done)).any (fun s => keysEqual fa q s) = true
  · obtain ⟨k, hk, hqk⟩ := List.any_eq_true.mp hany
    have huniq : ∀ k2 ∈ firstSeen (keysEqual fa) (keysOf gc done),
        keysEqual fa q k2 = true → k2 = k :=
      fun k2 hk2 e2 => firstSeen_unique fa hE hsub hqmem hk2 hk e2 hqk
    rw [if_pos hany, get_class_some fa _ q k _ hnp hk hqk huniq]
    simp only
    rw [put_class_some fa _ q k _ _ hnp hk hqk huniq (firstSeen_nodup fa hE hsub)]
    simp only [Except.ok.injEq, Prod.mk.injEq, and_true]
    apply List.map_congr_left
    intro k2 hk2
    rw [rowsUnder_snoc fa gc done row q k2 hq]
    by_cases e2 : keysEqual fa q k2 = true
    · have := huniq k2 hk2 e2
      subst this
      simp [e2]
    · simp [e2]
  · have hne : ∀ k ∈ firstSeen (keysEqual fa) (keysOf gc done), keysEqual fa q k = false := by
      intro k hk
      cases h : keysEqual fa q k with
      | false => rfl
      | true => exact absurd (List.any_eq_true.mpr ⟨k, hk, h⟩) hany
    rw [if_neg hany, get_class_none fa _ q _ hnp hne]
    simp only
    rw [put_class_none fa _ q _ _ hnp hne]
    simp only [Except.ok.injEq, Prod.mk.injEq, and_true, List.map_append, List.map_cons,
      List.map_nil]
    congr 1
    · apply List.map_congr_left
      intro k hk
      rw [rowsUnder_snoc fa gc done row q k hq]
      simp [hne k hk]
    · rw [rowsUnder_snoc fa gc done row q q hq]
      have hqq := hE.2.1 q hqmem
      have hnil : rowsUnder fa gc done q = [] := by
        apply rowsUnder_eq_nil fa
        intro q2 hq2
        cases h : keysEqual fa q2 q with
        | false => rfl
        | true =>
          obtain ⟨s, hs, hq2s⟩ := hcov q2 hq2
          have e1 := hE.2.2.1 q2 (hsub q2 hq2) q hqmem h
          have e2 := hE.2.2.2 q hqmem q2 (hsub q2 hq2) s (hsub s (hmem s hs)) e1 hq2s
          rw [hne s hs] at e2
          cases e2
      simp [hqq, hnil]

/-- The inner loop of `getCols` over further rows, with the comparisons of Go
on rows whose group-column values are of ordered kinds. -/
theorem addRows_class (fa : FloatArith) (hfa : fa.ieeeCompare) (gc : List ColumnInfo) :
    ∀ (new done : List Row), orderedRows gc (done ++ new) →
      addRows fa gc (classIndex fa gc done) (firstSeen (keysEqual fa) (keysOf gc done)) new
        = .ok (classIndex fa gc (done ++ new),
            firstSeen (keysEqual fa) (keysOf gc (done ++ new))) := by
  intro new
  induction new with
  | nil =>
    intro done _
    simp [addRows]
  | cons row rest ih =>
    intro done h
    have h1 : orderedRows gc (done ++ [row]) :=
      orderedRows_subset h (fun r hr => by
        rcases List.mem_append.mp hr with hr | hr
        · exact List.mem_append_left _ hr
        · exact List.mem_append_right _ (by
            simp only [List.mem_singleton] at hr
            simp [hr]))
    have h2 : orderedRows gc ((done ++ [row]) ++ rest) := by
      simpa using h
    obtain ⟨q, hq⟩ := rowKey_of_ordered h1 (show row ∈ done ++ [row] by simp)
    simp only [addRows, addRow_class fa gc done row q hq (equivalenceOn_of_ordered fa hfa h1)]
    rw [ih (done ++ [row]) h2]
    simp

/-- The outer loop of `getCols` over sources that can be scanned to their end,
with the comparisons of Go on rows whose group-column values are of ordered
kinds. -/
theorem getColsLoop_class (fa : FloatArith) (hfa : fa.ieeeCompare) (gc : List ColumnInfo) :
    ∀ (srcs : List ShardRows) (done : List Row), (∀ s ∈ srcs, scansAll s) →
      orderedRows gc (done ++ scannedRows srcs) →
      getColsLoop fa gc (classIndex fa gc done) (firstSeen (keysEqual fa) (keysOf gc done)) srcs
        = (srcs.map ShardRows.scanned,
            .ok (classIndex fa gc (done ++ scannedRows srcs),
              firstSeen (keysEqual fa) (keysOf gc (done ++ scannedRows srcs)))) := by
  intro srcs
  induction srcs with
  | nil =>
    intro done _ _
    simp [getColsLoop, scannedRows]
  | cons src rest ih =>
    intro done hscan hord
    have h1 : orderedRows gc (done ++ rowsOf src) :=
      orderedRows_subset hord (fun r hr => by
        rcases List.mem_append.mp hr with hr | hr
        · exact List.mem_append_left _ hr
        · exact List.mem_append_right _ (by simp [scannedRows, hr]))
    have h2 : orderedRows gc ((done ++ rowsOf src) ++ scannedRows rest) := by
      simpa [scannedRows] using hord
    have hrest := ih (done ++ rowsOf src)
      (fun s hs => hscan s (List.mem_cons_of_mem _ hs)) h2
    simp only [getColsLoop, scanAllRows_ok src (hscan src (List.mem_cons_self _ _)),
      addRows_class fa hfa gc (rowsOf src) done h1, hrest, List.map_cons, scannedRows,
      List.append_assoc]

/-- With the comparisons of Go, on sources that can be scanned to their end and
whose group-column values are of ordered kinds, `getCols` returns the keys of
the scanned rows in first-seen order and, under each, the rows whose key
compares equal to it. -/
theorem getCols_class (fa : FloatArith) (hfa : fa.ieeeCompare) (a : AggregatorMerger)
    (srcs : List ShardRows) (hscan : ∀ s ∈ srcs, scansAll s)
    (hord : orderedRows a.groupColumns (scannedRows srcs)) :
    a.getCols fa srcs
      = (srcs.map ShardRows.scanned,
          .ok (classIndex fa a.groupColumns (scannedRows srcs),
            firstSeen (keysEqual fa) (keysOf a.groupColumns (scannedRows srcs)))) := by
  have h := getColsLoop_class fa hfa a.groupColumns srcs [] hscan (by simpa using hord)
  simpa [AggregatorMerger.getCols, classIndex, firstSeen, keysOf, firstSeenInto] using h

theorem scansAll_floatSamples : ∀ s ∈ [shardFloatA, shardFloatB], scansAll s := by
  intro s hs
  simp only [List.mem_cons, List.mem_singleton, List.not_mem_nil, or_false] at hs
  rcases hs with rfl | rfl
  · exact scansAll_sourceOf _
  · exact scansAll_sourceOf _

theorem orderedRows_floatSamples :
    orderedRows sampleGroupMerger.groupColumns (scannedRows [shardFloatA, shardFloatB]) := by
  have hrows : scannedRows [shardFloatA, shardFloatB]
      = [[.float64 f64TwoPointTwo, .int .int64 1], [.float64 f64ThreePointFour, .int .int64 2],
          [.float64 f64ThreePointFour, .int .int64 3], [.float64 f64TwoPointTwo, .int .int64 4]] :=
    rfl
  rw [hrows]
  intro r1 h1 r2 h2
  simp only [List.mem_cons, List.mem_singleton, List.not_mem_nil, or_false] at h1 h2
  rcases h1 with rfl | rfl | rfl | rfl <;> rcases h2 with rfl | rfl | rfl | rfl <;>
    exact ⟨_, _, rfl, rfl, List.Forall₂.cons ⟨by decide, by decide⟩ List.Forall₂.nil⟩

/-- C15.  With the comparisons of Go on floats, on shard sources that can all
be scanned to their end and whose group-column values are of supported kinds
(per group column integers of one type, strings, booleans, or floats of one
width none of which is a NaN), `getCols` succeeds and its key list is the list
of the group keys of all scanned rows, shard by shard in the order supplied and
row by row, with every key that compares equal to an earlier one removed
(`firstSeen`): first-seen order.  No two keys of the list compare equal; every
key of the list is the key of a scanned row; the key of every scanned row
compares equal to exactly one key of the list, and is itself in the list when
none of its components is a float; and the keys of two rows compare equal if
and only if the rows have equal group-column values, so that such rows, from
whatever shards, stand under one key and rows that differ in a group column
under separate keys. -/
theorem getCols_keys_first_seen (fa : FloatArith) (a : AggregatorMerger)
    (srcs : List ShardRows) (hfa : fa.ieeeCompare) (hscan : ∀ s ∈ srcs, scansAll s)
    (hord : orderedRows a.groupColumns (scannedRows srcs)) :
    ∃ treeMap keys, (a.getCols fa srcs).2 = .ok (treeMap, keys) ∧
      keys = firstSeen (keysEqual fa) (keysOf a.groupColumns (scannedRows srcs)) ∧
      keys.Pairwise (fun k1 k2 => keysEqual fa k1 k2 = false ∧ keysEqual fa k2 k1 = false) ∧
      (∀ k ∈ keys, k ∈ keysOf a.groupColumns (scannedRows srcs)) ∧
      (∀ row ∈ scannedRows srcs, ∃ q, rowKey a.groupColumns row = some q ∧
        (∃ k ∈ keys, keysEqual fa q k = true ∧
          ∀ k2 ∈ keys, keysEqual fa q k2 = true → k2 = k) ∧
        (List.Forall₂ sameKind q.columnValues q.columnValues → q ∈ keys)) ∧
      (∀ r1 ∈ scannedRows srcs, ∀ r2 ∈ scannedRows srcs, ∀ q1 q2,
        rowKey a.groupColumns r1 = some q1 → rowKey a.groupColumns r2 = some q2 →
        (keysEqual fa q1 q2 = true
          ↔ List.Forall₂ sameValue q1.columnValues q2.columnValues)) := by
  have hE := equivalenceOn_of_ordered fa hfa hord
  have hsub : ∀ k ∈ keysOf a.groupColumns (scannedRows srcs),
      k ∈ keysOf a.groupColumns (scannedRows srcs) := fun _ h => h
  obtain ⟨hmem, hcov, _⟩ := firstSeen_spec (keysEqual fa)
    (keysOf a.groupColumns (scannedRows srcs)) (fun k hk => hE.2.1 k hk)
  refine ⟨_, _, by rw [getCols_class fa hfa a srcs hscan hord], rfl,
    firstSeen_pairwise fa hE hsub, hmem, ?_, ?_⟩
  · intro row hrow
    obtain ⟨q, hq⟩ := rowKey_of_ordered hord hrow
    have hqmem := mem_keysOf_of_rowKey hrow hq
    obtain ⟨k, hk, hqk⟩ := hcov q hqmem
    refine ⟨q, hq, ⟨k, hk, hqk, fun k2 hk2 e2 => firstSeen_unique fa hE hsub hqmem hk2 hk e2 hqk⟩,
      ?_⟩
    intro hkind
    have hsame := (keysEqual_iff_sameValue fa hfa
      (orderedKind_of_ordered hord hqmem (hmem k hk))).2.mp hqk
    have hqk2 : q = k := (key_eq_iff q k).mpr (eq_of_forall2_sameValue hsame hkind)
    rw [hqk2]
    exact hk
  · intro r1 h1 r2 h2 q1 q2 hq1 hq2
    exact (keysEqual_iff_sameValue fa hfa (orderedKind_of_ordered hord
      (mem_keysOf_of_rowKey h1 hq1) (mem_keysOf_of_rowKey h2 hq2))).2

/-- C15, witness: the shards with the float64 users (2.2, 3.4) and (3.4, 2.2);
the key list is 2.2, 3.4, the order in which the keys are first seen.  On the
shards with the integer users (7, 3) and (3, 7) the key list is 7, 3, not the
sorted order. -/
theorem getCols_keys_first_seen_witness :
    (FloatArith.ieee.ieeeCompare ∧ (∀ s ∈ [shardFloatA, shardFloatB], scansAll s) ∧
      orderedRows sampleGroupMerger.groupColumns (scannedRows [shardFloatA, shardFloatB])) ∧
    (∃ treeMap keys,
      (sampleGroupMerger.getCols FloatArith.ieee [shardFloatA, shardFloatB]).2
        = .ok (treeMap, keys) ∧
      keys = firstSeen (keysEqual FloatArith.ieee)
        (keysOf sampleGroupMerger.groupColumns (scannedRows [shardFloatA, shardFloatB])) ∧
      keys.Pairwise (fun k1 k2 =>
        keysEqual FloatArith.ieee k1 k2 = false ∧ keysEqual FloatArith.ieee k2 k1 = false) ∧
      (∀ k ∈ keys,
        k ∈ keysOf sampleGroupMerger.groupColumns (scannedRows [shardFloatA, shardFloatB])) ∧
      (∀ row ∈ scannedRows [shardFloatA, shardFloatB],
        ∃ q, rowKey sampleGroupMerger.groupColumns row = some q ∧
          (∃ k ∈ keys, keysEqual FloatArith.ieee q k = true ∧
            ∀ k2 ∈ keys, keysEqual FloatArith.ieee q k2 = true → k2 = k) ∧
          (List.Forall₂ sameKind q.columnValues q.columnValues → q ∈ keys)) ∧
      (∀ r1 ∈ scannedRows [shardFloatA, shardFloatB],
        ∀ r2 ∈ scannedRows [shardFloatA, shardFloatB], ∀ q1 q2,
        rowKey sampleGroupMerger.groupColumns r1 = some q1 →
        rowKey sampleGroupMerger.groupColumns r2 = some q2 →
        (keysEqual FloatArith.ieee q1 q2 = true
          ↔ List.Forall₂ sameValue q1.columnValues q2.columnValues))) ∧
    firstSeen (keysEqual FloatArith.ieee)
        (keysOf sampleGroupMerger.groupColumns (scannedRows [shardFloatA, shardFloatB]))
      = [{ columnValues := [.float64 f64TwoPointTwo] },
          { columnValues := [.float64 f64ThreePointFour] }] ∧
    (sampleGroupMerger.getCols FloatArith.ieee [shardA, shardB]).2
      = .ok ([({ columnValues := [.int .int64 7] },
                [[.int .int64 7, .int .int64 1], [.int .int64 7, .int .int64 4]]),
              ({ columnValues := [.int .int64 3] },
                [[.int .int64 3, .int .int64 2], [.int .int64 3, .int .int64 3]])],
            [{ columnValues := [.int .int64 7] }, { columnValues := [.int .int64 3] }]) :=
  ⟨⟨⟨fun _ _ => rfl, fun _ _ => rfl⟩, scansAll_floatSamples, orderedRows_floatSamples⟩,
    getCols_keys_first_seen FloatArith.ieee sampleGroupMerger [shardFloatA, shardFloatB]
      ⟨fun _ _ => rfl, fun _ _ => rfl⟩ scansAll_floatSamples orderedRows_floatSamples,
    by decide, by decide⟩

/-- C15, counterexample: with the comparisons of Go, on the shard with the rows
(user 1, count 1) and (user NaN, count 2), whose group column holds float64,
`getCols` builds the key list with the single key 1 and puts both rows under
it, because the comparator returns 0 for a NaN against every key.  The key
NaN of the second row is not in the key list, and the two rows, which differ
in the group column, come out as one output row: the first `Next` gives (1, 3)
and the second returns false. -/
theorem getCols_nan_key_merged :
    (sampleGroupMerger.getCols FloatArith.ieee [shardNaN]).2
      = .ok ([({ columnValues := [.float64 f64One] },
                [[.float64 f64One, .int .int64 1], [.float64 f64NaN, .int .int64 2]])],
            [{ columnValues := [.float64 f64One] }]) ∧
    scannedRows [shardNaN]
      = [[.float64 f64One, .int .int64 1], [.float64 f64NaN, .int .int64 2]] ∧
    rowKey sampleGroupMerger.groupColumns [.float64 f64NaN, .int .int64 2]
      = some { columnValues := [.float64 f64NaN] } ∧
    compareKey FloatArith.ieee { columnValues := [.float64 f64NaN] }
      { columnValues := [.float64 f64One] } = .ok 0 ∧
    ({ columnValues := [.float64 f64NaN] } : Key) ∉ [({ columnValues := [.float64 f64One] } : Key)] ∧
    [Value.float64 f64NaN] ≠ [Value.float64 f64One] ∧
    groupRowAfter FloatArith.ieee sampleGroupMerger [shardNaN] 2
      = some ([.float64 f64One, .int .int64 3], [true, false]) := by
  refine ⟨by decide, rfl, rfl, by decide, by decide, by decide, by decide⟩

theorem mem_rowsUnder {fa : FloatArith} {gc : List ColumnInfo} {rows : List Row} {row : Row}
    {q k : Key} (hq : rowKey gc row = some q) :
    row ∈ rowsUnder fa gc rows k ↔ row ∈ rows ∧ keysEqual fa q k = true := by
  simp [rowsUnder, List.mem_filter, hq]

theorem sum_indicator_class (p : Key → Bool) (k : Key) :
    ∀ keys : List Key, keys.Nodup → k ∈ keys → p k = true →
      (∀ k2 ∈ keys, p k2 = true → k2 = k) →
      (keys.map (fun k2 => if p k2 = true then 1 else 0)).sum = 1 := by
  intro keys
  induction keys with
  | nil =>
    intro _ h _ _
    cases h
  | cons s rest ih =>
    intro hnd hmem hpk huniq
    obtain ⟨hs, hnd2⟩ := List.nodup_cons.mp hnd
    by_cases hps : p s = true
    · have hsk : s = k := huniq s (List.mem_cons_self _ _) hps
      subst hsk
      have hzero : (rest.map (fun k2 => if p k2 = true then 1 else 0)).sum = 0 := by
        apply List.sum_eq_zero
        intro x hx
        obtain ⟨k2, hk2, rfl⟩ := List.mem_map.mp hx
        have : p k2 ≠ true := by
          intro h
          have := huniq k2 (List.mem_cons_of_mem _ hk2) h
          subst this
          exact hs hk2
        simp [this]
      simp [hps, hzero]
    · have hne : k ≠ s := by
        intro h
        subst h
        exact hps hpk
      have hmem2 : k ∈ rest := by
        rcases List.mem_cons.mp hmem with h | h
        · exact absurd h hne
        · exact h
      simp [hps, ih hnd2 hmem2 hpk (fun k2 hk2 => huniq k2 (List.mem_cons_of_mem _ hk2))]

theorem sum_rowsUnder_length (fa : FloatArith) (gc : List ColumnInfo) (keys : List Key) :
    ∀ rows : List Row,
      (∀ row ∈ rows, ∃ q, rowKey gc row = some q ∧
        (keys.map (fun k => if keysEqual fa q k = true then 1 else 0)).sum = 1) →
      (keys.map (fun k => (rowsUnder fa gc rows k).length)).sum = rows.length := by
  intro rows
  induction rows with
  | nil =>
    intro _
    simp [rowsUnder]
  | cons row rest ih =>
    intro h
    obtain ⟨q, hq, hone⟩ := h row (List.mem_cons_self _ _)
    have hrest := ih (fun r hr => h r (List.mem_cons_of_mem _ hr))
    have hsplit : ∀ k, (rowsUnder fa gc (row :: rest) k).length
        = (if keysEqual fa q k = true then 1 else 0) + (rowsUnder fa gc rest k).length := by
      intro k
      unfold rowsUnder
      rw [List.filter_cons]
      by_cases hqk : keysEqual fa q k = true
      · simp [hq, hqk, Nat.add_comm]
      · simp [hq, hqk]
    simp only [hsplit, List.sum_map_add, hrest, hone, List.length_cons]
    omega

/-- C19.  With the comparisons of Go on floats, on shard sources that can all
be scanned to their end and whose group-column values are of supported kinds
(per group column integers of one type, strings, booleans, or floats of one
width none of which is a NaN), the index that `getCols` builds holds under
every key of the key list exactly the scanned rows (shard by shard in the order
supplied, row by row) whose group key compares equal to that key, in arrival
order; every scanned row is in the bucket of exactly one key of the list; and
the sizes of the buckets add up to the number of scanned rows. -/
theorem getCols_buckets (fa : FloatArith) (a : AggregatorMerger)
    (srcs : List ShardRows) (hfa : fa.ieeeCompare) (hscan : ∀ s ∈ srcs, scansAll s)
    (hord : orderedRows a.groupColumns (scannedRows srcs)) :
    ∃ treeMap keys, (a.getCols fa srcs).2 = .ok (treeMap, keys) ∧
      (∀ k ∈ keys, TreeMap.Get fa treeMap k
        = .ok (some (rowsUnder fa a.groupColumns (scannedRows srcs) k))) ∧
      (∀ row ∈ scannedRows srcs, ∃ k ∈ keys,
        row ∈ rowsUnder fa a.groupColumns (scannedRows srcs) k ∧
        ∀ k2 ∈ keys, row ∈ rowsUnder fa a.groupColumns (scannedRows srcs) k2 → k2 = k) ∧
      (keys.map (fun k => (rowsUnder fa a.groupColumns (scannedRows srcs) k).length)).sum
        = (scannedRows srcs).length := by
  have hE := equivalenceOn_of_ordered fa hfa hord
  have hsub : ∀ k ∈ keysOf a.groupColumns (scannedRows srcs),
      k ∈ keysOf a.groupColumns (scannedRows srcs) := fun _ h => h
  obtain ⟨hmem, hcov, _⟩ := firstSeen_spec (keysEqual fa)
    (keysOf a.groupColumns (scannedRows srcs)) (fun k hk => hE.2.1 k hk)
  have hnd := firstSeen_nodup fa hE hsub
  refine ⟨_, _, by rw [getCols_class fa hfa a srcs hscan hord], ?_, ?_, ?_⟩
  · intro k hk
    have hkmem := hmem k hk
    exact get_class_some fa (rowsUnder fa a.groupColumns (scannedRows srcs)) k k _
      (fun k2 hk2 => hE.1 k hkmem k2 (hmem k2 hk2)) hk (hE.2.1 k hkmem)
      (fun k2 hk2 e2 => firstSeen_unique fa hE hsub hkmem hk2 hk e2 (hE.2.1 k hkmem))
  · intro row hrow
    obtain ⟨q, hq⟩ := rowKey_of_ordered hord hrow
    have hqmem := mem_keysOf_of_rowKey hrow hq
    obtain ⟨k, hk, hqk⟩ := hcov q hqmem
    refine ⟨k, hk, (mem_rowsUnder hq).mpr ⟨hrow, hqk⟩, ?_⟩
    intro k2 hk2 hin
    exact firstSeen_unique fa hE hsub hqmem hk2 hk ((mem_rowsUnder hq).mp hin).2 hqk
  · apply sum_rowsUnder_length
    intro row hrow
    obtain ⟨q, hq⟩ := rowKey_of_ordered hord hrow
    have hqmem := mem_keysOf_of_rowKey hrow hq
    obtain ⟨k, hk, hqk⟩ := hcov q hqmem
    exact ⟨q, hq, sum_indicator_class (fun k2 => keysEqual fa q k2) k _ hnd hk hqk
      (fun k2 hk2 e2 => firstSeen_unique fa hE hsub hqmem hk2 hk e2 hqk)⟩

/-- C19, witness: the shards with the rows (2.2, 1), (3.4, 2) and (3.4, 3),
(2.2, 4), the users being float64; the bucket of user 2.2 holds (2.2, 1) and
(2.2, 4), that of user 3.4 holds (3.4, 2) and (3.4, 3). -/
theorem getCols_buckets_witness :
    (FloatArith.ieee.ieeeCompare ∧ (∀ s ∈ [shardFloatA, shardFloatB], scansAll s) ∧
      orderedRows sampleGroupMerger.groupColumns (scannedRows [shardFloatA, shardFloatB])) ∧
    (∃ treeMap keys,
      (sampleGroupMerger.getCols FloatArith.ieee [shardFloatA, shardFloatB]).2
        = .ok (treeMap, keys) ∧
      (∀ k ∈ keys, TreeMap.Get FloatArith.ieee treeMap k
        = .ok (some (rowsUnder FloatArith.ieee sampleGroupMerger.groupColumns
            (scannedRows [shardFloatA, shardFloatB]) k))) ∧
      (∀ row ∈ scannedRows [shardFloatA, shardFloatB], ∃ k ∈ keys,
        row ∈ rowsUnder FloatArith.ieee sampleGroupMerger.groupColumns
          (scannedRows [shardFloatA, shardFloatB]) k ∧
        ∀ k2 ∈ keys, row ∈ rowsUnder FloatArith.ieee sampleGroupMerger.groupColumns
          (scannedRows [shardFloatA, shardFloatB]) k2 → k2 = k) ∧
      (keys.map (fun k => (rowsUnder FloatArith.ieee sampleGroupMerger.groupColumns
          (scannedRows [shardFloatA, shardFloatB]) k).length)).sum
        = (scannedRows [shardFloatA, shardFloatB]).length) ∧
    (sampleGroupMerger.getCols FloatArith.ieee [shardFloatA, shardFloatB]).2
      = .ok ([({ columnValues := [.float64 f64TwoPointTwo] },
                [[.float64 f64TwoPointTwo, .int .int64 1],
                  [.float64 f64TwoPointTwo, .int .int64 4]]),
              ({ columnValues := [.float64 f64ThreePointFour] },
                [[.float64 f64ThreePointFour, .int .int64 2],
                  [.float64 f64ThreePointFour, .int .int64 3]])],
            [{ columnValues := [.float64 f64TwoPointTwo] },
              { columnValues := [.float64 f64ThreePointFour] }]) :=
  ⟨⟨⟨fun _ _ => rfl, fun _ _ => rfl⟩, scansAll_floatSamples, orderedRows_floatSamples⟩,
    getCols_buckets FloatArith.ieee sampleGroupMerger [shardFloatA, shardFloatB]
      ⟨fun _ _ => rfl, fun _ _ => rfl⟩ scansAll_floatSamples orderedRows_floatSamples,
    by decide⟩

/-- C19, counterexample: with the comparisons of Go, on the shard with the rows
(user 1, count 1), (user NaN, count 2) and (user 2, count 3), whose group
column holds float64, `getCols` builds the keys 1 and 2 and stores the row of
the NaN under the key 1.  The key of that row compares equal to the key 2 as
well, so the scanned rows whose key compares equal to the key 2 are the rows
of NaN and of 2, while the bucket stored under the key 2 holds the row of 2
alone; and the row of NaN is among the rows that compare equal to either
key. -/
theorem getCols_nan_bucket_misplaced :
    (sampleGroupMerger.getCols FloatArith.ieee [shardNaNBetween]).2
      = .ok ([({ columnValues := [.float64 f64One] },
                [[.float64 f64One, .int .int64 1], [.float64 f64NaN, .int .int64 2]]),
              ({ columnValues := [.float64 f64Two] }, [[.float64 f64Two, .int .int64 3]])],
            [{ columnValues := [.float64 f64One] }, { columnValues := [.float64 f64Two] }]) ∧
    TreeMap.Get FloatArith.ieee
        [({ columnValues := [.float64 f64One] },
            [[.float64 f64One, .int .int64 1], [.float64 f64NaN, .int .int64 2]]),
          ({ columnValues := [.float64 f64Two] }, [[.float64 f64Two, .int .int64 3]])]
        { columnValues := [.float64 f64Two] }
      = .ok (some [[.float64 f64Two, .int .int64 3]]) ∧
    rowsUnder FloatArith.ieee sampleGroupMerger.groupColumns (scannedRows [shardNaNBetween])
        { columnValues := [.float64 f64Two] }
      = [[.float64 f64NaN, .int .int64 2], [.float64 f64Two, .int .int64 3]] ∧
    rowsUnder FloatArith.ieee sampleGroupMerger.groupColumns (scannedRows [shardNaNBetween])
        { columnValues := [.float64 f64One] }
      = [[.float64 f64One, .int .int64 1], [.float64 f64NaN, .int .int64 2]] ∧
    [[Value.float64 f64Two, Value.int .int64 3]]
      ≠ [[.float64 f64NaN, .int .int64 2], [.float64 f64Two, .int .int64 3]] := by
  refine ⟨by decide, by decide, by decide, by decide, by decide⟩

end Eorm
